import Mathlib

/-!
Verification of the DataStore class (src/data-store.js).

The JavaScript heap is modelled by id-labelled trees: every composite value
(object or array) carries a numeric identity standing for its reference, so
that reference sharing between the committed tree (this.data) and the working
tree (this.activeData) is expressible as an id occurring in both trees.
Primitives carry no identity, matching JS where only objects have identity.

Modelling conventions, noted once here:
- property keys are strings (JS coerces numeric indices to strings);
- arrays are composite nodes flagged isArr, their fields being the indexed
  own properties; the length property and sparse-array details are outside
  the claims and are not modelled;
- the character-index own properties of string primitives are not modelled;
- reads of inherited Object.prototype members yield a function in JS; this
  model returns undefined for them, and theorems that would be affected
  carry a noProtoNames hypothesis confining them to trees that do not use
  prototype property names as keys (the in operator, which the code uses in
  has() and in the delete phase of reset(), does model the prototype chain);
- a JS TypeError (property access on null or undefined, strict-mode
  assignment to a primitive) is modelled by returning none.
-/

/-- JS primitive values as they can occur in the stored trees. -/
inductive Prim where
  | undef : Prim
  | null : Prim
  | boolv : Bool → Prim
  | num : Int → Prim
  | str : String → Prim
deriving DecidableEq

/-- An id-labelled JS value: a primitive leaf, or a composite node with its
reference identity, an array flag, and its own enumerable properties in
insertion order. -/
inductive LVal where
  | prim : Prim → LVal
  | node : Nat → Bool → List (String × LVal) → LVal

/-- Association lookup of an own property, first match. -/
def lookupField : List (String × LVal) → String → Option LVal
  | [], _ => none
  | (k, v) :: rest, key => if k = key then some v else lookupField rest key

/-- Writing an own property: overwrite in place if present (JS keeps the
original insertion position), otherwise append. -/
def setField : List (String × LVal) → String → LVal → List (String × LVal)
  | [], key, val => [(key, val)]
  | (k, v) :: rest, key, val =>
    if k = key then (key, val) :: rest else (k, v) :: setField rest key val

/-- Deleting an own property. -/
def removeField : List (String × LVal) → String → List (String × LVal)
  | [], _ => []
  | (k, v) :: rest, key =>
    if k = key then removeField rest key else (k, v) :: removeField rest key

/-- Own enumerable property names in insertion order. -/
def fieldNames (fs : List (String × LVal)) : List String :=
  fs.map Prod.fst

/-- Whether the value is a composite, i.e. obj instanceof Object in JS
(null and the other primitives are not). -/
def isNodeB : LVal → Bool
  | LVal.node _ _ _ => true
  | LVal.prim _ => false

/-- The typeof operator restricted to the modelled values. -/
def typeOf : LVal → String
  | LVal.prim Prim.undef => "undefined"
  | LVal.prim Prim.null => "object"
  | LVal.prim (Prim.boolv _) => "boolean"
  | LVal.prim (Prim.num _) => "number"
  | LVal.prim (Prim.str _) => "string"
  | LVal.node _ _ _ => "object"

/-- Property read p[k] on a value that is a valid for-in base: an own
property if present, else undefined. Inherited members and string indices
are not modelled (see the header note). -/
def jsGetRaw : LVal → String → LVal
  | LVal.node _ _ fs, key =>
    match lookupField fs key with
    | some v => v
    | none => LVal.prim Prim.undef
  | LVal.prim _, _ => LVal.prim Prim.undef

/-- Property names of Object.prototype, visible to the in operator on every
plain object (ES2015 set). -/
def protoKeys : List String :=
  ["constructor", "hasOwnProperty", "isPrototypeOf", "propertyIsEnumerable",
   "toLocaleString", "toString", "valueOf",
   "__defineGetter__", "__defineSetter__", "__lookupGetter__",
   "__lookupSetter__", "__proto__"]

/-- Representative Array.prototype member names plus the own length
property, visible to the in operator on arrays. -/
def arrayOwnProto : List String :=
  ["length", "concat", "every", "filter", "forEach", "indexOf", "join",
   "lastIndexOf", "map", "pop", "push", "reduce", "reduceRight", "reverse",
   "shift", "slice", "some", "sort", "splice", "unshift", "entries", "keys",
   "values", "find", "findIndex", "includes", "fill", "copyWithin", "flat",
   "flatMap", "at"]

/-- The JS in operator: own property or an inherited prototype member.
Applied to a primitive, in throws a TypeError, modelled as false here; the
call sites that matter guard it behind composite-pointer hypotheses. -/
def jsIn : LVal → String → Bool
  | LVal.node _ false fs, key => (fieldNames fs).contains key || protoKeys.contains key
  | LVal.node _ true fs, key =>
    (fieldNames fs).contains key || arrayOwnProto.contains key || protoKeys.contains key
  | LVal.prim _, _ => false

/-- Object.keys / for-in key list: undefined for null and undefined bases
(TypeError), index strings for string primitives, empty for the other
primitives, the own enumerable names for composites. -/
def jsOwnKeys : LVal → Option (List String)
  | LVal.node _ _ fs => some (fieldNames fs)
  | LVal.prim Prim.undef => none
  | LVal.prim Prim.null => none
  | LVal.prim (Prim.str s) => some ((List.range s.length).map (fun n => Nat.repr n))
  | LVal.prim _ => some []

/-- Strict equality on the modelled values: primitives compare by value,
composites by reference identity. -/
def strictEq : LVal → LVal → Bool
  | LVal.prim p, LVal.prim q => p = q
  | LVal.node i _ _, LVal.node j _ _ => i = j
  | _, _ => false

/-- Pointer resolution, one tree at a time: the walk of getPointers.
Walking through a missing key or into a primitive leaves an unusable
pointer in JS (undefined, or a TypeError on the next access); both are
collapsed into none. -/
def resolveNs : LVal → List String → Option LVal
  | v, [] => some v
  | LVal.node _ _ fs, key :: rest =>
    match lookupField fs key with
    | some v => resolveNs v rest
    | none => none
  | LVal.prim _, _ :: _ => none

mutual
/-- The deepCopy method: a structural clone that breaks all references.
The Nat argument is the allocation counter supplying fresh node ids; the
returned counter is the next unused id. -/
def deepCopy : Nat → LVal → LVal × Nat
  | c, LVal.prim p => (LVal.prim p, c)
  | c, LVal.node _ arr fs =>
    let r := deepCopyFields (c + 1) fs
    (LVal.node c arr r.1, r.2)

/-- Field-by-field clone used by deepCopy, in insertion order: composite
values are cloned recursively, primitives are assigned directly. -/
def deepCopyFields : Nat → List (String × LVal) → List (String × LVal) × Nat
  | c, [] => ([], c)
  | c, (k, v) :: rest =>
    match v with
    | LVal.node i arr fs =>
      let r := deepCopy c (LVal.node i arr fs)
      let r2 := deepCopyFields r.2 rest
      ((k, r.1) :: r2.1, r2.2)
    | LVal.prim p =>
      let r := deepCopyFields c rest
      ((k, LVal.prim p) :: r.1, r.2)
end

mutual
/-- The changed() walk at a resolved pair of pointers (committed, working).
It first compares Object.keys counts, then iterates the committed keys:
a typeof mismatch or a strict inequality of non-composites reports a change,
a composite committed value recurses through the derived namespace. A crash
(Object.keys on null or undefined, reached when a working value is null
where the committed value is composite) is none. A primitive committed
pointer iterates no keys, so only the count check applies; string bases are
not compared character-wise (outside every claim). -/
def changedAt : LVal → LVal → Option Bool
  | LVal.node _ _ cfs, w =>
    match jsOwnKeys w with
    | none => none
    | some k1 =>
      if (fieldNames cfs).length ≠ k1.length then some true
      else changedFields cfs w
  | LVal.prim p, w =>
    match jsOwnKeys (LVal.prim p), jsOwnKeys w with
    | some k0, some k1 => if k0.length ≠ k1.length then some true else some false
    | _, _ => none

/-- The per-key loop of changed() over the committed fields. -/
def changedFields : List (String × LVal) → LVal → Option Bool
  | [], _ => some false
  | (k, cv) :: rest, w =>
    if typeOf cv ≠ typeOf (jsGetRaw w k) then some true
    else if isNodeB cv then
      match changedAt cv (jsGetRaw w k) with
      | none => none
      | some true => some true
      | some false => changedFields rest w
    else if ¬ strictEq cv (jsGetRaw w k) then some true
    else changedFields rest w
end

/-- A store: the committed tree (this.data), the working tree
(this.activeData, absent until first synthesized), and the allocation
counter supplying fresh node identities to deepCopy. A namespace handle is
the pair of a store and a path (config.namespace); since all handles of one
root share both trees by reference, the path is passed to each operation
below instead of materializing handle objects. -/
structure Store where
  data : LVal
  activeData : Option LVal
  nextId : Nat

namespace DataStore

/-- Namespace derivation ns(name): the derived handle shares both trees and
appends one segment to the path. -/
def ns (p : List String) (name : String) : List String := p ++ [name]

/-- The resetPointer/reset first-use branch: if no working tree exists,
synthesize it as a deep copy of the committed tree. -/
def ensureActive (s : Store) : Store :=
  match s.activeData with
  | some _ => s
  | none =>
    let r := deepCopy s.nextId s.data
    Store.mk s.data (some r.1) r.2

/-- The working pointer of getPointers, refreshed (resetPointer) before
every read or write: resolve the namespace path inside the working tree. -/
def pointerOf (s : Store) (p : List String) : Option LVal :=
  match (ensureActive s).activeData with
  | some a => resolveNs a p
  | none => none

/-- Property read get(key): this.pointer[key]. A null or undefined base
throws (none); a missing key yields undefined. -/
def get (s : Store) (p : List String) (key : String) : Option LVal :=
  match pointerOf s p with
  | some (LVal.node i arr fs) => some (jsGetRaw (LVal.node i arr fs) key)
  | some (LVal.prim Prim.null) => none
  | some (LVal.prim Prim.undef) => none
  | some (LVal.prim _) => some (LVal.prim Prim.undef)
  | none => none

/-- Presence test has(key): key in this.pointer; the in operator sees own
and inherited properties and throws on primitive bases. -/
def has (s : Store) (p : List String) (key : String) : Option Bool :=
  match pointerOf s p with
  | some (LVal.node i arr fs) => some (jsIn (LVal.node i arr fs) key)
  | some (LVal.prim _) => none
  | none => none

/-- Key enumeration keys(): for arrays the dense index list, otherwise the
own property names, both in insertion order. -/
def keys (s : Store) (p : List String) : Option (List String) :=
  match pointerOf s p with
  | some v => jsOwnKeys v
  | none => none

/-- In-place update of the value sitting at a namespace path; none when the
path does not resolve through composite nodes (the JS access would crash or
write into nowhere). -/
def updAt : LVal → List String → (LVal → Option LVal) → Option LVal
  | v, [], f => f v
  | LVal.node i arr fs, k :: rest, f =>
    match lookupField fs k with
    | some child =>
      match updAt child rest f with
      | some c2 => some (LVal.node i arr (setField fs k c2))
      | none => none
    | none => none
  | LVal.prim _, _ :: _, _ => none

/-- Mutation set(key, value): this.pointer[key] = value. Assignment to a
primitive pointer throws in strict mode, leaving the store fields as they
were (only the lazily synthesized working tree remains). -/
def set (s : Store) (p : List String) (key : String) (v : LVal) : Store :=
  let s2 := ensureActive s
  match s2.activeData with
  | some a =>
    match updAt a p (fun ptr =>
      match ptr with
      | LVal.node i arr fs => some (LVal.node i arr (setField fs key v))
      | LVal.prim _ => none) with
    | some a2 => Store.mk s2.data (some a2) s2.nextId
    | none => s2
  | none => s2

/-- Mutation unset(key): delete this.pointer[key]; deleting a missing or
non-own key is a no-op, deleting on a primitive base is a no-op too. -/
def unset (s : Store) (p : List String) (key : String) : Store :=
  let s2 := ensureActive s
  match s2.activeData with
  | some a =>
    match updAt a p (fun ptr =>
      match ptr with
      | LVal.node i arr fs => some (LVal.node i arr (removeField fs key))
      | LVal.prim q => some (LVal.prim q)) with
    | some a2 => Store.mk s2.data (some a2) s2.nextId
    | none => s2
  | none => s2

/-- The changed() query at a namespace: false when no working tree exists
yet, otherwise the walk over the resolved pointer pair; an unresolvable
pointer makes Object.keys throw. -/
def changed (s : Store) (p : List String) : Option Bool :=
  match s.activeData with
  | none => some false
  | some a =>
    match resolveNs s.data p, resolveNs a p with
    | some cm, some w => changedAt cm w
    | _, _ => none

end DataStore

namespace DataStore

/-- Writing one property of the working pointer during the reset fold:
assignment to a primitive base throws in strict mode. -/
def writeProp : LVal → String → LVal → Option LVal
  | LVal.node i arr fs, key, v => some (LVal.node i arr (setField fs key v))
  | LVal.prim _, _, _ => none

/-- Whether a value has any own enumerable key, deciding if the for-in
phases of reset() do anything at all on it. -/
def hasOwnEnumerable : LVal → Bool
  | LVal.node _ _ fs => ¬ fs.isEmpty
  | LVal.prim _ => false

mutual
/-- The reset() fold at a resolved pointer pair (committed, working), with
the allocation counter. Phase one walks the committed keys, recursing into
composite values the working side also defines, deep-copying composite
values missing there and assigning primitives; phase two deletes the
working keys the in operator does not find on the committed node. The
working node is mutated in place, so its identity is preserved. A crash
(strict-mode assignment to a primitive working value) is none. -/
def resetNode : Nat → LVal → LVal → Option (LVal × Nat)
  | c, LVal.node ci carr cfs, w =>
    match resetFields c cfs w with
    | some r =>
      match r.1 with
      | LVal.node wi warr wfs =>
        some (LVal.node wi warr
          (wfs.filter (fun kv => jsIn (LVal.node ci carr cfs) kv.1)), r.2)
      | LVal.prim q => some (LVal.prim q, r.2)
    | none => none
  | c, LVal.prim _, w =>
    if hasOwnEnumerable w then none else some (w, c)

/-- Phase one of reset(): the loop over the committed keys, updating the
working value left to right. -/
def resetFields : Nat → List (String × LVal) → LVal → Option (LVal × Nat)
  | c, [], w => some (w, c)
  | c, (k, cv) :: rest, w =>
    match cv with
    | LVal.node ci carr cfs =>
      if typeOf (jsGetRaw w k) ≠ "undefined" then
        match resetNode c (LVal.node ci carr cfs) (jsGetRaw w k) with
        | some r =>
          match writeProp w k r.1 with
          | some w2 => resetFields r.2 rest w2
          | none => none
        | none => none
      else
        let r := deepCopy c (LVal.node ci carr cfs)
        match writeProp w k r.1 with
        | some w2 => resetFields r.2 rest w2
        | none => none
    | LVal.prim q =>
      match writeProp w k (LVal.prim q) with
      | some w2 => resetFields c rest w2
      | none => none
end

/-- The reset() entry point at a namespace: with no working tree yet it
synthesizes the whole working tree as a deep copy of the committed tree and
stops; otherwise it runs the fold at the resolved pointers and writes the
folded working node back at the path. An unresolvable or primitive pointer
only no-ops when the for-in phases have nothing to iterate. -/
def reset (s : Store) (p : List String) : Option Store :=
  match s.activeData with
  | none =>
    let r := deepCopy s.nextId s.data
    some (Store.mk s.data (some r.1) r.2)
  | some a =>
    match resolveNs s.data p, resolveNs a p with
    | some cm, some w =>
      match cm with
      | LVal.node ci carr cfs =>
        match resetNode s.nextId (LVal.node ci carr cfs) w with
        | some r =>
          match updAt a p (fun _ => some r.1) with
          | some a2 => some (Store.mk s.data (some a2) r.2)
          | none => none
        | none => none
      | LVal.prim _ =>
        if hasOwnEnumerable w then none else some s
    | some cm, none =>
      if hasOwnEnumerable cm then none else some s
    | none, some w =>
      if hasOwnEnumerable w then none else some s
    | none, none => some s

/-- The commit(save) operation at a namespace. The committed pointer is
cleared and repopulated from the working pointer, deep-copying composite
values and assigning primitives (the repopulation loop is elementwise the
deepCopyFields clone); if save is requested the backend persists the whole
updated root committed tree, a thrown backend error (some message from bk)
propagating immediately with the already-folded in-memory state; finally
the namespace is reset. Commit through non-composite pointers or before a
working tree exists is outside the claims and is not modelled (none). -/
def commit (s : Store) (p : List String) (save : Bool)
    (bk : LVal → Option String) : Option (Store × Option String) :=
  match s.activeData with
  | none => none
  | some a =>
    match resolveNs s.data p, resolveNs a p with
    | some (LVal.node ci carr _), some (LVal.node _ _ wfs) =>
      let r := deepCopyFields s.nextId wfs
      match updAt s.data p (fun _ => some (LVal.node ci carr r.1)) with
      | some d2 =>
        let s2 := Store.mk d2 (some a) r.2
        if save then
          match bk d2 with
          | some e => some (s2, some e)
          | none =>
            match reset s2 p with
            | some s3 => some (s3, none)
            | none => none
        else
          match reset s2 p with
          | some s3 => some (s3, none)
          | none => none
      | none => none
    | _, _ => none

/-- The findFreeKey do-while loop: candidate i+1 is the bare name when
firstClean is set and this is the first attempt, otherwise the name with
separator and the decimal numeral of i+1 appended; the loop stops at the
first candidate the has() test does not find. The Nat fuel bounds the
number of iterations so the definition is total; the termination theorem
shows a sufficient fuel always exists. -/
def findFreeKeyAux (ptr : LVal) (name sep : String) (firstClean : Bool) :
    Nat → Nat → Option String
  | 0, _ => none
  | Nat.succ fuel, i =>
    let newName := name ++ (if firstClean ∧ i + 1 = 1 then "" else sep ++ Nat.repr (i + 1))
    if jsIn ptr newName then findFreeKeyAux ptr name sep firstClean fuel (i + 1)
    else some newName

/-- The findFreeKey(name, separator, firstClean) method on the working
pointer of a namespace; has() on a primitive pointer throws. -/
def findFreeKey (s : Store) (p : List String) (name sep : String)
    (firstClean : Bool) (fuel : Nat) : Option String :=
  match pointerOf s p with
  | some (LVal.node i arr fs) =>
    findFreeKeyAux (LVal.node i arr fs) name sep firstClean fuel 0
  | _ => none

/-- The state effect of map(callback, true): every key of the working
pointer is set to the callback of its value, in enumeration order. On a
non-composite pointer either keys() throws or there is nothing to set, so
the store fields stay as they were. -/
def mapInPlace (s : Store) (p : List String) (cb : LVal → String → LVal) : Store :=
  let s2 := ensureActive s
  match s2.activeData with
  | some a =>
    match updAt a p (fun ptr =>
      match ptr with
      | LVal.node i arr fs => some (LVal.node i arr (fs.map (fun kv => (kv.1, cb kv.2 kv.1))))
      | LVal.prim _ => none) with
    | some a2 => Store.mk s2.data (some a2) s2.nextId
    | none => s2
  | none => s2

end DataStore

mutual
/-- The node identities occurring in a value: the reference footprint of
the subtree. -/
def idsOf : LVal → List Nat
  | LVal.prim _ => []
  | LVal.node i _ fs => i :: idsOfFields fs

/-- The node identities of a field list. -/
def idsOfFields : List (String × LVal) → List Nat
  | [] => []
  | (_, v) :: rest => idsOf v ++ idsOfFields rest
end

/-- All node identities of the value lie below the bound. -/
def idsBelowB (v : LVal) (n : Nat) : Bool :=
  (idsOf v).all (fun i => i < n)

/-- No node identity is shared between the two values: no subtree of one is
the same reference as a subtree of the other. -/
def disjointIds (a b : LVal) : Bool :=
  (idsOf a).all (fun i => ¬ (idsOf b).contains i)

/-- The store invariant tying the claims about aliasing together: all ids
sit below the allocation counter, and the committed tree shares no node
reference with the working tree. -/
def WFS (s : Store) : Bool :=
  idsBelowB s.data s.nextId &&
  (match s.activeData with
   | none => true
   | some a => idsBelowB a s.nextId && disjointIds s.data a)

/-- One client operation through some namespace handle: the operations of
the read/write/enumerate/bulk surface. The map callback and the filter
predicate are arbitrary. -/
inductive Op where
  | getOp : List String → String → Op
  | setOp : List String → String → LVal → Op
  | unsetOp : List String → String → Op
  | keysOp : List String → Op
  | hasOp : List String → String → Op
  | mapOp : List String → (LVal → String → LVal) → Bool → Op
  | filterOp : List String → (LVal → String → Bool) → Op

namespace DataStore

/-- The state effect of one operation. get/has/keys/filter and map without
inPlace only read (refreshing the working pointer, which may synthesize
the working tree); set/unset/map-inPlace mutate the working tree. -/
def applyOp (s : Store) : Op → Store
  | Op.getOp _ _ => ensureActive s
  | Op.keysOp _ => ensureActive s
  | Op.hasOp _ _ => ensureActive s
  | Op.filterOp _ _ => ensureActive s
  | Op.mapOp _ _ false => ensureActive s
  | Op.mapOp p cb true => mapInPlace s p cb
  | Op.setOp p k v => set s p k v
  | Op.unsetOp p k => unset s p k

/-- A whole client session: the operations applied left to right. -/
def applyOps (s : Store) : List Op → Store
  | [] => s
  | op :: rest => applyOps (applyOp s op) rest

end DataStore

/-- Key lists without duplicates, as a Bool; JS objects never carry two own
properties of the same name, so every reachable tree satisfies this. -/
def nodupStrB : List String → Bool
  | [] => true
  | x :: rest => !rest.contains x && nodupStrB rest

/-- Two key lists containing the same keys, ignoring order and
multiplicity. -/
def sameKeySetB (l1 l2 : List String) : Bool :=
  l1.all l2.contains && l2.all l1.contains

mutual
/-- Value equality of trees in the JS deep-equal sense: node identities are
ignored, array and object kinds must agree, objects compare keywise
ignoring insertion order. -/
def deepEqVal : LVal → LVal → Bool
  | LVal.prim p, LVal.prim q => p = q
  | LVal.node _ a1 fs1, LVal.node _ a2 fs2 =>
    (a1 = a2) && sameKeySetB (fieldNames fs1) (fieldNames fs2) && deepEqFields fs1 fs2
  | _, _ => false

/-- Keywise comparison of the first field list against lookups in the
second. -/
def deepEqFields : List (String × LVal) → List (String × LVal) → Bool
  | [], _ => true
  | (k, v) :: rest, fs2 =>
    (match lookupField fs2 k with
     | some w => deepEqVal v w
     | none => false) && deepEqFields rest fs2
end

mutual
/-- No undefined stored as a value anywhere in the tree. -/
def noUndefB : LVal → Bool
  | LVal.prim Prim.undef => false
  | LVal.prim _ => true
  | LVal.node _ _ fs => noUndefFields fs

/-- Field-list form of noUndefB. -/
def noUndefFields : List (String × LVal) → Bool
  | [] => true
  | (_, v) :: rest => noUndefB v && noUndefFields rest
end

mutual
/-- A tidy tree: recursively, own keys are free of duplicates and none of
them collides with an Object.prototype or Array.prototype member name.
Duplicate keys cannot exist on JS objects at all, and prototype-name keys
would make property reads hit inherited function members, which this model
does not represent; theorems about reset() and changed() therefore assume
tidiness. -/
def tidyB : LVal → Bool
  | LVal.prim _ => true
  | LVal.node _ _ fs => nodupStrB (fieldNames fs) && tidyFields fs

/-- Field-list form of tidyB. -/
def tidyFields : List (String × LVal) → Bool
  | [] => true
  | (k, v) :: rest =>
    !protoKeys.contains k && !arrayOwnProto.contains k && tidyB v && tidyFields rest
end

mutual
/-- Alignment of a working subtree under a committed subtree: both are
composites of the same kind, and wherever the committed side holds a
composite value the working side holds nothing or an aligned composite.
This is what the reset() fold needs in order to terminate normally and
reproduce the committed value (a primitive working value under a composite
committed value either crashes the fold or survives it untouched). -/
def alignedB : LVal → LVal → Bool
  | LVal.node _ ca cfs, LVal.node _ wa wfs => (ca = wa) && alignedFields cfs wfs
  | _, _ => false

/-- Field-list form of alignedB, walking the committed fields. -/
def alignedFields : List (String × LVal) → List (String × LVal) → Bool
  | [], _ => true
  | (k, cv) :: rest, wfs =>
    (match cv with
     | LVal.node ci ca cf =>
       (match lookupField wfs k with
        | none => true
        | some (LVal.node wi wa wf) => alignedB (LVal.node ci ca cf) (LVal.node wi wa wf)
        | some (LVal.prim _) => false)
     | LVal.prim _ => true) && alignedFields rest wfs
end

/-- The difference predicate the specification ascribes to changed(): the
working node differs from the committed node in key-set, or in some leaf
value (a key held by both where at least one side is a leaf and the values
differ), or some key composite on both sides has a changed() nested
namespace. -/
def specDiffB (cm w : LVal) : Bool :=
  match cm, w with
  | LVal.node _ _ cfs, LVal.node _ _ wfs =>
    !sameKeySetB (fieldNames cfs) (fieldNames wfs)
    || cfs.any (fun kv =>
        match kv.2, lookupField wfs kv.1 with
        | LVal.node ci ca cf, some (LVal.node wi wa wf) =>
          changedAt (LVal.node ci ca cf) (LVal.node wi wa wf) == some true
        | LVal.node _ _ _, some (LVal.prim _) => true
        | LVal.node _ _ _, none => false
        | LVal.prim p, some (LVal.prim q) => decide (p ≠ q)
        | LVal.prim _, some (LVal.node _ _ _) => true
        | LVal.prim _, none => false)
  | _, _ => true

/-- The candidate sequence of findFreeKey: attempt j tries the bare name,
when firstClean is set and j is 1, and the name with separator and the
numeral of j otherwise. -/
def candS (name sep : String) (firstClean : Bool) (j : Nat) : String :=
  name ++ (if firstClean ∧ j = 1 then "" else sep ++ Nat.repr j)

/-- Everything the in operator can find on a composite: own keys and the
prototype member names. -/
def occList : LVal → List String
  | LVal.node _ false fs => fieldNames fs ++ protoKeys
  | LVal.node _ true fs => fieldNames fs ++ arrayOwnProto ++ protoKeys
  | LVal.prim _ => []

/-- A fresh store built from a backend-loaded tree, as the constructor does
on its load path: adopt the tree as committed data and synthesize the
working tree as its deep copy. -/
def mkFresh (t : LVal) : Store :=
  DataStore.ensureActive (Store.mk t none 0)

/-- Option-level deep equality of two resolutions: both absent, or both
present with deep-equal values. -/
def optDeepEq : Option LVal → Option LVal → Prop
  | some x, some y => deepEqVal x y = true
  | none, none => True
  | _, _ => False

/-- The value footprint an operation injects into the working tree is fresh
with respect to the committed tree: all its node ids are below the
allocation counter and none occurs in the committed tree. A client can only
obtain references into the working tree (get, getData, map, filter all hand
out working values), so this holds of every value a client can pass in. -/
def OpOk (d : LVal) (n : Nat) : Op → Prop
  | Op.setOp _ _ v => idsBelowB v n = true ∧ disjointIds d v = true
  | Op.mapOp _ cb true => ∀ x k, idsBelowB (cb x k) n = true ∧ disjointIds d (cb x k) = true
  | _ => True

/-- All operations of a session inject only committed-tree-fresh values. -/
def OpsOk (d : LVal) (n : Nat) (ops : List Op) : Prop :=
  ∀ op, op ∈ ops → OpOk d n op

/-- The numeric value of a decimal digit character. -/
def digitVal (c : Char) : Nat := c.toNat - 48

/-- Reading a most-significant-first digit string back into a number, the
left inverse used to show decimal numerals are injective. -/
def parseDigits (l : List Char) : Nat :=
  l.foldl (fun a c => 10 * a + digitVal c) 0

mutual
/-- Well-formed keys: recursively, no composite node carries two own
properties of the same name. Every tree reachable in JS satisfies this. -/
def wfKeysB : LVal → Bool
  | LVal.prim _ => true
  | LVal.node _ _ fs => nodupStrB (fieldNames fs) && wfKeysFields fs

/-- Field-list form of wfKeysB. -/
def wfKeysFields : List (String × LVal) → Bool
  | [] => true
  | (_, v) :: rest => wfKeysB v && wfKeysFields rest
end

/-- Concrete store for the changed() key-set counterexample: committed tree
adopts caller-supplied data holding an undefined value, then the working
copy has that key removed and a different undefined-valued key added. -/
def exC1 : Store :=
  DataStore.set
    (DataStore.unset
      (DataStore.ensureActive (Store.mk (LVal.node 0 false [("a", LVal.prim Prim.undef)]) none 1))
      [] "a")
    [] "b" (LVal.prim Prim.undef)

/-- Concrete store for the commit rollback counterexample: committed a:1,
working staged to a:2. -/
def exC3 : Store :=
  DataStore.set
    (DataStore.ensureActive (Store.mk (LVal.node 0 false [("a", LVal.prim (Prim.num 1))]) none 1))
    [] "a" (LVal.prim (Prim.num 2))

/-- Concrete store for the reset counterexample: committed holds an empty
composite at a, the working copy overwrites a with the primitive 5. -/
def exC4 : Store :=
  DataStore.set
    (DataStore.ensureActive (Store.mk (LVal.node 0 false [("a", LVal.node 1 false [])]) none 2))
    [] "a" (LVal.prim (Prim.num 5))

/-- Concrete store for the findFreeKey counterexample: the bare key item is
occupied and no suffixed key exists. -/
def exC7 : Store :=
  DataStore.set
    (DataStore.ensureActive (Store.mk (LVal.node 0 false []) none 1))
    [] "item" (LVal.prim (Prim.str ""))

/-- Concrete empty store for the has/keys counterexample. -/
def exC8 : Store :=
  DataStore.ensureActive (Store.mk (LVal.node 0 false []) none 1)

/-- Concrete store for witnesses that need an existing working tree with a
composite sub-namespace at x. -/
def wExample : Store :=
  Store.mk (LVal.node 2 false [("x", LVal.node 3 false [])])
    (some (LVal.node 0 false [("x", LVal.node 1 false [])])) 4

theorem lookup_setField_self (fs : List (String × LVal)) (k : String) (v : LVal) :
    lookupField (setField fs k v) k = some v := by
  induction fs with
  | nil => simp [setField, lookupField]
  | cons kv rest ih =>
    obtain ⟨k0, v0⟩ := kv
    by_cases h : k0 = k
    · simp [setField, lookupField, h]
    · simp [setField, lookupField, h, ih]

theorem lookup_setField_other : ∀ (fs : List (String × LVal)) (k k2 : String) (v : LVal),
    k2 ≠ k → lookupField (setField fs k v) k2 = lookupField fs k2
  | [], k, k2, v, h => by
    have h2 : ¬ (k = k2) := fun hh => h hh.symm
    simp [setField, lookupField, h2]
  | (k0, v0) :: rest, k, k2, v, h => by
    have h2 : ¬ (k = k2) := fun hh => h hh.symm
    by_cases h0 : k0 = k
    · have h4 : ¬ (k0 = k2) := by rw [h0]; exact h2
      simp [setField, h0, lookupField, h2, h4]
    · simp only [setField, if_neg h0, lookupField]
      by_cases h3 : k0 = k2
      · simp [h3]
      · simp [h3, lookup_setField_other rest k k2 v h]

theorem setField_self (fs : List (String × LVal)) (k : String) (v : LVal)
    (h : lookupField fs k = some v) : setField fs k v = fs := by
  induction fs with
  | nil => simp [lookupField] at h
  | cons kv rest ih =>
    obtain ⟨k0, v0⟩ := kv
    by_cases h0 : k0 = k
    · subst h0
      simp [lookupField] at h
      simp [setField, h]
    · simp [lookupField, h0] at h
      simp [setField, h0, ih h]

theorem lookup_none_iff_not_mem (fs : List (String × LVal)) (k : String) :
    lookupField fs k = none ↔ k ∉ fieldNames fs := by
  induction fs with
  | nil => simp [lookupField, fieldNames]
  | cons kv rest ih =>
    obtain ⟨k0, v0⟩ := kv
    by_cases h0 : k0 = k
    · subst h0
      simp [lookupField, fieldNames]
    · simp [lookupField, fieldNames, h0, Ne.symm h0] at ih ⊢
      exact ih

theorem lookup_isSome_iff_mem (fs : List (String × LVal)) (k : String) :
    (lookupField fs k).isSome = true ↔ k ∈ fieldNames fs := by
  constructor
  · intro h
    by_contra hn
    rw [(lookup_none_iff_not_mem fs k).mpr hn] at h
    simp at h
  · intro h
    rcases hc : lookupField fs k with _ | v
    · exact absurd h ((lookup_none_iff_not_mem fs k).mp hc)
    · simp

theorem lookup_mem (fs : List (String × LVal)) (k : String) (v : LVal)
    (h : lookupField fs k = some v) : (k, v) ∈ fs := by
  induction fs with
  | nil => simp [lookupField] at h
  | cons kv rest ih =>
    obtain ⟨k0, v0⟩ := kv
    by_cases h0 : k0 = k
    · subst h0
      simp [lookupField] at h
      simp [h]
    · simp [lookupField, h0] at h
      simp [ih h]

namespace DataStore

theorem ensureActive_some {s : Store} {a : LVal} (h : s.activeData = some a) :
    ensureActive s = s := by
  unfold ensureActive
  rw [h]

theorem resolve_updAt {q : List String} :
    ∀ {a v : LVal} (f : LVal → Option LVal) {v2 : LVal},
    resolveNs a q = some v → f v = some v2 →
    ∃ a2, updAt a q f = some a2 ∧ resolveNs a2 q = some v2 := by
  induction q with
  | nil =>
    intro a v f v2 hr hf
    simp [resolveNs] at hr
    subst hr
    exact ⟨v2, by simp [updAt, hf], by simp [resolveNs]⟩
  | cons k rest ih =>
    intro a v f v2 hr hf
    match a with
    | LVal.prim p => simp [resolveNs] at hr
    | LVal.node i arr fs =>
      simp only [resolveNs] at hr
      rcases hc : lookupField fs k with _ | child
      · rw [hc] at hr; cases hr
      · rw [hc] at hr
        obtain ⟨c2, hupd, hres⟩ := ih f hr hf
        refine ⟨LVal.node i arr (setField fs k c2), ?_, ?_⟩
        · simp only [updAt, hc, hupd]
        · simp only [resolveNs, lookup_setField_self, hres]

theorem updAt_self {q : List String} :
    ∀ {a v : LVal} (f : LVal → Option LVal),
    resolveNs a q = some v → f v = some v → updAt a q f = some a := by
  induction q with
  | nil =>
    intro a v f hr hf
    simp [resolveNs] at hr
    subst hr
    simp [updAt, hf]
  | cons k rest ih =>
    intro a v f hr hf
    match a with
    | LVal.prim p => simp [resolveNs] at hr
    | LVal.node i arr fs =>
      simp only [resolveNs] at hr
      rcases hc : lookupField fs k with _ | child
      · rw [hc] at hr; cases hr
      · rw [hc] at hr
        simp only [updAt, hc, ih f hr hf, setField_self fs k child hc]

theorem updAt_frame {p : List String} :
    ∀ {a a2 : LVal} {f : LVal → Option LVal} {q : List String},
    updAt a p f = some a2 → ¬ (p <+: q) → ¬ (q <+: p) →
    resolveNs a2 q = resolveNs a q := by
  induction p with
  | nil =>
    intro a a2 f q hupd hpq _
    exact absurd (List.nil_prefix) hpq
  | cons k rest ih =>
    intro a a2 f q hupd hpq hqp
    match a with
    | LVal.prim pr => simp [updAt] at hupd
    | LVal.node i arr fs =>
      rcases hc : lookupField fs k with _ | child
      · simp only [updAt, hc] at hupd
        cases hupd
      · rcases hu : updAt child rest f with _ | c2
        · simp only [updAt, hc, hu] at hupd
          cases hupd
        · simp only [updAt, hc, hu, Option.some.injEq] at hupd
          subst hupd
          match q with
          | [] => exact absurd (List.nil_prefix) hqp
          | k2 :: q2 =>
            by_cases hk : k2 = k
            · subst hk
              have h1 : ¬ (rest <+: q2) := fun hh => hpq (by simpa using hh)
              have h2 : ¬ (q2 <+: rest) := fun hh => hqp (by simpa using hh)
              simp only [resolveNs, lookup_setField_self, hc]
              exact ih hu h1 h2
            · simp only [resolveNs,
                lookup_setField_other fs k k2 c2 hk, hc]

end DataStore

namespace DataStore

/-- C5: handles derived from the same root with equal paths observe
identical data at all times: both a = store.ns(x) and b = store.ns(x)
dereference the one shared working tree on every operation, so immediately
after a.set(k, v), b.get(k) returns exactly the value v (the same
reference, hence strict equality in JS). -/
theorem c5_shared_handles (s : Store) (p : List String) (x k : String) (v : LVal)
    (a : LVal) (i : Nat) (arr : Bool) (fs : List (String × LVal))
    (ha : s.activeData = some a)
    (hr : resolveNs a (ns p x) = some (LVal.node i arr fs)) :
    get (set s (ns p x) k v) (ns p x) k = some v := by
  have hs2 : ensureActive s = s := ensureActive_some ha
  obtain ⟨a2, hupd, hres⟩ :=
    resolve_updAt (fun ptr => match ptr with
      | LVal.node i2 arr2 fs2 => some (LVal.node i2 arr2 (setField fs2 k v))
      | LVal.prim _ => none) hr rfl
  have hset : set s (ns p x) k v = Store.mk s.data (some a2) s.nextId := by
    simp only [set, hs2, ha, hupd]
  rw [hset]
  simp only [get, pointerOf, ensureActive, hres, jsGetRaw, lookup_setField_self]

/-- C5 witness at a concrete store, discharging the resolution hypotheses. -/
theorem c5_witness :
    get (set wExample (ns [] "x") "k" (LVal.prim (Prim.num 7))) (ns [] "x") "k"
      = some (LVal.prim (Prim.num 7)) :=
  c5_shared_handles wExample [] "x" "k" (LVal.prim (Prim.num 7))
    (LVal.node 0 false [("x", LVal.node 1 false [])]) 1 false [] rfl rfl

/-- C8 counterexample: on a store with an empty working node, has(toString)
is true because the in operator sees the inherited Object.prototype member,
while keys() is empty, refuting that has(key) holds only for present,
enumerable keys of the working node itself (equivalently, that has agrees
with membership in keys()). -/
theorem c8_counterexample :
    has exC8 [] "toString" = some true ∧ keys exC8 [] = some [] := by
  exact ⟨rfl, rfl⟩

/-- C8 amended: on an object-kind working pointer, has(key) is true iff key
is an own key (i.e. appears in keys()) or key is an Object.prototype member
name; for keys that are not prototype member names this is exactly
membership in keys(). -/
theorem c8_amended (s : Store) (p : List String) (k : String)
    (i : Nat) (fs : List (String × LVal))
    (h : pointerOf s p = some (LVal.node i false fs)) :
    keys s p = some (fieldNames fs) ∧
    has s p k = some ((fieldNames fs).contains k || protoKeys.contains k) := by
  constructor
  · simp only [keys, h, jsOwnKeys]
  · simp only [has, h, jsIn]

/-- C8 witness at a concrete store with one own key. -/
theorem c8_witness :
    keys (Store.mk (LVal.node 0 false []) (some (LVal.node 1 false [("a", LVal.prim (Prim.num 1))])) 2) []
      = some (fieldNames [("a", LVal.prim (Prim.num 1))]) ∧
    has (Store.mk (LVal.node 0 false []) (some (LVal.node 1 false [("a", LVal.prim (Prim.num 1))])) 2) [] "a"
      = some ((fieldNames [("a", LVal.prim (Prim.num 1))]).contains "a" || protoKeys.contains "a") :=
  c8_amended
    (Store.mk (LVal.node 0 false []) (some (LVal.node 1 false [("a", LVal.prim (Prim.num 1))])) 2)
    [] "a" 1 [("a", LVal.prim (Prim.num 1))] rfl

end DataStore

namespace DataStore

/-- C3 counterexample: on a store with committed a:1 and staged a:2, a
commit(true) whose backend save throws propagates the error, but the
in-memory committed tree has already been repopulated from the working
tree (a:2 instead of the original a:1), refuting that the store state is
left unchanged exactly as before the call. -/
theorem c3_counterexample :
    (commit exC3 [] true (fun _ => some "boom")).map (fun r => r.2) = some (some "boom") ∧
    (commit exC3 [] true (fun _ => some "boom")).map (fun r => jsGetRaw r.1.data "a")
      = some (LVal.prim (Prim.num 2)) ∧
    jsGetRaw exC3.data "a" = LVal.prim (Prim.num 1) := by
  exact ⟨rfl, rfl, rfl⟩

/-- C3 amended: when the backend save throws during commit(true), the
exception propagates to the caller unmodified and the working tree is left
untouched (and the final reset is skipped), but the committed pointer has
already been cleared and repopulated from the working pointer before save
runs — the fold is not rolled back. -/
theorem c3_amended (s : Store) (p : List String) (e : String)
    (a : LVal) (ci wi : Nat) (carr warr : Bool) (cfs wfs : List (String × LVal))
    (ha : s.activeData = some a)
    (hc : resolveNs s.data p = some (LVal.node ci carr cfs))
    (hw : resolveNs a p = some (LVal.node wi warr wfs)) :
    ∃ d2, updAt s.data p
        (fun _ => some (LVal.node ci carr (deepCopyFields s.nextId wfs).1)) = some d2 ∧
      commit s p true (fun _ => some e)
        = some (Store.mk d2 (some a) (deepCopyFields s.nextId wfs).2, some e) := by
  obtain ⟨d2, hupd, _⟩ :=
    resolve_updAt (fun _ => some (LVal.node ci carr (deepCopyFields s.nextId wfs).1)) hc rfl
  refine ⟨d2, hupd, ?_⟩
  simp only [commit, ha, hc, hw, hupd]
  simp

/-- C3 witness, instantiating the amended theorem at the concrete store. -/
theorem c3_witness :
    ∃ d2, updAt exC3.data []
        (fun _ => some (LVal.node 0 false (deepCopyFields exC3.nextId [("a", LVal.prim (Prim.num 2))]).1)) = some d2 ∧
      commit exC3 [] true (fun _ => some "boom")
        = some (Store.mk d2 (some (LVal.node 1 false [("a", LVal.prim (Prim.num 2))]))
            (deepCopyFields exC3.nextId [("a", LVal.prim (Prim.num 2))]).2, some "boom") :=
  c3_amended exC3 [] "boom" (LVal.node 1 false [("a", LVal.prim (Prim.num 2))])
    0 1 false false [("a", LVal.prim (Prim.num 1))] [("a", LVal.prim (Prim.num 2))]
    rfl rfl rfl

end DataStore

namespace DataStore

theorem findFreeKeyAux_spec (ptr : LVal) (name sep : String) (fc : Bool) :
    ∀ (fuel i : Nat) (c : String), findFreeKeyAux ptr name sep fc fuel i = some c →
    ∃ j, i < j ∧ c = candS name sep fc j ∧ jsIn ptr c = false ∧
      ∀ m, i < m → m < j → jsIn ptr (candS name sep fc m) = true := by
  intro fuel
  induction fuel with
  | zero => intro i c h; simp [findFreeKeyAux] at h
  | succ fuel ih =>
    intro i c h
    simp only [findFreeKeyAux] at h
    by_cases hin : jsIn ptr (name ++ (if fc ∧ i + 1 = 1 then "" else sep ++ Nat.repr (i + 1))) = true
    · rw [if_pos hin] at h
      obtain ⟨j, hij, hc, hfree, hall⟩ := ih (i + 1) c h
      refine ⟨j, by omega, hc, hfree, ?_⟩
      intro m him hmj
      by_cases hm : m = i + 1
      · subst hm
        exact hin
      · exact hall m (by omega) hmj
    · rw [if_neg hin] at h
      refine ⟨i + 1, by omega, ?_, ?_, ?_⟩
      · cases h; rfl
      · cases h
        simp only [Bool.not_eq_true] at hin
        exact hin
      · intro m him hmj; omega

end DataStore

namespace DataStore

/-- C7 counterexample: with the bare key item occupied and item1 free,
findFreeKey(item, empty separator, true) returns item2, not the item1 that
a numbering restarting at 1 for the first suffixed attempt would produce. -/
theorem c7_counterexample :
    findFreeKey exC7 [] "item" "" true 10 = some "item2" ∧
    has exC7 [] "item1" = some false := by
  exact ⟨rfl, rfl⟩

/-- C7 amended: with firstClean set, the bare baseName is tried first; when
it is occupied, the suffixed candidates start at numeral 2 (the numeral
always equals the overall attempt index), increase by 1 per occupied
candidate, and the first candidate has() does not find is returned. -/
theorem c7_amended (s : Store) (p : List String) (name sep : String)
    (fuel : Nat) (c : String) (i : Nat) (arr : Bool) (fs : List (String × LVal))
    (hptr : pointerOf s p = some (LVal.node i arr fs))
    (hbare : has s p name = some true)
    (hfind : findFreeKey s p name sep true fuel = some c) :
    ∃ j, 2 ≤ j ∧ c = name ++ (sep ++ Nat.repr j) ∧ has s p c = some false ∧
      ∀ m, 2 ≤ m → m < j → has s p (name ++ (sep ++ Nat.repr m)) = some true := by
  have hbare2 : jsIn (LVal.node i arr fs) name = true := by
    simp only [has, hptr, Option.some.injEq] at hbare
    exact hbare
  simp only [findFreeKey, hptr] at hfind
  obtain ⟨j, hij, hc, hfree, hall⟩ := findFreeKeyAux_spec (LVal.node i arr fs) name sep true fuel 0 c hfind
  have hj2 : 2 ≤ j := by
    rcases Nat.lt_or_ge j 2 with h2 | h2
    · exfalso
      have hj1 : j = 1 := by omega
      subst hj1
      rw [hc] at hfree
      simp [candS, hbare2] at hfree
    · exact h2
  have hcand : candS name sep true j = name ++ (sep ++ Nat.repr j) := by
    simp only [candS, if_neg (by omega : ¬ (True ∧ j = 1))]
  refine ⟨j, hj2, by rw [hc, hcand], ?_, ?_⟩
  · simp only [has, hptr, Option.some.injEq]
    exact hfree
  · intro m hm2 hmj
    have := hall m (by omega) hmj
    simp only [candS, if_neg (by omega : ¬ (True ∧ m = 1))] at this
    simp only [has, hptr, Option.some.injEq]
    exact this

/-- C7 witness: on a store with item and item2 occupied, the returned key
is item3, matching the amended characterization. -/
theorem c7_witness :
    ∃ j, 2 ≤ j ∧ "item3" = "item" ++ ("" ++ Nat.repr j) ∧
      has (set exC7 [] "item2" (LVal.prim (Prim.str ""))) [] "item3" = some false ∧
      ∀ m, 2 ≤ m → m < j →
        has (set exC7 [] "item2" (LVal.prim (Prim.str ""))) [] ("item" ++ ("" ++ Nat.repr m)) = some true :=
  c7_amended (set exC7 [] "item2" (LVal.prim (Prim.str ""))) [] "item" "" 10 "item3"
    1 false [("item", LVal.prim (Prim.str "")), ("item2", LVal.prim (Prim.str ""))]
    rfl rfl rfl

end DataStore

theorem toDigitsCore_append (b : Nat) :
    ∀ (f n : Nat) (ds : List Char),
    Nat.toDigitsCore b f n ds = Nat.toDigitsCore b f n [] ++ ds := by
  intro f
  induction f with
  | zero => intro n ds; simp [Nat.toDigitsCore]
  | succ f ih =>
    intro n ds
    simp only [Nat.toDigitsCore]
    by_cases h : n / b = 0
    · simp [h]
    · rw [if_neg h, if_neg h, ih (n / b) (Nat.digitChar (n % b) :: ds),
        ih (n / b) [Nat.digitChar (n % b)]]
      simp

theorem digitVal_digitChar (m : Nat) (h : m < 10) :
    digitVal (Nat.digitChar m) = m := by
  interval_cases m <;> decide

theorem parseDigits_append (l : List Char) (c : Char) :
    parseDigits (l ++ [c]) = 10 * parseDigits l + digitVal c := by
  simp [parseDigits, List.foldl_append]

theorem parse_toDigitsCore : ∀ (f n : Nat), n ≤ f →
    parseDigits (Nat.toDigitsCore 10 (f + 1) n []) = n := by
  intro f
  induction f with
  | zero =>
    intro n hn
    have h0 : n = 0 := by omega
    subst h0
    decide
  | succ f ih =>
    intro n hn
    have hstep : Nat.toDigitsCore 10 (f + 1 + 1) n []
        = if n / 10 = 0 then [Nat.digitChar (n % 10)]
          else Nat.toDigitsCore 10 (f + 1) (n / 10) [Nat.digitChar (n % 10)] := rfl
    rw [hstep]
    by_cases h : n / 10 = 0
    · rw [if_pos h]
      have h1 := digitVal_digitChar (n % 10) (by omega)
      have h2 : parseDigits [Nat.digitChar (n % 10)] = digitVal (Nat.digitChar (n % 10)) := by
        simp [parseDigits]
      rw [h2, h1]
      omega
    · rw [if_neg h]
      rw [toDigitsCore_append 10 (f + 1) (n / 10) [Nat.digitChar (n % 10)]]
      rw [parseDigits_append, ih (n / 10) (by omega), digitVal_digitChar (n % 10) (by omega)]
      omega

theorem repr_inj (m n : Nat) (h : Nat.repr m = Nat.repr n) : m = n := by
  have hm : parseDigits (Nat.toDigitsCore 10 (m + 1) m []) = m :=
    parse_toDigitsCore m m (le_refl m)
  have hn : parseDigits (Nat.toDigitsCore 10 (n + 1) n []) = n :=
    parse_toDigitsCore n n (le_refl n)
  have hd : Nat.toDigitsCore 10 (m + 1) m [] = Nat.toDigitsCore 10 (n + 1) n [] := by
    have h2 := congrArg String.data h
    simp only [Nat.repr, Nat.toDigits, List.asString] at h2
    exact h2
  rw [← hn, ← hd]
  exact hm.symm

theorem jsIn_mem_occList (v : LVal) (k : String) (h : jsIn v k = true) :
    k ∈ occList v := by
  match v with
  | LVal.prim p => simp [jsIn] at h
  | LVal.node i false fs =>
    simp only [jsIn, Bool.or_eq_true] at h
    simp only [occList, List.mem_append]
    rcases h with h | h
    · exact Or.inl (by simpa using h)
    · exact Or.inr (by simpa using h)
  | LVal.node i true fs =>
    simp only [jsIn, Bool.or_eq_true] at h
    simp only [occList, List.mem_append]
    rcases h with (h | h) | h
    · exact Or.inl (Or.inl (by simpa using h))
    · exact Or.inl (Or.inr (by simpa using h))
    · exact Or.inr (by simpa using h)

namespace DataStore

theorem findFreeKeyAux_total (ptr : LVal) (name sep : String) (fc : Bool) :
    ∀ (fuel i : Nat),
    (∃ j, i < j ∧ j ≤ i + fuel ∧ jsIn ptr (candS name sep fc j) = false) →
    (findFreeKeyAux ptr name sep fc fuel i).isSome = true := by
  intro fuel
  induction fuel with
  | zero =>
    intro i h
    obtain ⟨j, h1, h2, _⟩ := h
    omega
  | succ fuel ih =>
    intro i h
    obtain ⟨j, h1, h2, hfree⟩ := h
    simp only [findFreeKeyAux]
    by_cases hin : jsIn ptr (name ++ (if fc ∧ i + 1 = 1 then "" else sep ++ Nat.repr (i + 1))) = true
    · rw [if_pos hin]
      apply ih (i + 1)
      refine ⟨j, ?_, by omega, hfree⟩
      rcases Nat.lt_or_ge (i + 1) j with hgt | hle
      · exact hgt
      · exfalso
        have hj : j = i + 1 := by omega
        subst hj
        have : candS name sep fc (i + 1)
            = name ++ (if fc ∧ i + 1 = 1 then "" else sep ++ Nat.repr (i + 1)) := rfl
        rw [this, hin] at hfree
        cases hfree
    · rw [if_neg hin]
      simp

theorem exists_free_cand (ptr : LVal) (name sep : String) (fc : Bool) :
    ∃ j, 2 ≤ j ∧ j ≤ (occList ptr).length + 3 ∧ jsIn ptr (candS name sep fc j) = false := by
  by_contra hno
  push_neg at hno
  have hall : ∀ j, 2 ≤ j → j ≤ (occList ptr).length + 3 →
      jsIn ptr (candS name sep fc j) = true := by
    intro j h2 h3
    have := hno j h2 h3
    revert this
    cases jsIn ptr (candS name sep fc j) <;> simp
  have hinj : Function.Injective (fun t : Nat => candS name sep fc (t + 2)) := by
    intro t1 t2 heq
    simp only [candS] at heq
    rw [if_neg (by omega : ¬ (fc = true ∧ t1 + 2 = 1)),
      if_neg (by omega : ¬ (fc = true ∧ t2 + 2 = 1))] at heq
    have hd := congrArg String.data heq
    simp only [String.data_append] at hd
    have hd2 := List.append_cancel_left hd
    have hd3 := List.append_cancel_left hd2
    have : Nat.repr (t1 + 2) = Nat.repr (t2 + 2) := by
      apply String.ext
      simpa [Nat.repr, Nat.toDigits, List.asString] using hd3
    have := repr_inj (t1 + 2) (t2 + 2) this
    omega
  have hnodup : (List.map (fun t : Nat => candS name sep fc (t + 2))
      (List.range ((occList ptr).length + 2))).Nodup :=
    (List.nodup_range _).map hinj
  have hsub : ∀ x, x ∈ List.map (fun t : Nat => candS name sep fc (t + 2))
      (List.range ((occList ptr).length + 2)) → x ∈ occList ptr := by
    intro x hx
    simp only [List.mem_map, List.mem_range] at hx
    obtain ⟨t, ht, rfl⟩ := hx
    exact jsIn_mem_occList ptr _ (hall (t + 2) (by omega) (by omega))
  have hcard1 : (List.map (fun t : Nat => candS name sep fc (t + 2))
      (List.range ((occList ptr).length + 2))).toFinset.card
      = (occList ptr).length + 2 := by
    rw [List.toFinset_card_of_nodup hnodup]
    simp
  have hcard2 : (List.map (fun t : Nat => candS name sep fc (t + 2))
      (List.range ((occList ptr).length + 2))).toFinset.card
      ≤ (occList ptr).toFinset.card := by
    apply Finset.card_le_card
    intro x hx
    rw [List.mem_toFinset] at hx ⊢
    exact hsub x hx
  have hcard3 : (occList ptr).toFinset.card ≤ (occList ptr).length :=
    (occList ptr).toFinset_card_le
  omega

/-- C10: for every composite working pointer, findFreeKey terminates: the
candidate keys with distinct numerals are pairwise distinct strings, while
the in operator can only find the finitely many own keys and prototype
member names, so within own-keys plus prototype-names plus 3 attempts some
candidate is free and the do-while loop stops. -/
theorem c10_termination (s : Store) (p : List String) (name sep : String) (fc : Bool)
    (i : Nat) (arr : Bool) (fs : List (String × LVal))
    (hptr : pointerOf s p = some (LVal.node i arr fs)) :
    ∃ fuel, (findFreeKey s p name sep fc fuel).isSome = true := by
  obtain ⟨j, h2, h3, hfree⟩ := exists_free_cand (LVal.node i arr fs) name sep fc
  refine ⟨(occList (LVal.node i arr fs)).length + 3, ?_⟩
  simp only [findFreeKey, hptr]
  exact findFreeKeyAux_total _ name sep fc _ 0 ⟨j, by omega, by omega, hfree⟩

/-- C10 witness at a concrete store. -/
theorem c10_witness :
    ∃ fuel, (findFreeKey wExample [] "item" "-" false fuel).isSome = true :=
  c10_termination wExample [] "item" "-" false 0 false
    [("x", LVal.node 1 false [])] rfl

end DataStore

theorem sizeOf_lt_of_mem_fields {fs : List (String × LVal)} {k : String} {v : LVal}
    (h : (k, v) ∈ fs) (i : Nat) (arr : Bool) : sizeOf v < sizeOf (LVal.node i arr fs) := by
  have h1 := List.sizeOf_lt_of_mem h
  have h2 : sizeOf v < sizeOf (k, v) := by
    simp
  simp only [LVal.node.sizeOf_spec]
  omega

theorem nodupStrB_iff (l : List String) : nodupStrB l = true ↔ l.Nodup := by
  induction l with
  | nil => simp [nodupStrB]
  | cons x rest ih => simp [nodupStrB, ih, List.nodup_cons]

theorem sameKeySetB_iff (l1 l2 : List String) :
    sameKeySetB l1 l2 = true ↔ ∀ x, x ∈ l1 ↔ x ∈ l2 := by
  simp only [sameKeySetB, Bool.and_eq_true, List.all_eq_true]
  constructor
  · intro ⟨h1, h2⟩ x
    constructor
    · intro hx
      simpa using h1 x hx
    · intro hx
      simpa using h2 x hx
  · intro h
    constructor
    · intro x hx
      simpa using (h x).mp hx
    · intro x hx
      simpa using (h x).mpr hx

theorem sameKeySetB_refl (l : List String) : sameKeySetB l l = true := by
  rw [sameKeySetB_iff]
  intro x
  exact Iff.rfl

theorem mem_lookup_of_nodup {fs : List (String × LVal)} {k : String} {v : LVal}
    (hn : nodupStrB (fieldNames fs) = true) (h : (k, v) ∈ fs) :
    lookupField fs k = some v := by
  induction fs with
  | nil => cases h
  | cons kv rest ih =>
    obtain ⟨k0, v0⟩ := kv
    simp only [nodupStrB, fieldNames, List.map_cons, Bool.and_eq_true,
      Bool.not_eq_true'] at hn
    rcases List.mem_cons.mp h with h0 | h0
    · cases h0
      simp [lookupField]
    · have hne : k0 ≠ k := by
        intro he
        subst he
        have h3 : k0 ∈ List.map Prod.fst rest :=
          List.mem_map.mpr ⟨(k0, v), h0, rfl⟩
        have h4 : (List.map Prod.fst rest).contains k0 = true := by
          simpa using h3
        rw [hn.1] at h4
        cases h4
      simp only [lookupField, if_neg hne]
      exact ih hn.2 h0

theorem deepEqFields_lookup {fs1 fs2 : List (String × LVal)}
    (h : deepEqFields fs1 fs2 = true) {k : String} {v : LVal} (hm : (k, v) ∈ fs1) :
    ∃ w, lookupField fs2 k = some w ∧ deepEqVal v w = true := by
  induction fs1 with
  | nil => cases hm
  | cons kv rest ih =>
    obtain ⟨k0, v0⟩ := kv
    simp only [deepEqFields, Bool.and_eq_true] at h
    rcases List.mem_cons.mp hm with h0 | h0
    · cases h0
      rcases hl : lookupField fs2 k with _ | w
      · rw [hl] at h
        simp at h
      · rw [hl] at h
        exact ⟨w, rfl, h.1⟩
    · exact ih h.2 h0

theorem deepEqFields_of_forall {fs1 fs2 : List (String × LVal)}
    (h : ∀ k v, (k, v) ∈ fs1 → ∃ w, lookupField fs2 k = some w ∧ deepEqVal v w = true) :
    deepEqFields fs1 fs2 = true := by
  induction fs1 with
  | nil => simp [deepEqFields]
  | cons kv rest ih =>
    obtain ⟨k0, v0⟩ := kv
    simp only [deepEqFields, Bool.and_eq_true]
    obtain ⟨w, hl, hd⟩ := h k0 v0 (List.mem_cons_self _ _)
    constructor
    · rw [hl]
      exact hd
    · exact ih (fun k v hm => h k v (List.mem_cons_of_mem _ hm))

theorem deepEq_node_iff {i1 i2 : Nat} {a1 a2 : Bool} {fs1 fs2 : List (String × LVal)} :
    deepEqVal (LVal.node i1 a1 fs1) (LVal.node i2 a2 fs2) = true ↔
    a1 = a2 ∧ sameKeySetB (fieldNames fs1) (fieldNames fs2) = true ∧ deepEqFields fs1 fs2 = true := by
  simp [deepEqVal, Bool.and_eq_true, and_assoc]

theorem forall2_fieldNames {l1 l2 : List (String × LVal)}
    (h : List.Forall₂ (fun kv1 kv2 => kv1.1 = kv2.1 ∧ deepEqVal kv1.2 kv2.2 = true) l1 l2) :
    fieldNames l1 = fieldNames l2 := by
  induction h with
  | nil => rfl
  | cons hR hrest ih => simp [fieldNames] at ih ⊢; exact ⟨hR.1, ih⟩

theorem forall2_mem_left {l1 l2 : List (String × LVal)} {x : String × LVal}
    (h : List.Forall₂ (fun kv1 kv2 => kv1.1 = kv2.1 ∧ deepEqVal kv1.2 kv2.2 = true) l1 l2)
    (hm : x ∈ l1) :
    ∃ y, y ∈ l2 ∧ x.1 = y.1 ∧ deepEqVal x.2 y.2 = true := by
  induction h with
  | nil => cases hm
  | cons hR hrest ih =>
    rcases List.mem_cons.mp hm with h0 | h0
    · subst h0
      exact ⟨_, List.mem_cons_self _ _, hR.1, hR.2⟩
    · obtain ⟨y, hy, he, hd⟩ := ih h0
      exact ⟨y, List.mem_cons_of_mem _ hy, he, hd⟩

theorem deepEq_trans : ∀ (a b c : LVal),
    deepEqVal a b = true → deepEqVal b c = true → deepEqVal a c = true
  | LVal.prim p, LVal.prim q, LVal.prim r, h1, h2 => by
    simp [deepEqVal] at h1 h2 ⊢
    rw [h1, h2]
  | LVal.node i1 a1 fs1, LVal.node i2 a2 fs2, LVal.node i3 a3 fs3, h1, h2 => by
    rw [deepEq_node_iff] at h1 h2 ⊢
    obtain ⟨ha1, hk1, hf1⟩ := h1
    obtain ⟨ha2, hk2, hf2⟩ := h2
    refine ⟨ha1.trans ha2, ?_, ?_⟩
    · rw [sameKeySetB_iff] at hk1 hk2 ⊢
      intro x
      exact (hk1 x).trans (hk2 x)
    · apply deepEqFields_of_forall
      intro k v hm
      obtain ⟨w, hlw, hdw⟩ := deepEqFields_lookup hf1 hm
      obtain ⟨u, hlu, hdu⟩ := deepEqFields_lookup hf2 (lookup_mem fs2 k w hlw)
      exact ⟨u, hlu, deepEq_trans v w u hdw hdu⟩
  | LVal.prim _, LVal.node _ _ _, _, h1, _ => by simp [deepEqVal] at h1
  | LVal.node _ _ _, LVal.prim _, _, h1, _ => by simp [deepEqVal] at h1
  | LVal.prim _, LVal.prim _, LVal.node _ _ _, _, h2 => by simp [deepEqVal] at h2
  | LVal.node _ _ _, LVal.node _ _ _, LVal.prim _, _, h2 => by simp [deepEqVal] at h2
termination_by a _ _ => sizeOf a
decreasing_by
  exact sizeOf_lt_of_mem_fields hm i1 a1

mutual
theorem deepCopy_deepEq : ∀ (c : Nat) (v : LVal), wfKeysB v = true →
    deepEqVal (deepCopy c v).1 v = true
  | c, LVal.prim p, _ => by simp [deepCopy, deepEqVal]
  | c, LVal.node i arr fs, h => by
    have h2 : nodupStrB (fieldNames fs) = true ∧ wfKeysFields fs = true := by
      simpa [wfKeysB] using h
    have hf := deepCopyFields_forall2 (c + 1) fs h2.2
    have hstep : (deepCopy c (LVal.node i arr fs)).1
        = LVal.node c arr ((deepCopyFields (c + 1) fs).1) := rfl
    rw [hstep, deepEq_node_iff]
    refine ⟨rfl, ?_, ?_⟩
    · rw [forall2_fieldNames hf]
      exact sameKeySetB_refl _
    · apply deepEqFields_of_forall
      intro k v hm
      obtain ⟨y, hy, he, hd⟩ := forall2_mem_left hf hm
      obtain ⟨yk, yv⟩ := y
      cases he
      exact ⟨yv, mem_lookup_of_nodup h2.1 hy, hd⟩

theorem deepCopyFields_forall2 : ∀ (c : Nat) (fs : List (String × LVal)),
    wfKeysFields fs = true →
    List.Forall₂ (fun kv1 kv2 => kv1.1 = kv2.1 ∧ deepEqVal kv1.2 kv2.2 = true)
      ((deepCopyFields c fs).1) fs
  | _, [], _ => by simp [deepCopyFields]
  | c, (k, v) :: rest, h => by
    have h2 : wfKeysB v = true ∧ wfKeysFields rest = true := by
      simpa [wfKeysFields] using h
    match v with
    | LVal.node i arr fs2 =>
      have hstep : (deepCopyFields c ((k, LVal.node i arr fs2) :: rest)).1
          = (k, (deepCopy c (LVal.node i arr fs2)).1)
            :: ((deepCopyFields (deepCopy c (LVal.node i arr fs2)).2 rest).1) := rfl
      rw [hstep]
      exact List.Forall₂.cons ⟨rfl, deepCopy_deepEq c _ h2.1⟩
        (deepCopyFields_forall2 _ rest h2.2)
    | LVal.prim p =>
      have hstep : (deepCopyFields c ((k, LVal.prim p) :: rest)).1
          = (k, LVal.prim p) :: ((deepCopyFields c rest).1) := rfl
      rw [hstep]
      exact List.Forall₂.cons ⟨rfl, by simp [deepEqVal]⟩
        (deepCopyFields_forall2 c rest h2.2)
end

theorem deepEq_jsGetRaw : ∀ {x y : LVal}, deepEqVal x y = true → ∀ (k : String),
    deepEqVal (jsGetRaw x k) (jsGetRaw y k) = true := by
  intro x y h k
  match x, y with
  | LVal.prim p, LVal.prim q => simp [jsGetRaw, deepEqVal]
  | LVal.prim _, LVal.node _ _ _ => simp [deepEqVal] at h
  | LVal.node _ _ _, LVal.prim _ => simp [deepEqVal] at h
  | LVal.node i1 a1 fs1, LVal.node i2 a2 fs2 =>
    rw [deepEq_node_iff] at h
    obtain ⟨_, hk, hf⟩ := h
    rcases hl : lookupField fs1 k with _ | v
    · have h1 : k ∉ fieldNames fs1 := (lookup_none_iff_not_mem _ _).mp hl
      have h2 : k ∉ fieldNames fs2 := by
        rw [sameKeySetB_iff] at hk
        exact fun hh => h1 ((hk k).mpr hh)
      have hl2 : lookupField fs2 k = none := (lookup_none_iff_not_mem _ _).mpr h2
      simp [jsGetRaw, hl, hl2, deepEqVal]
    · obtain ⟨w, hlw, hd⟩ := deepEqFields_lookup hf (lookup_mem fs1 k v hl)
      simp only [jsGetRaw, hl, hlw]
      exact hd

theorem deepEq_resolve : ∀ (q : List String) {x y : LVal}, deepEqVal x y = true →
    optDeepEq (resolveNs x q) (resolveNs y q) := by
  intro q
  induction q with
  | nil =>
    intro x y h
    simpa [resolveNs, optDeepEq] using h
  | cons k rest ih =>
    intro x y h
    match x, y with
    | LVal.prim p, LVal.prim q2 => simp [resolveNs, optDeepEq]
    | LVal.prim _, LVal.node _ _ _ => simp [deepEqVal] at h
    | LVal.node _ _ _, LVal.prim _ => simp [deepEqVal] at h
    | LVal.node i1 a1 fs1, LVal.node i2 a2 fs2 =>
      rw [deepEq_node_iff] at h
      obtain ⟨_, hk, hf⟩ := h
      rcases hl : lookupField fs1 k with _ | v
      · have h1 : k ∉ fieldNames fs1 := (lookup_none_iff_not_mem _ _).mp hl
        have h2 : k ∉ fieldNames fs2 := by
          rw [sameKeySetB_iff] at hk
          exact fun hh => h1 ((hk k).mpr hh)
        have hl2 : lookupField fs2 k = none := (lookup_none_iff_not_mem _ _).mpr h2
        simp [resolveNs, hl, hl2, optDeepEq]
      · obtain ⟨w, hlw, hd⟩ := deepEqFields_lookup hf (lookup_mem fs1 k v hl)
        simp only [resolveNs, hl, hlw]
        exact ih hd

theorem keysAgree_of_deepEq : ∀ {x y : LVal}, deepEqVal x y = true →
    ∀ {lx ly : List String}, jsOwnKeys x = some lx → jsOwnKeys y = some ly →
    sameKeySetB lx ly = true := by
  intro x y h lx ly hx hy
  match x, y with
  | LVal.prim p, LVal.prim q =>
    have : p = q := by simpa [deepEqVal] using h
    subst this
    rw [hx] at hy
    cases hy
    exact sameKeySetB_refl _
  | LVal.prim _, LVal.node _ _ _ => simp [deepEqVal] at h
  | LVal.node _ _ _, LVal.prim _ => simp [deepEqVal] at h
  | LVal.node i1 a1 fs1, LVal.node i2 a2 fs2 =>
    rw [deepEq_node_iff] at h
    simp only [jsOwnKeys, Option.some.injEq] at hx hy
    subst hx
    subst hy
    exact h.2.1

namespace DataStore

/-- C6: round-trip through the backend. After commit(true) completes, the
tree handed to the backend save is exactly the committed tree of the
resulting store (reset does not touch this.data); the backend contract
promises load then yields some tree t2 deep-equal to it, for which wfKeysB
holds as JS objects cannot carry duplicate keys. A fresh store constructed
from t2 adopts it as committed data and synthesizes its working tree as a
deep copy, so at every namespace the fresh pointer resolves iff the
committed one does and to a deep-equal node, every get(key) is deep-equal,
and keys() enumerates the same key set. -/
theorem c6_roundtrip (s : Store) (p : List String) (bk : LVal → Option String)
    (s3 : Store) (t2 : LVal)
    (_hcommit : commit s p true bk = some (s3, none))
    (hwf : wfKeysB t2 = true)
    (hload : deepEqVal t2 s3.data = true) :
    (∀ q, optDeepEq (pointerOf (mkFresh t2) q) (resolveNs s3.data q)) ∧
    (∀ q x y k, pointerOf (mkFresh t2) q = some x → resolveNs s3.data q = some y →
      deepEqVal (jsGetRaw x k) (jsGetRaw y k) = true) ∧
    (∀ q x y lx ly, pointerOf (mkFresh t2) q = some x → resolveNs s3.data q = some y →
      jsOwnKeys x = some lx → jsOwnKeys y = some ly → sameKeySetB lx ly = true) := by
  have hw2 : pointerOf (mkFresh t2) = fun q => resolveNs ((deepCopy 0 t2).1) q := by
    funext q
    rfl
  have hbase : deepEqVal ((deepCopy 0 t2).1) s3.data = true :=
    deepEq_trans _ _ _ (deepCopy_deepEq 0 t2 hwf) hload
  have hmain : ∀ q, optDeepEq (pointerOf (mkFresh t2) q) (resolveNs s3.data q) := by
    intro q
    rw [hw2]
    exact deepEq_resolve q hbase
  refine ⟨hmain, ?_, ?_⟩
  · intro q x y k hx hy
    have h := hmain q
    rw [hx, hy] at h
    exact deepEq_jsGetRaw h k
  · intro q x y lx ly hx hy hkx hky
    have h := hmain q
    rw [hx, hy] at h
    exact keysAgree_of_deepEq h hkx hky

/-- C6 witness: a concrete successful commit followed by a fresh store
loaded from a deep-equal tree (with different node identities). -/
theorem c6_witness :
    (commit exC3 [] true (fun _ => none)
      = some (Store.mk (LVal.node 0 false [("a", LVal.prim (Prim.num 2))])
          (some (LVal.node 1 false [("a", LVal.prim (Prim.num 2))])) 2, none)) ∧
    (∀ q, optDeepEq
      (pointerOf (mkFresh (LVal.node 9 false [("a", LVal.prim (Prim.num 2))])) q)
      (resolveNs (Store.mk (LVal.node 0 false [("a", LVal.prim (Prim.num 2))])
          (some (LVal.node 1 false [("a", LVal.prim (Prim.num 2))])) 2).data q)) :=
  ⟨rfl,
    (c6_roundtrip exC3 [] (fun _ => none)
      (Store.mk (LVal.node 0 false [("a", LVal.prim (Prim.num 2))])
        (some (LVal.node 1 false [("a", LVal.prim (Prim.num 2))])) 2)
      (LVal.node 9 false [("a", LVal.prim (Prim.num 2))])
      rfl (by decide) (by decide)).1⟩

end DataStore

theorem mem_idsOfFields_of_mem : ∀ {fs : List (String × LVal)} {k : String} {v : LVal},
    (k, v) ∈ fs → ∀ {i : Nat}, i ∈ idsOf v → i ∈ idsOfFields fs := by
  intro fs
  induction fs with
  | nil => intro k v h; cases h
  | cons kv rest ih =>
    intro k v h i hi
    obtain ⟨k0, v0⟩ := kv
    simp only [idsOfFields, List.mem_append]
    rcases List.mem_cons.mp h with h0 | h0
    · cases h0
      exact Or.inl hi
    · exact Or.inr (ih h0 hi)

theorem ids_lookup_sub {fs : List (String × LVal)} {k : String} {v : LVal}
    (h : lookupField fs k = some v) {i : Nat} (hi : i ∈ idsOf v) : i ∈ idsOfFields fs :=
  mem_idsOfFields_of_mem (lookup_mem fs k v h) hi

theorem ids_setField_sub : ∀ {fs : List (String × LVal)} {k : String} {v : LVal} {i : Nat},
    i ∈ idsOfFields (setField fs k v) → i ∈ idsOfFields fs ∨ i ∈ idsOf v := by
  intro fs
  induction fs with
  | nil =>
    intro k v i hi
    simp only [setField, idsOfFields, List.append_nil] at hi
    exact Or.inr hi
  | cons kv rest ih =>
    intro k v i hi
    obtain ⟨k0, v0⟩ := kv
    by_cases h0 : k0 = k
    · simp only [setField, if_pos h0, idsOfFields, List.mem_append] at hi
      rcases hi with hi | hi
      · exact Or.inr hi
      · exact Or.inl (by simp only [idsOfFields, List.mem_append]; exact Or.inr hi)
    · simp only [setField, if_neg h0, idsOfFields, List.mem_append] at hi
      rcases hi with hi | hi
      · exact Or.inl (by simp only [idsOfFields, List.mem_append]; exact Or.inl hi)
      · rcases ih hi with h2 | h2
        · exact Or.inl (by simp only [idsOfFields, List.mem_append]; exact Or.inr h2)
        · exact Or.inr h2

theorem ids_removeField_sub : ∀ {fs : List (String × LVal)} {k : String} {i : Nat},
    i ∈ idsOfFields (removeField fs k) → i ∈ idsOfFields fs := by
  intro fs
  induction fs with
  | nil => intro k i hi; simp [removeField, idsOfFields] at hi
  | cons kv rest ih =>
    intro k i hi
    obtain ⟨k0, v0⟩ := kv
    by_cases h0 : k0 = k
    · simp only [removeField, if_pos h0] at hi
      simp only [idsOfFields, List.mem_append]
      exact Or.inr (ih hi)
    · simp only [removeField, if_neg h0, idsOfFields, List.mem_append] at hi
      simp only [idsOfFields, List.mem_append]
      rcases hi with hi | hi
      · exact Or.inl hi
      · exact Or.inr (ih hi)

theorem ids_mapFields_sub : ∀ {fs : List (String × LVal)} {cb : LVal → String → LVal} {i : Nat},
    i ∈ idsOfFields (fs.map (fun kv => (kv.1, cb kv.2 kv.1))) →
    ∃ kv, kv ∈ fs ∧ i ∈ idsOf (cb kv.2 kv.1) := by
  intro fs
  induction fs with
  | nil => intro cb i hi; simp [idsOfFields] at hi
  | cons kv rest ih =>
    intro cb i hi
    simp only [List.map_cons, idsOfFields, List.mem_append] at hi
    rcases hi with hi | hi
    · exact ⟨kv, List.mem_cons_self _ _, hi⟩
    · obtain ⟨kv2, hm, hi2⟩ := ih hi
      exact ⟨kv2, List.mem_cons_of_mem _ hm, hi2⟩

namespace DataStore

theorem resolve_nil (v : LVal) : resolveNs v [] = some v := by
  cases v <;> rfl

theorem updAt_ids : ∀ (p : List String) {a a2 : LVal} {f : LVal → Option LVal}
    (P : Nat → Prop), updAt a p f = some a2 →
    (∀ x y, resolveNs a p = some x → f x = some y →
      ∀ i, i ∈ idsOf y → i ∈ idsOf x ∨ P i) →
    ∀ i, i ∈ idsOf a2 → i ∈ idsOf a ∨ P i := by
  intro p
  induction p with
  | nil =>
    intro a a2 f P hupd hf i hi
    simp only [updAt] at hupd
    exact hf a a2 (resolve_nil a) hupd i hi
  | cons k rest ih =>
    intro a a2 f P hupd hf i hi
    match a with
    | LVal.prim pr => simp [updAt] at hupd
    | LVal.node i0 arr fs =>
      rcases hc : lookupField fs k with _ | child
      · simp only [updAt, hc] at hupd
        cases hupd
      · rcases hu : updAt child rest f with _ | c2
        · simp only [updAt, hc, hu] at hupd
          cases hupd
        · simp only [updAt, hc, hu, Option.some.injEq] at hupd
          subst hupd
          simp only [idsOf, List.mem_cons] at hi
          rcases hi with hi | hi
          · exact Or.inl (by simp only [idsOf, List.mem_cons]; exact Or.inl hi)
          · rcases ids_setField_sub hi with h2 | h2
            · exact Or.inl (by simp only [idsOf, List.mem_cons]; exact Or.inr h2)
            · have hres : ∀ x y, resolveNs child rest = some x → f x = some y →
                  ∀ j, j ∈ idsOf y → j ∈ idsOf x ∨ P j := by
                intro x y hrx hfy
                apply hf x y
                · simp only [resolveNs, hc]
                  exact hrx
                · exact hfy
              rcases ih P hu hres i h2 with h3 | h3
              · exact Or.inl (by
                  simp only [idsOf, List.mem_cons]
                  exact Or.inr (ids_lookup_sub hc h3))
              · exact Or.inr h3

end DataStore

mutual
theorem deepCopy_ids : ∀ (c : Nat) (v : LVal),
    c ≤ (deepCopy c v).2 ∧ ∀ i, i ∈ idsOf (deepCopy c v).1 → c ≤ i ∧ i < (deepCopy c v).2
  | c, LVal.prim p => by simp [deepCopy, idsOf]
  | c, LVal.node i0 arr fs => by
    have hf := deepCopyFields_ids (c + 1) fs
    have hstep1 : (deepCopy c (LVal.node i0 arr fs)).1
        = LVal.node c arr ((deepCopyFields (c + 1) fs).1) := rfl
    have hstep2 : (deepCopy c (LVal.node i0 arr fs)).2 = (deepCopyFields (c + 1) fs).2 := rfl
    rw [hstep1, hstep2]
    refine ⟨by omega, ?_⟩
    intro i hi
    simp only [idsOf, List.mem_cons] at hi
    rcases hi with hi | hi
    · subst hi
      omega
    · have := hf.2 i hi
      omega

theorem deepCopyFields_ids : ∀ (c : Nat) (fs : List (String × LVal)),
    c ≤ (deepCopyFields c fs).2 ∧
    ∀ i, i ∈ idsOfFields (deepCopyFields c fs).1 → c ≤ i ∧ i < (deepCopyFields c fs).2
  | c, [] => by simp [deepCopyFields, idsOfFields]
  | c, (k, v) :: rest => by
    match v with
    | LVal.node i0 arr fs2 =>
      have h1 := deepCopy_ids c (LVal.node i0 arr fs2)
      have h2 := deepCopyFields_ids (deepCopy c (LVal.node i0 arr fs2)).2 rest
      have hstep1 : (deepCopyFields c ((k, LVal.node i0 arr fs2) :: rest)).1
          = (k, (deepCopy c (LVal.node i0 arr fs2)).1)
            :: ((deepCopyFields (deepCopy c (LVal.node i0 arr fs2)).2 rest).1) := rfl
      have hstep2 : (deepCopyFields c ((k, LVal.node i0 arr fs2) :: rest)).2
          = (deepCopyFields (deepCopy c (LVal.node i0 arr fs2)).2 rest).2 := rfl
      rw [hstep1, hstep2]
      refine ⟨by omega, ?_⟩
      intro i hi
      simp only [idsOfFields, List.mem_append] at hi
      rcases hi with hi | hi
      · have := h1.2 i hi
        omega
      · have := h2.2 i hi
        omega
    | LVal.prim p =>
      have h2 := deepCopyFields_ids c rest
      have hstep1 : (deepCopyFields c ((k, LVal.prim p) :: rest)).1
          = (k, LVal.prim p) :: ((deepCopyFields c rest).1) := rfl
      have hstep2 : (deepCopyFields c ((k, LVal.prim p) :: rest)).2
          = (deepCopyFields c rest).2 := rfl
      rw [hstep1, hstep2]
      refine ⟨by omega, ?_⟩
      intro i hi
      simp only [idsOfFields, List.mem_append, idsOf] at hi
      rcases hi with hi | hi
      · cases hi
      · exact h2.2 i hi
end

theorem ids_jsGetRaw_sub {w : LVal} {k : String} {i : Nat}
    (hi : i ∈ idsOf (jsGetRaw w k)) : i ∈ idsOf w := by
  match w with
  | LVal.prim p => simp [jsGetRaw, idsOf] at hi
  | LVal.node i0 arr fs =>
    simp only [jsGetRaw] at hi
    rcases hl : lookupField fs k with _ | v
    · rw [hl] at hi
      simp [idsOf] at hi
    · rw [hl] at hi
      simp only [idsOf, List.mem_cons]
      exact Or.inr (ids_lookup_sub hl hi)

theorem ids_filterFields_sub : ∀ {fs : List (String × LVal)}
    {pred : String × LVal → Bool} {i : Nat},
    i ∈ idsOfFields (fs.filter pred) → i ∈ idsOfFields fs := by
  intro fs
  induction fs with
  | nil => intro pred i hi; simp [idsOfFields] at hi
  | cons kv rest ih =>
    intro pred i hi
    simp only [idsOfFields, List.mem_append]
    by_cases hp : pred kv = true
    · rw [List.filter_cons_of_pos hp] at hi
      obtain ⟨k0, v0⟩ := kv
      simp only [idsOfFields, List.mem_append] at hi
      rcases hi with hi | hi
      · exact Or.inl hi
      · exact Or.inr (ih hi)
    · rw [List.filter_cons_of_neg (by simpa using hp)] at hi
      exact Or.inr (ih hi)

theorem ids_resolve_sub : ∀ (p : List String) {a w : LVal},
    resolveNs a p = some w → ∀ {i : Nat}, i ∈ idsOf w → i ∈ idsOf a := by
  intro p
  induction p with
  | nil =>
    intro a w h i hi
    rw [DataStore.resolve_nil] at h
    cases h
    exact hi
  | cons k rest ih =>
    intro a w h i hi
    match a with
    | LVal.prim pr => simp [resolveNs] at h
    | LVal.node i0 arr fs =>
      simp only [resolveNs] at h
      rcases hl : lookupField fs k with _ | v
      · rw [hl] at h
        cases h
      · rw [hl] at h
        simp only [idsOf, List.mem_cons]
        exact Or.inr (ids_lookup_sub hl (ih h hi))

theorem writeProp_ids {w : LVal} {k : String} {v w2 : LVal}
    (h : DataStore.writeProp w k v = some w2) {i : Nat} (hi : i ∈ idsOf w2) :
    i ∈ idsOf w ∨ i ∈ idsOf v := by
  match w with
  | LVal.prim p => simp [DataStore.writeProp] at h
  | LVal.node i0 arr fs =>
    simp only [DataStore.writeProp, Option.some.injEq] at h
    subst h
    simp only [idsOf, List.mem_cons] at hi
    rcases hi with hi | hi
    · exact Or.inl (by simp only [idsOf, List.mem_cons]; exact Or.inl hi)
    · rcases ids_setField_sub hi with h2 | h2
      · exact Or.inl (by simp only [idsOf, List.mem_cons]; exact Or.inr h2)
      · exact Or.inr h2

mutual
theorem resetNode_ids : ∀ (c : Nat) (cm w w3 : LVal) (c3 : Nat),
    DataStore.resetNode c cm w = some (w3, c3) →
    c ≤ c3 ∧ ∀ i, i ∈ idsOf w3 → i ∈ idsOf w ∨ (c ≤ i ∧ i < c3)
  | c, LVal.prim q, w, w3, c3, h => by
    simp only [DataStore.resetNode] at h
    by_cases he : DataStore.hasOwnEnumerable w = true
    · rw [if_pos he] at h
      cases h
    · rw [if_neg he] at h
      simp only [Option.some.injEq, Prod.mk.injEq] at h
      obtain ⟨h1, h2⟩ := h
      subst h1
      subst h2
      exact ⟨le_refl c, fun i hi => Or.inl hi⟩
  | c, LVal.node ci carr cfs, w, w3, c3, h => by
    rcases hr : DataStore.resetFields c cfs w with _ | ⟨w4, c4⟩
    · simp only [DataStore.resetNode, hr] at h
      cases h
    · have hids := resetFields_ids c cfs w w4 c4 hr
      rcases w4 with q | ⟨wi, warr, wfs⟩
      · simp only [DataStore.resetNode, hr, Option.some.injEq, Prod.mk.injEq] at h
        obtain ⟨h1, h2⟩ := h
        subst h2
        rw [← h1]
        exact ⟨hids.1, fun i hi => hids.2 i hi⟩
      · simp only [DataStore.resetNode, hr, Option.some.injEq, Prod.mk.injEq] at h
        obtain ⟨h1, h2⟩ := h
        subst h2
        rw [← h1]
        refine ⟨hids.1, ?_⟩
        intro i hi
        simp only [idsOf, List.mem_cons] at hi
        apply hids.2
        simp only [idsOf, List.mem_cons]
        rcases hi with hi | hi
        · exact Or.inl hi
        · exact Or.inr (ids_filterFields_sub hi)

theorem resetFields_ids : ∀ (c : Nat) (cfs : List (String × LVal)) (w w2 : LVal) (c2 : Nat),
    DataStore.resetFields c cfs w = some (w2, c2) →
    c ≤ c2 ∧ ∀ i, i ∈ idsOf w2 → i ∈ idsOf w ∨ (c ≤ i ∧ i < c2)
  | c, [], w, w2, c2, h => by
    simp only [DataStore.resetFields, Option.some.injEq, Prod.mk.injEq] at h
    obtain ⟨h1, h2⟩ := h
    subst h1
    subst h2
    exact ⟨le_refl c, fun i hi => Or.inl hi⟩
  | c, (k, LVal.node ci carr cfs2) :: rest, w, w2, c2, h => by
    by_cases ht : typeOf (jsGetRaw w k) ≠ "undefined"
    · rcases hr : DataStore.resetNode c (LVal.node ci carr cfs2) (jsGetRaw w k) with _ | ⟨r1, r2⟩
      · simp only [DataStore.resetFields, if_pos ht, hr] at h
        cases h
      · rcases hw : DataStore.writeProp w k r1 with _ | w2a
        · simp only [DataStore.resetFields, if_pos ht, hr, hw] at h
          cases h
        · simp only [DataStore.resetFields, if_pos ht, hr, hw] at h
          have h1 := resetNode_ids c (LVal.node ci carr cfs2) (jsGetRaw w k) r1 r2 hr
          have h2 := resetFields_ids r2 rest w2a w2 c2 h
          refine ⟨by omega, ?_⟩
          intro i hi
          rcases h2.2 i hi with hi2 | hi2
          · rcases writeProp_ids hw hi2 with hi3 | hi3
            · exact Or.inl hi3
            · rcases h1.2 i hi3 with hi4 | hi4
              · exact Or.inl (ids_jsGetRaw_sub hi4)
              · exact Or.inr (by omega)
          · exact Or.inr (by omega)
    · rcases hw : DataStore.writeProp w k (deepCopy c (LVal.node ci carr cfs2)).1 with _ | w2a
      · simp only [DataStore.resetFields, if_neg ht, hw] at h
        cases h
      · simp only [DataStore.resetFields, if_neg ht, hw] at h
        have h1 := deepCopy_ids c (LVal.node ci carr cfs2)
        have h2 := resetFields_ids (deepCopy c (LVal.node ci carr cfs2)).2 rest w2a w2 c2 h
        refine ⟨by omega, ?_⟩
        intro i hi
        rcases h2.2 i hi with hi2 | hi2
        · rcases writeProp_ids hw hi2 with hi3 | hi3
          · exact Or.inl hi3
          · have := h1.2 i hi3
            exact Or.inr (by omega)
        · exact Or.inr (by omega)
  | c, (k, LVal.prim q) :: rest, w, w2, c2, h => by
    rcases hw : DataStore.writeProp w k (LVal.prim q) with _ | w2a
    · simp only [DataStore.resetFields, hw] at h
      cases h
    · simp only [DataStore.resetFields, hw] at h
      have h2 := resetFields_ids c rest w2a w2 c2 h
      refine ⟨h2.1, ?_⟩
      intro i hi
      rcases h2.2 i hi with hi2 | hi2
      · rcases writeProp_ids hw hi2 with hi3 | hi3
        · exact Or.inl hi3
        · simp [idsOf] at hi3
      · exact Or.inr hi2
end

theorem idsBelowB_iff (v : LVal) (n : Nat) :
    idsBelowB v n = true ↔ ∀ i, i ∈ idsOf v → i < n := by
  simp [idsBelowB, List.all_eq_true]

theorem disjointIds_iff (a b : LVal) :
    disjointIds a b = true ↔ ∀ i, i ∈ idsOf a → ¬ i ∈ idsOf b := by
  simp [disjointIds, List.all_eq_true]

theorem disjoint_not_mem {a b : LVal} (h : disjointIds a b = true) {i : Nat}
    (hi : i ∈ idsOf b) : ¬ i ∈ idsOf a := by
  rw [disjointIds_iff] at h
  exact fun hia => h i hia hi

namespace DataStore

theorem WFS_some_iff (s : Store) (a : LVal) (ha : s.activeData = some a) :
    WFS s = true ↔ idsBelowB s.data s.nextId = true ∧
      idsBelowB a s.nextId = true ∧ disjointIds s.data a = true := by
  obtain ⟨d, ao, n⟩ := s
  cases ha
  simp [WFS, Bool.and_eq_true]

theorem ensureActive_spec (s : Store) (h : WFS s = true) :
    (ensureActive s).data = s.data ∧ s.nextId ≤ (ensureActive s).nextId ∧
    WFS (ensureActive s) = true ∧ ∃ a, (ensureActive s).activeData = some a := by
  obtain ⟨d, ao, n⟩ := s
  rcases ao with _ | a
  · have hc := deepCopy_ids n d
    have hd : idsBelowB d n = true := by simpa [WFS] using h
    have hstep : ensureActive (Store.mk d none n)
        = Store.mk d (some (deepCopy n d).1) (deepCopy n d).2 := rfl
    rw [hstep]
    refine ⟨rfl, hc.1, ?_, ⟨(deepCopy n d).1, rfl⟩⟩
    rw [WFS_some_iff _ (deepCopy n d).1 rfl]
    dsimp only
    rw [idsBelowB_iff] at hd
    refine ⟨?_, ?_, ?_⟩
    · rw [idsBelowB_iff]
      intro i hi
      have := hd i hi
      omega
    · rw [idsBelowB_iff]
      intro i hi
      exact (hc.2 i hi).2
    · rw [disjointIds_iff]
      intro i hi hic
      have h1 := hd i hi
      have h2 := (hc.2 i hic).1
      omega
  · have hstep : ensureActive (Store.mk d (some a) n) = Store.mk d (some a) n := rfl
    rw [hstep]
    exact ⟨rfl, le_refl n, h, ⟨a, rfl⟩⟩

theorem updWorking_wfs (d a : LVal) (n : Nat) (p : List String) (f : LVal → Option LVal)
    (P : Nat → Prop)
    (hWFS : WFS (Store.mk d (some a) n) = true)
    (hf : ∀ x y, f x = some y → ∀ i, i ∈ idsOf y → i ∈ idsOf x ∨ P i)
    (hP : ∀ i, P i → i < n ∧ ¬ i ∈ idsOf d) :
    ∀ a2, updAt a p f = some a2 → WFS (Store.mk d (some a2) n) = true := by
  intro a2 hupd
  have hids := updAt_ids p P hupd (fun x y _ hfy => hf x y hfy)
  rw [WFS_some_iff _ a rfl] at hWFS
  rw [WFS_some_iff _ a2 rfl]
  obtain ⟨hd, ha, hdisj⟩ := hWFS
  rw [idsBelowB_iff] at ha
  refine ⟨hd, ?_, ?_⟩
  · rw [idsBelowB_iff]
    intro i hi
    rcases hids i hi with h2 | h2
    · exact ha i h2
    · exact (hP i h2).1
  · rw [disjointIds_iff]
    intro i hid hia
    rcases hids i hia with h2 | h2
    · exact disjoint_not_mem hdisj h2 hid
    · exact (hP i h2).2 hid

theorem set_wfs (s : Store) (p : List String) (k : String) (v : LVal)
    (hWFS : WFS s = true) (hb : idsBelowB v s.nextId = true)
    (hdisj : disjointIds s.data v = true) :
    (set s p k v).data = s.data ∧ WFS (set s p k v) = true ∧
    s.nextId ≤ (set s p k v).nextId := by
  obtain ⟨hd, hn, hw, a, ha⟩ := ensureActive_spec s hWFS
  have hs2 : ensureActive s = Store.mk (ensureActive s).data (some a) (ensureActive s).nextId := by
    rw [← ha]
  have hset : set s p k v = (match updAt a p (fun ptr =>
      match ptr with
      | LVal.node i0 arr fs => some (LVal.node i0 arr (setField fs k v))
      | LVal.prim _ => none) with
    | some a2 => Store.mk (ensureActive s).data (some a2) (ensureActive s).nextId
    | none => ensureActive s) := by
    simp only [set, ha]
  rcases hu : updAt a p (fun ptr =>
      match ptr with
      | LVal.node i0 arr fs => some (LVal.node i0 arr (setField fs k v))
      | LVal.prim _ => none) with _ | a2
  · rw [hset, hu]
    exact ⟨hd, hw, hn⟩
  · rw [hset, hu]
    have hw2 : WFS (Store.mk (ensureActive s).data (some a) (ensureActive s).nextId) = true := by
      rw [← hs2]
      exact hw
    have happ := updWorking_wfs (ensureActive s).data a (ensureActive s).nextId p _
      (fun i => i ∈ idsOf v) hw2 ?_ ?_ a2 hu
    · exact ⟨hd, happ, hn⟩
    · intro x y hxy i hi
      match x, hxy with
      | LVal.node i0 arr fs, hxy =>
        simp only [Option.some.injEq] at hxy
        subst hxy
        simp only [idsOf, List.mem_cons] at hi
        rcases hi with hi | hi
        · exact Or.inl (by simp only [idsOf, List.mem_cons]; exact Or.inl hi)
        · rcases ids_setField_sub hi with h2 | h2
          · exact Or.inl (by simp only [idsOf, List.mem_cons]; exact Or.inr h2)
          · exact Or.inr h2
    · intro i hi
      rw [idsBelowB_iff] at hb
      constructor
      · have := hb i hi
        omega
      · rw [hd]
        exact disjoint_not_mem hdisj hi

theorem unset_wfs (s : Store) (p : List String) (k : String)
    (hWFS : WFS s = true) :
    (unset s p k).data = s.data ∧ WFS (unset s p k) = true ∧
    s.nextId ≤ (unset s p k).nextId := by
  obtain ⟨hd, hn, hw, a, ha⟩ := ensureActive_spec s hWFS
  have hs2 : ensureActive s = Store.mk (ensureActive s).data (some a) (ensureActive s).nextId := by
    rw [← ha]
  have hset : unset s p k = (match updAt a p (fun ptr =>
      match ptr with
      | LVal.node i0 arr fs => some (LVal.node i0 arr (removeField fs k))
      | LVal.prim q => some (LVal.prim q)) with
    | some a2 => Store.mk (ensureActive s).data (some a2) (ensureActive s).nextId
    | none => ensureActive s) := by
    simp only [unset, ha]
  rcases hu : updAt a p (fun ptr =>
      match ptr with
      | LVal.node i0 arr fs => some (LVal.node i0 arr (removeField fs k))
      | LVal.prim q => some (LVal.prim q)) with _ | a2
  · rw [hset, hu]
    exact ⟨hd, hw, hn⟩
  · rw [hset, hu]
    have hw2 : WFS (Store.mk (ensureActive s).data (some a) (ensureActive s).nextId) = true := by
      rw [← hs2]
      exact hw
    have happ := updWorking_wfs (ensureActive s).data a (ensureActive s).nextId p _
      (fun _ => False) hw2 ?_ ?_ a2 hu
    · exact ⟨hd, happ, hn⟩
    · intro x y hxy i hi
      match x, hxy with
      | LVal.node i0 arr fs, hxy =>
        simp only [Option.some.injEq] at hxy
        subst hxy
        simp only [idsOf, List.mem_cons] at hi
        rcases hi with hi | hi
        · exact Or.inl (by simp only [idsOf, List.mem_cons]; exact Or.inl hi)
        · exact Or.inl (by
            simp only [idsOf, List.mem_cons]
            exact Or.inr (ids_removeField_sub hi))
      | LVal.prim q, hxy =>
        simp only [Option.some.injEq] at hxy
        subst hxy
        exact Or.inl hi
    · intro i hi
      cases hi

theorem mapInPlace_wfs (s : Store) (p : List String) (cb : LVal → String → LVal)
    (hWFS : WFS s = true)
    (hcb : ∀ x k, idsBelowB (cb x k) s.nextId = true ∧ disjointIds s.data (cb x k) = true) :
    (mapInPlace s p cb).data = s.data ∧ WFS (mapInPlace s p cb) = true ∧
    s.nextId ≤ (mapInPlace s p cb).nextId := by
  obtain ⟨hd, hn, hw, a, ha⟩ := ensureActive_spec s hWFS
  have hs2 : ensureActive s = Store.mk (ensureActive s).data (some a) (ensureActive s).nextId := by
    rw [← ha]
  have hset : mapInPlace s p cb = (match updAt a p (fun ptr =>
      match ptr with
      | LVal.node i0 arr fs =>
        some (LVal.node i0 arr (fs.map (fun kv => (kv.1, cb kv.2 kv.1))))
      | LVal.prim _ => none) with
    | some a2 => Store.mk (ensureActive s).data (some a2) (ensureActive s).nextId
    | none => ensureActive s) := by
    simp only [mapInPlace, ha]
  rcases hu : updAt a p (fun ptr =>
      match ptr with
      | LVal.node i0 arr fs =>
        some (LVal.node i0 arr (fs.map (fun kv => (kv.1, cb kv.2 kv.1))))
      | LVal.prim _ => none) with _ | a2
  · rw [hset, hu]
    exact ⟨hd, hw, hn⟩
  · rw [hset, hu]
    have hw2 : WFS (Store.mk (ensureActive s).data (some a) (ensureActive s).nextId) = true := by
      rw [← hs2]
      exact hw
    have happ := updWorking_wfs (ensureActive s).data a (ensureActive s).nextId p _
      (fun i => ∃ x k, i ∈ idsOf (cb x k)) hw2 ?_ ?_ a2 hu
    · exact ⟨hd, happ, hn⟩
    · intro x y hxy i hi
      match x, hxy with
      | LVal.node i0 arr fs, hxy =>
        simp only [Option.some.injEq] at hxy
        subst hxy
        simp only [idsOf, List.mem_cons] at hi
        rcases hi with hi | hi
        · exact Or.inl (by simp only [idsOf, List.mem_cons]; exact Or.inl hi)
        · obtain ⟨kv, _, hkv⟩ := ids_mapFields_sub hi
          exact Or.inr ⟨kv.2, kv.1, hkv⟩
    · intro i hi
      obtain ⟨x, k, hk⟩ := hi
      obtain ⟨hb, hdisj⟩ := hcb x k
      rw [idsBelowB_iff] at hb
      constructor
      · have := hb i hk
        omega
      · rw [hd]
        exact disjoint_not_mem hdisj hk

end DataStore

theorem idsBelowB_mono {v : LVal} {n n2 : Nat} (h : idsBelowB v n = true) (hle : n ≤ n2) :
    idsBelowB v n2 = true := by
  rw [idsBelowB_iff] at h ⊢
  intro i hi
  have := h i hi
  omega

theorem opok_mono {d : LVal} {n n2 : Nat} {op : Op} (h : OpOk d n op) (hle : n ≤ n2) :
    OpOk d n2 op := by
  match op with
  | Op.getOp p k => trivial
  | Op.keysOp p => trivial
  | Op.hasOp p k => trivial
  | Op.filterOp p cb => trivial
  | Op.unsetOp p k => trivial
  | Op.setOp p k v => exact ⟨idsBelowB_mono h.1 hle, h.2⟩
  | Op.mapOp p cb false => trivial
  | Op.mapOp p cb true =>
    intro x k
    exact ⟨idsBelowB_mono (h x k).1 hle, (h x k).2⟩

namespace DataStore

theorem applyOp_spec (s : Store) (op : Op) (hWFS : WFS s = true)
    (hok : OpOk s.data s.nextId op) :
    (applyOp s op).data = s.data ∧ WFS (applyOp s op) = true ∧
    s.nextId ≤ (applyOp s op).nextId := by
  match op with
  | Op.getOp p k =>
    obtain ⟨h1, h2, h3, _⟩ := ensureActive_spec s hWFS
    exact ⟨h1, h3, h2⟩
  | Op.keysOp p =>
    obtain ⟨h1, h2, h3, _⟩ := ensureActive_spec s hWFS
    exact ⟨h1, h3, h2⟩
  | Op.hasOp p k =>
    obtain ⟨h1, h2, h3, _⟩ := ensureActive_spec s hWFS
    exact ⟨h1, h3, h2⟩
  | Op.filterOp p cb =>
    obtain ⟨h1, h2, h3, _⟩ := ensureActive_spec s hWFS
    exact ⟨h1, h3, h2⟩
  | Op.mapOp p cb false =>
    obtain ⟨h1, h2, h3, _⟩ := ensureActive_spec s hWFS
    exact ⟨h1, h3, h2⟩
  | Op.setOp p k v => exact set_wfs s p k v hWFS hok.1 hok.2
  | Op.unsetOp p k => exact unset_wfs s p k hWFS
  | Op.mapOp p cb true => exact mapInPlace_wfs s p cb hWFS hok

theorem applyOps_spec (ops : List Op) : ∀ (s : Store), WFS s = true →
    OpsOk s.data s.nextId ops →
    (applyOps s ops).data = s.data ∧ WFS (applyOps s ops) = true ∧
    s.nextId ≤ (applyOps s ops).nextId := by
  induction ops with
  | nil =>
    intro s h _
    exact ⟨rfl, h, le_refl _⟩
  | cons op rest ih =>
    intro s h hok
    have h1 := applyOp_spec s op h (hok op (List.mem_cons_self _ _))
    have h2 := ih (applyOp s op) h1.2.1 (by
      intro op2 hm
      rw [h1.1]
      exact opok_mono (hok op2 (List.mem_cons_of_mem _ hm)) h1.2.2)
    have hstep : applyOps s (op :: rest) = applyOps (applyOp s op) rest := rfl
    rw [hstep]
    refine ⟨?_, h2.2.1, ?_⟩
    · rw [h2.1, h1.1]
    · have := h1.2.2
      have := h2.2.2
      omega

theorem reset_wfs (s : Store) (p : List String) (s2 : Store)
    (hWFS : WFS s = true) (h : reset s p = some s2) :
    s2.data = s.data ∧ WFS s2 = true ∧ s.nextId ≤ s2.nextId := by
  obtain ⟨d, ao, n⟩ := s
  rcases ao with _ | a
  · have hstep : reset (Store.mk d none n) p
        = some (ensureActive (Store.mk d none n)) := rfl
    rw [hstep] at h
    cases h
    obtain ⟨h1, h2, h3, _⟩ := ensureActive_spec (Store.mk d none n) hWFS
    exact ⟨h1, h3, h2⟩
  · have hW := (WFS_some_iff (Store.mk d (some a) n) a rfl).mp hWFS
    obtain ⟨hd, ha, hdisj⟩ := hW
    dsimp only at hd ha hdisj
    rcases hc : resolveNs d p with _ | cm
    · rcases hw : resolveNs a p with _ | w
      · have hstep : reset (Store.mk d (some a) n) p = some (Store.mk d (some a) n) := by
          simp only [reset, hc, hw]
        rw [hstep] at h
        cases h
        exact ⟨rfl, hWFS, le_refl n⟩
      · have hstep : reset (Store.mk d (some a) n) p
            = if hasOwnEnumerable w then none else some (Store.mk d (some a) n) := by
          simp only [reset, hc, hw]
        rw [hstep] at h
        by_cases he : hasOwnEnumerable w = true
        · rw [if_pos he] at h
          cases h
        · rw [if_neg he] at h
          cases h
          exact ⟨rfl, hWFS, le_refl n⟩
    · rcases hw : resolveNs a p with _ | w
      · have hstep : reset (Store.mk d (some a) n) p
            = if hasOwnEnumerable cm then none else some (Store.mk d (some a) n) := by
          simp only [reset, hc, hw]
        rw [hstep] at h
        by_cases he : hasOwnEnumerable cm = true
        · rw [if_pos he] at h
          cases h
        · rw [if_neg he] at h
          cases h
          exact ⟨rfl, hWFS, le_refl n⟩
      · match cm, hc with
        | LVal.prim q, hc =>
          have hstep : reset (Store.mk d (some a) n) p
              = if hasOwnEnumerable w then none else some (Store.mk d (some a) n) := by
            simp only [reset, hc, hw]
          rw [hstep] at h
          by_cases he : hasOwnEnumerable w = true
          · rw [if_pos he] at h
            cases h
          · rw [if_neg he] at h
            cases h
            exact ⟨rfl, hWFS, le_refl n⟩
        | LVal.node ci carr cfs, hc =>
          rcases hr : resetNode n (LVal.node ci carr cfs) w with _ | ⟨w3, c3⟩
          · have hstep : reset (Store.mk d (some a) n) p = none := by
              simp only [reset, hc, hw, hr]
            rw [hstep] at h
            cases h
          · rcases hu : updAt a p (fun _ => some w3) with _ | a2
            · have hstep : reset (Store.mk d (some a) n) p = none := by
                simp only [reset, hc, hw, hr, hu]
              rw [hstep] at h
              cases h
            · have hstep : reset (Store.mk d (some a) n) p
                  = some (Store.mk d (some a2) c3) := by
                simp only [reset, hc, hw, hr, hu]
              rw [hstep] at h
              cases h
              have hrids := resetNode_ids n (LVal.node ci carr cfs) w w3 c3 hr
              have hids := updAt_ids p (fun i => n ≤ i ∧ i < c3) hu (by
                intro x y hrx hfy i hiy
                simp only [Option.some.injEq] at hfy
                subst hfy
                rw [hw] at hrx
                cases hrx
                rcases hrids.2 i hiy with h2 | h2
                · exact Or.inl h2
                · exact Or.inr h2)
              refine ⟨rfl, ?_, hrids.1⟩
              rw [WFS_some_iff _ a2 rfl]
              dsimp only
              rw [idsBelowB_iff] at hd ha
              refine ⟨?_, ?_, ?_⟩
              · rw [idsBelowB_iff]
                intro i hi
                have := hd i hi
                omega
              · rw [idsBelowB_iff]
                intro i hi
                rcases hids i hi with h2 | h2
                · have := ha i h2
                  omega
                · omega
              · rw [disjointIds_iff]
                intro i hid hia
                rcases hids i hia with h2 | h2
                · exact disjoint_not_mem hdisj h2 hid
                · have := hd i hid
                  omega

theorem commit_wfs (s : Store) (p : List String) (save : Bool) (bk : LVal → Option String)
    (r : Store × Option String) (hWFS : WFS s = true) (h : commit s p save bk = some r) :
    WFS r.1 = true ∧ s.nextId ≤ r.1.nextId := by
  obtain ⟨d, ao, n⟩ := s
  rcases ao with _ | a
  · simp only [commit] at h
    cases h
  · have hW := (WFS_some_iff (Store.mk d (some a) n) a rfl).mp hWFS
    obtain ⟨hd, ha, hdisj⟩ := hW
    dsimp only at hd ha hdisj
    rcases hc : resolveNs d p with _ | cm
    · simp only [commit, hc] at h
      cases h
    · rcases hw : resolveNs a p with _ | w
      · simp only [commit, hc, hw] at h
        match cm, h with
        | LVal.prim q, h => cases h
        | LVal.node ci carr cfs, h => cases h
        
      · match cm, w, hc, hw with
        | LVal.prim q, w, hc, hw =>
          simp only [commit, hc, hw] at h
          cases h
        | LVal.node ci carr cfs, LVal.prim q, hc, hw =>
          simp only [commit, hc, hw] at h
          cases h
        | LVal.node ci carr cfs, LVal.node wi warr wfs, hc, hw =>
          rcases hu : updAt d p
              (fun _ => some (LVal.node ci carr (deepCopyFields n wfs).1)) with _ | d2
          · simp only [commit, hc, hw, hu] at h
            cases h
          · have hcopy := deepCopyFields_ids n wfs
            have hids := updAt_ids p (fun i => n ≤ i ∧ i < (deepCopyFields n wfs).2) hu (by
              intro x y hrx hfy i hiy
              simp only [Option.some.injEq] at hfy
              subst hfy
              rw [hc] at hrx
              cases hrx
              simp only [idsOf, List.mem_cons] at hiy
              rcases hiy with hiy | hiy
              · exact Or.inl (by
                  simp only [idsOf, List.mem_cons]
                  exact Or.inl hiy)
              · have := hcopy.2 i hiy
                exact Or.inr (by omega))
            have hawid : idsBelowB a (deepCopyFields n wfs).2 = true :=
              idsBelowB_mono ha hcopy.1
            have hWFS2 : WFS (Store.mk d2 (some a) (deepCopyFields n wfs).2) = true := by
              rw [WFS_some_iff _ a rfl]
              dsimp only
              rw [idsBelowB_iff] at hd ha
              refine ⟨?_, hawid, ?_⟩
              · rw [idsBelowB_iff]
                intro i hi
                rcases hids i hi with h2 | h2
                · have := hd i h2
                  omega
                · omega
              · rw [disjointIds_iff]
                intro i hid2 hia
                rcases hids i hid2 with h2 | h2
                · exact disjoint_not_mem hdisj hia h2
                · have := ha i hia
                  omega
            rcases hsave : (if save then bk d2 else none) with _ | e
            · -- save absent or succeeded: the final reset runs
              rcases hrs : reset (Store.mk d2 (some a) (deepCopyFields n wfs).2) p with _ | s3
              · exfalso
                rcases save with _ | _
                · simp only [commit, hc, hw, hu, if_false, hrs] at h
                  cases h
                · simp only [if_true] at hsave
                  simp only [commit, hc, hw, hu, if_true, hsave, hrs] at h
                  cases h
              · have hr3 := reset_wfs _ p s3 hWFS2 hrs
                rcases save with _ | _
                · simp only [commit, hc, hw, hu, if_false, hrs] at h
                  cases h
                  refine ⟨hr3.2.1, ?_⟩
                  have e1 := hr3.2.2
                  have e2 := hcopy.1
                  dsimp only at e1 ⊢
                  omega
                · simp only [if_true] at hsave
                  simp only [commit, hc, hw, hu, if_true, hsave, hrs] at h
                  cases h
                  refine ⟨hr3.2.1, ?_⟩
                  have e1 := hr3.2.2
                  have e2 := hcopy.1
                  dsimp only at e1 ⊢
                  omega
            · -- the save threw
              rcases save with _ | _
              · simp at hsave
              · simp only [if_true] at hsave
                simp only [commit, hc, hw, hu, if_true, hsave] at h
                cases h
                exact ⟨hWFS2, hcopy.1⟩

end DataStore

namespace DataStore

/-- C2: the committed tree is isolated from the working surface. First, no
session of get/set/unset/keys/has/map/filter operations through any
namespace handle changes the committed tree, and the store invariant WFS
(no node of the working tree is the same reference, i.e. shares an id,
with any node of the committed tree) is preserved, provided injected
values are fresh for the committed tree, which is all a client can produce
since the API only hands out working-tree references. Second and third,
commit and reset also preserve WFS: every cross-tree transfer they perform
deep-copies composite values with fresh identities instead of assigning
references. -/
theorem c2_no_aliasing :
    (∀ (s : Store) (ops : List Op), WFS s = true → OpsOk s.data s.nextId ops →
      (applyOps s ops).data = s.data ∧ WFS (applyOps s ops) = true) ∧
    (∀ (s : Store) (p : List String) (s2 : Store), WFS s = true →
      reset s p = some s2 → s2.data = s.data ∧ WFS s2 = true) ∧
    (∀ (s : Store) (p : List String) (save : Bool) (bk : LVal → Option String)
      (r : Store × Option String), WFS s = true → commit s p save bk = some r →
      WFS r.1 = true) := by
  refine ⟨?_, ?_, ?_⟩
  · intro s ops h hok
    have := applyOps_spec ops s h hok
    exact ⟨this.1, this.2.1⟩
  · intro s p s2 h hr
    have := reset_wfs s p s2 h hr
    exact ⟨this.1, this.2.1⟩
  · intro s p save bk r h hc
    exact (commit_wfs s p save bk r h hc).1

/-- C2 witness: a concrete session, reset and commit on a shared-free
store, with every hypothesis discharged. -/
theorem c2_witness :
    ((applyOps wExample
        [Op.setOp [] "k" (LVal.prim (Prim.num 5)), Op.getOp [] "k",
         Op.unsetOp [] "k", Op.keysOp []]).data = wExample.data ∧
      WFS (applyOps wExample
        [Op.setOp [] "k" (LVal.prim (Prim.num 5)), Op.getOp [] "k",
         Op.unsetOp [] "k", Op.keysOp []]) = true) ∧
    (wExample.data = wExample.data ∧ WFS wExample = true) ∧
    WFS (Store.mk (LVal.node 2 false [("x", LVal.node 4 false [])])
      (some (LVal.node 0 false [("x", LVal.node 1 false [])])) 5) = true := by
  refine ⟨?_, ?_, ?_⟩
  · apply c2_no_aliasing.1 wExample _ (by decide)
    intro op hm
    simp only [List.mem_cons, List.not_mem_nil, or_false] at hm
    rcases hm with rfl | rfl | rfl | rfl
    · exact ⟨by decide, by decide⟩
    · trivial
    · trivial
    · trivial
  · exact c2_no_aliasing.2.1 wExample [] wExample (by decide) rfl
  · exact c2_no_aliasing.2.2 wExample [] true (fun _ => none)
      (Store.mk (LVal.node 2 false [("x", LVal.node 4 false [])])
        (some (LVal.node 0 false [("x", LVal.node 1 false [])])) 5, none)
      (by decide) rfl

end DataStore

theorem fieldNames_setField_mem : ∀ {fs : List (String × LVal)} {k : String} (v : LVal),
    k ∈ fieldNames fs → fieldNames (setField fs k v) = fieldNames fs := by
  intro fs
  induction fs with
  | nil => intro k v h; simp [fieldNames] at h
  | cons kv rest ih =>
    intro k v h
    obtain ⟨k0, v0⟩ := kv
    by_cases h0 : k0 = k
    · subst h0
      simp [setField, fieldNames]
    · simp only [fieldNames, List.map_cons, List.mem_cons] at h
      rcases h with h | h
      · exact absurd h.symm h0
      · simp only [setField, if_neg h0, fieldNames, List.map_cons]
        have h2 := ih v (by simpa [fieldNames] using h)
        simp only [fieldNames] at h2
        rw [h2]

theorem fieldNames_setField_not_mem : ∀ {fs : List (String × LVal)} {k : String} (v : LVal),
    k ∉ fieldNames fs → fieldNames (setField fs k v) = fieldNames fs ++ [k] := by
  intro fs
  induction fs with
  | nil => intro k v _; simp [setField, fieldNames]
  | cons kv rest ih =>
    intro k v h
    obtain ⟨k0, v0⟩ := kv
    simp only [fieldNames, List.map_cons, List.mem_cons] at h
    push_neg at h
    have h0 : k0 ≠ k := fun he => h.1 he.symm
    simp only [setField, if_neg h0, fieldNames, List.map_cons, List.cons_append]
    have h2 := ih v h.2
    simp only [fieldNames] at h2
    rw [h2]

theorem mem_setField : ∀ {fs : List (String × LVal)} {k : String} {v : LVal} {kv : String × LVal},
    kv ∈ setField fs k v → kv ∈ fs ∨ kv = (k, v) := by
  intro fs
  induction fs with
  | nil =>
    intro k v kv h
    simp only [setField, List.mem_singleton] at h
    exact Or.inr h
  | cons kv0 rest ih =>
    intro k v kv h
    obtain ⟨k0, v0⟩ := kv0
    by_cases h0 : k0 = k
    · rw [show setField ((k0, v0) :: rest) k v = (k, v) :: rest by
        simp [setField, h0]] at h
      rcases List.mem_cons.mp h with h | h
      · exact Or.inr h
      · exact Or.inl (List.mem_cons_of_mem _ h)
    · rw [show setField ((k0, v0) :: rest) k v = (k0, v0) :: setField rest k v by
        simp [setField, h0]] at h
      rcases List.mem_cons.mp h with h | h
      · exact Or.inl (by simp [h])
      · rcases ih h with h2 | h2
        · exact Or.inl (List.mem_cons_of_mem _ h2)
        · exact Or.inr h2

theorem tidyFields_iff : ∀ (fs : List (String × LVal)), tidyFields fs = true ↔
    ∀ kv : String × LVal, kv ∈ fs →
      protoKeys.contains kv.1 = false ∧ arrayOwnProto.contains kv.1 = false ∧
      tidyB kv.2 = true := by
  intro fs
  induction fs with
  | nil => simp [tidyFields]
  | cons kv rest ih =>
    obtain ⟨k0, v0⟩ := kv
    constructor
    · intro h kv2 hm
      simp only [tidyFields, Bool.and_eq_true, Bool.not_eq_true'] at h
      obtain ⟨⟨⟨h1, h2⟩, h3⟩, h4⟩ := h
      rcases List.mem_cons.mp hm with h5 | h5
      · subst h5
        exact ⟨h1, h2, h3⟩
      · exact (ih.mp h4) kv2 h5
    · intro h
      simp only [tidyFields, Bool.and_eq_true, Bool.not_eq_true']
      obtain ⟨h1, h2, h3⟩ := h (k0, v0) (List.mem_cons_self _ _)
      exact ⟨⟨⟨h1, h2⟩, h3⟩, ih.mpr (fun kv2 hm => h kv2 (List.mem_cons_of_mem _ hm))⟩

theorem tidyB_node_iff (i : Nat) (arr : Bool) (fs : List (String × LVal)) :
    tidyB (LVal.node i arr fs) = true ↔
    nodupStrB (fieldNames fs) = true ∧ tidyFields fs = true := by
  simp [tidyB, Bool.and_eq_true]

theorem lookupField_filter {fs : List (String × LVal)} {p : String × LVal → Bool}
    (hn : nodupStrB (fieldNames fs) = true) (k : String) :
    lookupField (fs.filter p) k =
      (match lookupField fs k with
       | some v => if p (k, v) then some v else none
       | none => none) := by
  induction fs with
  | nil => simp [lookupField]
  | cons kv rest ih =>
    obtain ⟨k0, v0⟩ := kv
    simp only [nodupStrB, fieldNames, List.map_cons, Bool.and_eq_true,
      Bool.not_eq_true'] at hn
    by_cases h0 : k0 = k
    · subst h0
      by_cases hp : p (k0, v0) = true
      · rw [List.filter_cons_of_pos hp]
        simp [lookupField, hp]
      · rw [List.filter_cons_of_neg hp]
        have hred : (match lookupField ((k0, v0) :: rest) k0 with
            | some v => if p (k0, v) = true then some v else none
            | none => none) = none := by
          simp [lookupField, hp]
        rw [hred, ih hn.2]
        have hnm : k0 ∉ fieldNames rest := by
          intro hm
          have hm2 : k0 ∈ List.map Prod.fst rest := hm
          have : (List.map Prod.fst rest).contains k0 = true := by simpa using hm2
          rw [hn.1] at this
          cases this
        rw [(lookup_none_iff_not_mem rest k0).mpr hnm]
    · by_cases hp : p (k0, v0) = true
      · rw [List.filter_cons_of_pos hp]
        simp only [lookupField, if_neg h0]
        exact ih hn.2
      · rw [List.filter_cons_of_neg hp]
        simp only [lookupField, if_neg h0]
        exact ih hn.2

mutual
theorem tidy_implies_wfKeys : ∀ (v : LVal), tidyB v = true → wfKeysB v = true
  | LVal.prim p, _ => rfl
  | LVal.node i arr fs, h => by
    rw [tidyB_node_iff] at h
    have h2 := tidyFields_implies_wfKeysFields fs h.2
    simp [wfKeysB, h.1, h2]

theorem tidyFields_implies_wfKeysFields : ∀ (fs : List (String × LVal)),
    tidyFields fs = true → wfKeysFields fs = true
  | [], _ => rfl
  | (k, v) :: rest, h => by
    simp only [tidyFields, Bool.and_eq_true] at h
    have h1 := tidy_implies_wfKeys v h.1.2
    have h2 := tidyFields_implies_wfKeysFields rest h.2
    simp [wfKeysFields, h1, h2]
end

theorem deepCopyFields_names : ∀ (c : Nat) (fs : List (String × LVal)),
    fieldNames (deepCopyFields c fs).1 = fieldNames fs := by
  intro c fs
  induction fs generalizing c with
  | nil => rfl
  | cons kv rest ih =>
    obtain ⟨k, v⟩ := kv
    match v with
    | LVal.node i arr fs2 =>
      have hstep : (deepCopyFields c ((k, LVal.node i arr fs2) :: rest)).1
          = (k, (deepCopy c (LVal.node i arr fs2)).1)
            :: ((deepCopyFields (deepCopy c (LVal.node i arr fs2)).2 rest).1) := rfl
      rw [hstep]
      simp only [fieldNames, List.map_cons]
      rw [show List.map Prod.fst ((deepCopyFields (deepCopy c (LVal.node i arr fs2)).2 rest).1)
          = fieldNames ((deepCopyFields (deepCopy c (LVal.node i arr fs2)).2 rest).1) from rfl]
      rw [ih]
      rfl
    | LVal.prim p =>
      have hstep : (deepCopyFields c ((k, LVal.prim p) :: rest)).1
          = (k, LVal.prim p) :: ((deepCopyFields c rest).1) := rfl
      rw [hstep]
      simp only [fieldNames, List.map_cons]
      rw [show List.map Prod.fst ((deepCopyFields c rest).1)
          = fieldNames ((deepCopyFields c rest).1) from rfl]
      rw [ih]
      rfl

mutual
theorem deepCopy_tidy : ∀ (c : Nat) (v : LVal), tidyB v = true →
    tidyB (deepCopy c v).1 = true
  | _, LVal.prim p, _ => rfl
  | c, LVal.node i arr fs, h => by
    rw [tidyB_node_iff] at h
    have hstep : (deepCopy c (LVal.node i arr fs)).1
        = LVal.node c arr ((deepCopyFields (c + 1) fs).1) := rfl
    rw [hstep, tidyB_node_iff]
    constructor
    · rw [deepCopyFields_names (c + 1) fs]
      exact h.1
    · exact deepCopyFields_tidy (c + 1) fs h.2

theorem deepCopyFields_tidy : ∀ (c : Nat) (fs : List (String × LVal)),
    tidyFields fs = true → tidyFields (deepCopyFields c fs).1 = true
  | _, [], _ => rfl
  | c, (k, v) :: rest, h => by
    simp only [tidyFields, Bool.and_eq_true] at h
    match v with
    | LVal.node i arr fs2 =>
      have hstep : (deepCopyFields c ((k, LVal.node i arr fs2) :: rest)).1
          = (k, (deepCopy c (LVal.node i arr fs2)).1)
            :: ((deepCopyFields (deepCopy c (LVal.node i arr fs2)).2 rest).1) := rfl
      rw [hstep]
      simp only [tidyFields, Bool.and_eq_true]
      exact ⟨⟨⟨h.1.1.1, h.1.1.2⟩, deepCopy_tidy c _ h.1.2⟩,
        deepCopyFields_tidy _ rest h.2⟩
    | LVal.prim p =>
      have hstep : (deepCopyFields c ((k, LVal.prim p) :: rest)).1
          = (k, LVal.prim p) :: ((deepCopyFields c rest).1) := rfl
      rw [hstep]
      simp only [tidyFields, Bool.and_eq_true]
      exact ⟨⟨⟨h.1.1.1, h.1.1.2⟩, rfl⟩,
        deepCopyFields_tidy c rest h.2⟩
end


theorem mem_fieldNames_setField {fs : List (String × LVal)} {k k2 : String} {v : LVal} :
    k2 ∈ fieldNames (setField fs k v) ↔ (k2 ∈ fieldNames fs ∨ k2 = k) := by
  by_cases hm : k ∈ fieldNames fs
  · rw [fieldNames_setField_mem v hm]
    constructor
    · exact Or.inl
    · intro h
      rcases h with h | h
      · exact h
      · rw [h]
        exact hm
  · rw [fieldNames_setField_not_mem v hm]
    simp [List.mem_append]

theorem nodup_setField {fs : List (String × LVal)} {k : String} {v : LVal}
    (h : nodupStrB (fieldNames fs) = true) :
    nodupStrB (fieldNames (setField fs k v)) = true := by
  by_cases hm : k ∈ fieldNames fs
  · rw [fieldNames_setField_mem v hm]
    exact h
  · rw [fieldNames_setField_not_mem v hm]
    rw [nodupStrB_iff] at h ⊢
    simp [List.nodup_append, h, hm]

theorem tidyFields_setField {fs : List (String × LVal)} {k : String} {v : LVal}
    (h : tidyFields fs = true) (h1 : protoKeys.contains k = false)
    (h2 : arrayOwnProto.contains k = false) (h3 : tidyB v = true) :
    tidyFields (setField fs k v) = true := by
  rw [tidyFields_iff] at h ⊢
  intro kv hm
  rcases mem_setField hm with h4 | h4
  · exact h kv h4
  · subst h4
    exact ⟨h1, h2, h3⟩

theorem alignedFields_congr : ∀ {cfs wfs1 wfs2 : List (String × LVal)},
    (∀ k, k ∈ fieldNames cfs → lookupField wfs2 k = lookupField wfs1 k) →
    alignedFields cfs wfs1 = alignedFields cfs wfs2 := by
  intro cfs
  induction cfs with
  | nil => intro wfs1 wfs2 _; rfl
  | cons kv rest ih =>
    intro wfs1 wfs2 h
    obtain ⟨k, cv⟩ := kv
    have hk : lookupField wfs2 k = lookupField wfs1 k := by
      apply h
      simp [fieldNames]
    have hrest : alignedFields rest wfs1 = alignedFields rest wfs2 := by
      apply ih
      intro k2 hm
      apply h
      simp only [fieldNames, List.map_cons, List.mem_cons]
      exact Or.inr hm
    match cv with
    | LVal.prim q =>
      simp only [alignedFields]
      rw [hrest]
    | LVal.node ci2 ca2 cf2 =>
      simp only [alignedFields]
      rw [hk, hrest]

theorem alignedB_node_iff {ci wi : Nat} {ca wa : Bool}
    {cfs wfs : List (String × LVal)} :
    alignedB (LVal.node ci ca cfs) (LVal.node wi wa wfs) = true ↔
    ca = wa ∧ alignedFields cfs wfs = true := by
  simp [alignedB, Bool.and_eq_true]

theorem names_protoFree {fs : List (String × LVal)} (h : tidyFields fs = true)
    {k : String} (hm : k ∈ fieldNames fs) :
    protoKeys.contains k = false ∧ arrayOwnProto.contains k = false := by
  simp only [fieldNames, List.mem_map] at hm
  obtain ⟨kv, hkv, rfl⟩ := hm
  obtain ⟨h1, h2, _⟩ := (tidyFields_iff fs).mp h kv hkv
  exact ⟨h1, h2⟩

theorem names_tidy_value {fs : List (String × LVal)} (h : tidyFields fs = true)
    {k : String} {v : LVal} (hm : (k, v) ∈ fs) : tidyB v = true :=
  ((tidyFields_iff fs).mp h (k, v) hm).2.2

theorem nodupStrB_cons {x : String} {l : List String} :
    nodupStrB (x :: l) = true ↔ (x ∉ l ∧ nodupStrB l = true) := by
  simp [nodupStrB]

theorem jsIn_true_of_own {i : Nat} {arr : Bool} {fs : List (String × LVal)} {k : String}
    (hm : k ∈ fieldNames fs) : jsIn (LVal.node i arr fs) k = true := by
  cases arr
  · simp [jsIn]
    exact Or.inl hm
  · simp [jsIn]
    exact Or.inl (Or.inl hm)

theorem jsIn_own_of_protoFree {i : Nat} {arr : Bool} {fs : List (String × LVal)} {k : String}
    (h1 : protoKeys.contains k = false) (h2 : arrayOwnProto.contains k = false)
    (hj : jsIn (LVal.node i arr fs) k = true) : k ∈ fieldNames fs := by
  cases arr
  · simp only [jsIn, Bool.or_eq_true] at hj
    rcases hj with h | h
    · simpa using h
    · rw [h1] at h
      cases h
  · simp only [jsIn, Bool.or_eq_true] at hj
    rcases hj with (h | h) | h
    · simpa using h
    · rw [h2] at h
      cases h
    · rw [h1] at h
      cases h

set_option maxHeartbeats 1600000 in
mutual
theorem resetNode_spec : ∀ (c ci : Nat) (carr : Bool) (cfs : List (String × LVal))
    (wi : Nat) (warr : Bool) (wfs : List (String × LVal)),
    tidyB (LVal.node ci carr cfs) = true →
    tidyB (LVal.node wi warr wfs) = true →
    alignedB (LVal.node ci carr cfs) (LVal.node wi warr wfs) = true →
    ∃ wfs3 c3, DataStore.resetNode c (LVal.node ci carr cfs) (LVal.node wi warr wfs)
        = some (LVal.node wi warr wfs3, c3) ∧
      deepEqVal (LVal.node wi warr wfs3) (LVal.node ci carr cfs) = true ∧
      tidyB (LVal.node wi warr wfs3) = true
  | c, ci, carr, cfs, wi, warr, wfs, hcm, hw, hal => by
    rw [tidyB_node_iff] at hcm
    rw [alignedB_node_iff] at hal
    obtain ⟨wfs2, c2, hrun, ha2, hb2, hc2, htidy2⟩ :=
      resetFields_spec c cfs wi warr wfs hcm.1 hcm.2 hw hal.2
    rw [tidyB_node_iff] at htidy2
    refine ⟨wfs2.filter (fun kv => jsIn (LVal.node ci carr cfs) kv.1), c2, ?_, ?_, ?_⟩
    · simp only [DataStore.resetNode, hrun]
    · rw [deepEq_node_iff]
      have hmem3 : ∀ k, k ∈ fieldNames (wfs2.filter
          (fun kv => jsIn (LVal.node ci carr cfs) kv.1)) ↔ k ∈ fieldNames cfs := by
        intro k
        constructor
        · intro hk
          simp only [fieldNames, List.mem_map] at hk
          obtain ⟨kv, hkv, rfl⟩ := hk
          have h5 := List.mem_filter.mp hkv
          have hmem2 : kv.1 ∈ fieldNames wfs2 := by
            simp only [fieldNames, List.mem_map]
            exact ⟨kv, h5.1, rfl⟩
          have hpf := names_protoFree htidy2.2 hmem2
          exact jsIn_own_of_protoFree hpf.1 hpf.2 h5.2
        · intro hk
          have hkv : ∃ cv, lookupField cfs k = some cv := by
            rcases hl : lookupField cfs k with _ | cv
            · exact absurd hk ((lookup_none_iff_not_mem cfs k).mp hl)
            · exact ⟨cv, rfl⟩
          obtain ⟨cv, hcv⟩ := hkv
          obtain ⟨v2, hlv2, _, _⟩ := hb2 k cv (lookup_mem cfs k cv hcv)
          have hfil := @lookupField_filter wfs2
            (fun kv => jsIn (LVal.node ci carr cfs) kv.1) htidy2.1 k
          have hfil2 : lookupField (wfs2.filter
              (fun kv => jsIn (LVal.node ci carr cfs) kv.1)) k = some v2 := by
            rw [hfil, hlv2]
            simp [jsIn_true_of_own hk]
          have hs : (lookupField (wfs2.filter
              (fun kv => jsIn (LVal.node ci carr cfs) kv.1)) k).isSome = true := by
            rw [hfil2]
            rfl
          exact (lookup_isSome_iff_mem _ k).mp hs
      refine ⟨hal.1.symm, ?_, ?_⟩
      · rw [sameKeySetB_iff]
        exact hmem3
      · apply deepEqFields_of_forall
        intro k v hm
        have h5 := List.mem_filter.mp hm
        have hkc : k ∈ fieldNames cfs := by
          apply (hmem3 k).mp
          simp only [fieldNames, List.mem_map]
          exact ⟨(k, v), hm, rfl⟩
        have hkv : ∃ cv, lookupField cfs k = some cv := by
          rcases hl : lookupField cfs k with _ | cv
          · exact absurd hkc ((lookup_none_iff_not_mem cfs k).mp hl)
          · exact ⟨cv, rfl⟩
        obtain ⟨cv, hcv⟩ := hkv
        obtain ⟨v2, hlv2, hdeq, _⟩ := hb2 k cv (lookup_mem cfs k cv hcv)
        have hlv : lookupField wfs2 k = some v := mem_lookup_of_nodup htidy2.1 h5.1
        rw [hlv] at hlv2
        cases hlv2
        exact ⟨cv, hcv, hdeq⟩
    · rw [tidyB_node_iff]
      constructor
      · rw [nodupStrB_iff]
        have hsub : List.Sublist (fieldNames (wfs2.filter
            (fun kv => jsIn (LVal.node ci carr cfs) kv.1))) (fieldNames wfs2) :=
          (List.filter_sublist wfs2).map Prod.fst
        exact ((nodupStrB_iff _).mp htidy2.1).sublist hsub
      · rw [tidyFields_iff]
        intro kv hm
        exact (tidyFields_iff wfs2).mp htidy2.2 kv (List.mem_of_mem_filter hm)
termination_by _ _ _ cfs _ _ _ => sizeOf cfs + 1
decreasing_by
  all_goals simp_wf

theorem resetFields_spec : ∀ (c : Nat) (cfs : List (String × LVal))
    (wi : Nat) (warr : Bool) (wfs : List (String × LVal)),
    nodupStrB (fieldNames cfs) = true →
    tidyFields cfs = true →
    tidyB (LVal.node wi warr wfs) = true →
    alignedFields cfs wfs = true →
    ∃ wfs2 c2, DataStore.resetFields c cfs (LVal.node wi warr wfs)
        = some (LVal.node wi warr wfs2, c2) ∧
      (∀ k, k ∉ fieldNames cfs → lookupField wfs2 k = lookupField wfs k) ∧
      (∀ k cv, (k, cv) ∈ cfs →
        ∃ v2, lookupField wfs2 k = some v2 ∧ deepEqVal v2 cv = true ∧ tidyB v2 = true) ∧
      (∀ k, k ∈ fieldNames wfs2 ↔ (k ∈ fieldNames wfs ∨ k ∈ fieldNames cfs)) ∧
      tidyB (LVal.node wi warr wfs2) = true
  | c, [], wi, warr, wfs, _, _, hw, _ => by
    refine ⟨wfs, c, rfl, fun k _ => rfl, fun k cv hm => absurd hm (List.not_mem_nil _), ?_, hw⟩
    intro k
    simp [fieldNames]
  | c, (k, LVal.prim q) :: rest, wi, warr, wfs, hcn, hcf, hw, hal => by
      have hkrest : k ∉ fieldNames rest ∧ nodupStrB (fieldNames rest) = true := by
        have : nodupStrB (k :: fieldNames rest) = true := hcn
        exact nodupStrB_cons.mp this
      have hcfparts := (tidyFields_iff ((k, LVal.prim q) :: rest)).mp hcf
      obtain ⟨hkproto, hkarr, hcvtidy⟩ := hcfparts (k, LVal.prim q) (List.mem_cons_self _ _)
      have hrestTidy : tidyFields rest = true := by
        rw [tidyFields_iff]
        intro kv hm
        exact hcfparts kv (List.mem_cons_of_mem _ hm)
      rw [tidyB_node_iff] at hw
      simp only [alignedFields, Bool.and_eq_true] at hal
      have hwp : DataStore.writeProp (LVal.node wi warr wfs) k (LVal.prim q)
          = some (LVal.node wi warr (setField wfs k (LVal.prim q))) := rfl
      have hw1 : tidyB (LVal.node wi warr (setField wfs k (LVal.prim q))) = true := by
        rw [tidyB_node_iff]
        exact ⟨nodup_setField hw.1, tidyFields_setField hw.2 hkproto hkarr rfl⟩
      have hal1 : alignedFields rest (setField wfs k (LVal.prim q)) = true := by
        rw [← alignedFields_congr (fun k2 hm =>
          lookup_setField_other wfs k k2 (LVal.prim q)
            (fun he => hkrest.1 (he ▸ hm)))]
        exact hal.2
      obtain ⟨wfs2, c2, hrun, ha2, hb2, hc2, htidy2⟩ :=
        resetFields_spec c rest wi warr (setField wfs k (LVal.prim q))
          hkrest.2 hrestTidy hw1 hal1
      refine ⟨wfs2, c2, ?_, ?_, ?_, ?_, htidy2⟩
      · simp only [DataStore.resetFields, hwp]
        exact hrun
      · intro k2 hk2
        simp only [fieldNames, List.map_cons, List.mem_cons] at hk2
        push_neg at hk2
        rw [ha2 k2 hk2.2]
        exact lookup_setField_other wfs k k2 (LVal.prim q) hk2.1
      · intro k2 cv2 hm
        rcases List.mem_cons.mp hm with h5 | h5
        · cases h5
          refine ⟨LVal.prim q, ?_, by simp [deepEqVal], rfl⟩
          rw [ha2 k hkrest.1]
          exact lookup_setField_self wfs k (LVal.prim q)
        · exact hb2 k2 cv2 h5
      · intro k2
        rw [hc2 k2, mem_fieldNames_setField]
        simp only [fieldNames, List.map_cons, List.mem_cons]
        constructor
        · intro h5
          rcases h5 with (h5 | h5) | h5
          · exact Or.inl h5
          · exact Or.inr (Or.inl h5)
          · exact Or.inr (Or.inr h5)
        · intro h5
          rcases h5 with h5 | h5 | h5
          · exact Or.inl (Or.inl h5)
          · exact Or.inl (Or.inr h5)
          · exact Or.inr h5
  | c, (k, LVal.node ci2 ca2 cf2) :: rest, wi, warr, wfs, hcn, hcf, hw, hal => by
      have hkrest : k ∉ fieldNames rest ∧ nodupStrB (fieldNames rest) = true := by
        have : nodupStrB (k :: fieldNames rest) = true := hcn
        exact nodupStrB_cons.mp this
      have hcfparts := (tidyFields_iff ((k, LVal.node ci2 ca2 cf2) :: rest)).mp hcf
      obtain ⟨hkproto, hkarr, hcvtidy⟩ := hcfparts (k, LVal.node ci2 ca2 cf2)
        (List.mem_cons_self _ _)
      have hrestTidy : tidyFields rest = true := by
        rw [tidyFields_iff]
        intro kv hm
        exact hcfparts kv (List.mem_cons_of_mem _ hm)
      rw [tidyB_node_iff] at hw
      simp only [alignedFields, Bool.and_eq_true] at hal
      rcases hlk : lookupField wfs k with _ | wv
      · -- the key is absent from the working node: deep-copy it in
        have hjs : jsGetRaw (LVal.node wi warr wfs) k = LVal.prim Prim.undef := by
          simp [jsGetRaw, hlk]
        have hcond : ¬ (typeOf (jsGetRaw (LVal.node wi warr wfs) k) ≠ "undefined") := by
          rw [hjs]
          simp [typeOf]
        have hkw : k ∉ fieldNames wfs := (lookup_none_iff_not_mem wfs k).mp hlk
        have hcopyEq := deepCopy_deepEq c (LVal.node ci2 ca2 cf2)
          (tidy_implies_wfKeys _ hcvtidy)
        have hcopyTidy := deepCopy_tidy c (LVal.node ci2 ca2 cf2) hcvtidy
        have hwp : DataStore.writeProp (LVal.node wi warr wfs) k
            (deepCopy c (LVal.node ci2 ca2 cf2)).1
            = some (LVal.node wi warr
              (setField wfs k (deepCopy c (LVal.node ci2 ca2 cf2)).1)) := rfl
        have hw1 : tidyB (LVal.node wi warr
            (setField wfs k (deepCopy c (LVal.node ci2 ca2 cf2)).1)) = true := by
          rw [tidyB_node_iff]
          exact ⟨nodup_setField hw.1,
            tidyFields_setField hw.2 hkproto hkarr hcopyTidy⟩
        have hal1 : alignedFields rest
            (setField wfs k (deepCopy c (LVal.node ci2 ca2 cf2)).1) = true := by
          rw [← alignedFields_congr (fun k2 hm =>
            lookup_setField_other wfs k k2 _
              (fun he => hkrest.1 (he ▸ hm)))]
          exact hal.2
        obtain ⟨wfs2, c2, hrun, ha2, hb2, hc2, htidy2⟩ :=
          resetFields_spec (deepCopy c (LVal.node ci2 ca2 cf2)).2 rest wi warr
            (setField wfs k (deepCopy c (LVal.node ci2 ca2 cf2)).1)
            hkrest.2 hrestTidy hw1 hal1
        refine ⟨wfs2, c2, ?_, ?_, ?_, ?_, htidy2⟩
        · simp only [DataStore.resetFields, if_neg hcond, hwp]
          exact hrun
        · intro k2 hk2
          simp only [fieldNames, List.map_cons, List.mem_cons] at hk2
          push_neg at hk2
          rw [ha2 k2 hk2.2]
          exact lookup_setField_other wfs k k2 _ hk2.1
        · intro k2 cv2 hm
          rcases List.mem_cons.mp hm with h5 | h5
          · cases h5
            refine ⟨(deepCopy c (LVal.node ci2 ca2 cf2)).1, ?_, hcopyEq, hcopyTidy⟩
            rw [ha2 k hkrest.1]
            exact lookup_setField_self wfs k _
          · exact hb2 k2 cv2 h5
        · intro k2
          rw [hc2 k2, mem_fieldNames_setField]
          simp only [fieldNames, List.map_cons, List.mem_cons]
          constructor
          · intro h5
            rcases h5 with (h5 | h5) | h5
            · exact Or.inl h5
            · exact Or.inr (Or.inl h5)
            · exact Or.inr (Or.inr h5)
          · intro h5
            rcases h5 with h5 | h5 | h5
            · exact Or.inl (Or.inl h5)
            · exact Or.inl (Or.inr h5)
            · exact Or.inr h5
      · -- the key is present: by alignment it is a composite, recurse
        rcases wv with q2 | ⟨wj, wa2, wfsj⟩
        · exfalso
          have halm := hal.1
          rw [hlk] at halm
          simp at halm
        · have halcv : alignedB (LVal.node ci2 ca2 cf2) (LVal.node wj wa2 wfsj) = true := by
            have halm := hal.1
            rw [hlk] at halm
            simpa using halm
          have hjs : jsGetRaw (LVal.node wi warr wfs) k = LVal.node wj wa2 wfsj := by
            simp [jsGetRaw, hlk]
          have hcond : typeOf (jsGetRaw (LVal.node wi warr wfs) k) ≠ "undefined" := by
            rw [hjs]
            simp [typeOf]
          have hwvtidy : tidyB (LVal.node wj wa2 wfsj) = true :=
            names_tidy_value hw.2 (lookup_mem wfs k _ hlk)
          obtain ⟨wfs3, c3, hrun1, hdeq1, htidy1⟩ :=
            resetNode_spec c ci2 ca2 cf2 wj wa2 wfsj hcvtidy hwvtidy halcv
          have hwp : DataStore.writeProp (LVal.node wi warr wfs) k
              (LVal.node wj wa2 wfs3)
              = some (LVal.node wi warr (setField wfs k (LVal.node wj wa2 wfs3))) := rfl
          have hw1 : tidyB (LVal.node wi warr
              (setField wfs k (LVal.node wj wa2 wfs3))) = true := by
            rw [tidyB_node_iff]
            exact ⟨nodup_setField hw.1,
              tidyFields_setField hw.2 hkproto hkarr htidy1⟩
          have hal1 : alignedFields rest
              (setField wfs k (LVal.node wj wa2 wfs3)) = true := by
            rw [← alignedFields_congr (fun k2 hm =>
              lookup_setField_other wfs k k2 _
                (fun he => hkrest.1 (he ▸ hm)))]
            exact hal.2
          obtain ⟨wfs2, c2, hrun, ha2, hb2, hc2, htidy2⟩ :=
            resetFields_spec c3 rest wi warr
              (setField wfs k (LVal.node wj wa2 wfs3))
              hkrest.2 hrestTidy hw1 hal1
          refine ⟨wfs2, c2, ?_, ?_, ?_, ?_, htidy2⟩
          · simp only [DataStore.resetFields, if_pos hcond, hjs, hrun1, hwp]
            exact hrun
          · intro k2 hk2
            simp only [fieldNames, List.map_cons, List.mem_cons] at hk2
            push_neg at hk2
            rw [ha2 k2 hk2.2]
            exact lookup_setField_other wfs k k2 _ hk2.1
          · intro k2 cv2 hm
            rcases List.mem_cons.mp hm with h5 | h5
            · cases h5
              refine ⟨LVal.node wj wa2 wfs3, ?_, hdeq1, htidy1⟩
              rw [ha2 k hkrest.1]
              exact lookup_setField_self wfs k _
            · exact hb2 k2 cv2 h5
          · intro k2
            rw [hc2 k2, mem_fieldNames_setField]
            simp only [fieldNames, List.map_cons, List.mem_cons]
            constructor
            · intro h5
              rcases h5 with (h5 | h5) | h5
              · exact Or.inl h5
              · exact Or.inr (Or.inl h5)
              · exact Or.inr (Or.inr h5)
            · intro h5
              rcases h5 with h5 | h5 | h5
              · exact Or.inl (Or.inl h5)
              · exact Or.inl (Or.inr h5)
              · exact Or.inr h5
termination_by _ cfs _ _ _ => sizeOf cfs
decreasing_by
  all_goals simp_wf
  all_goals omega
end

namespace DataStore

/-- C4 counterexample: the committed tree holds a composite at key a while
the staged working tree overwrote a with the primitive 5. The namespace
path [] resolves to composite nodes in both trees, yet reset() succeeds and
leaves the working value at a equal to 5: the fold only recurses where the
working value is composite too, so the working node does not become
deep-equal to the committed node. -/
theorem c4_counterexample :
    isNodeB exC4.data = true ∧
    exC4.activeData.map isNodeB = some true ∧
    (reset exC4 []).map (fun s1 => s1.activeData.map (fun a => deepEqVal a exC4.data))
      = some (some false) ∧
    (reset exC4 []).map (fun s1 => get s1 [] "a")
      = some (some (LVal.prim (Prim.num 5))) := by
  exact ⟨rfl, rfl, rfl, rfl⟩

/-- C4 amended: with a working tree present and the namespace path resolved
to composite nodes in both trees, reset() makes the working node deep-equal
to the committed node at and below the namespace and leaves every path
outside (neither an extension nor a prefix of) that namespace unchanged —
provided additionally the committed subtree is duplicate-free and avoids
prototype member names, the working subtree likewise, and the two are
aligned: wherever the committed side holds a composite, the working side is
absent or holds a composite of the same array/object kind. -/
theorem c4_amended (s : Store) (p : List String)
    (a : LVal) (ci wi : Nat) (carr warr : Bool) (cfs wfs : List (String × LVal))
    (ha : s.activeData = some a)
    (hc : resolveNs s.data p = some (LVal.node ci carr cfs))
    (hw : resolveNs a p = some (LVal.node wi warr wfs))
    (hct : tidyB (LVal.node ci carr cfs) = true)
    (hwt : tidyB (LVal.node wi warr wfs) = true)
    (hav : alignedB (LVal.node ci carr cfs) (LVal.node wi warr wfs) = true) :
    ∃ s1 a2 w3, reset s p = some s1 ∧ s1.data = s.data ∧ s1.activeData = some a2 ∧
      resolveNs a2 p = some w3 ∧ deepEqVal w3 (LVal.node ci carr cfs) = true ∧
      ∀ q, ¬ (p <+: q) → ¬ (q <+: p) → resolveNs a2 q = resolveNs a q := by
  obtain ⟨wfs3, c3, hrn, hdeq, _⟩ :=
    resetNode_spec s.nextId ci carr cfs wi warr wfs hct hwt hav
  obtain ⟨a2, hupd, hres⟩ :=
    resolve_updAt (fun _ => some (LVal.node wi warr wfs3)) hw rfl
  refine ⟨Store.mk s.data (some a2) c3, a2, LVal.node wi warr wfs3, ?_, rfl, rfl,
    hres, hdeq, ?_⟩
  · simp only [reset, ha, hc, hw, hrn, hupd]
  · intro q h1 h2
    exact updAt_frame hupd h1 h2

/-- C4 witness, instantiating the amended theorem on the concrete store
with a committed and a working composite under key x. -/
theorem c4_witness :
    ∃ s1 a2 w3, reset wExample ["x"] = some s1 ∧ s1.data = wExample.data ∧
      s1.activeData = some a2 ∧ resolveNs a2 ["x"] = some w3 ∧
      deepEqVal w3 (LVal.node 3 false []) = true ∧
      ∀ q, ¬ (["x"] <+: q) → ¬ (q <+: ["x"]) →
        resolveNs a2 q = resolveNs (LVal.node 0 false [("x", LVal.node 1 false [])]) q :=
  c4_amended wExample ["x"] (LVal.node 0 false [("x", LVal.node 1 false [])])
    3 1 false false [] [] rfl rfl rfl (by decide) (by decide) (by decide)

end DataStore

theorem wfKeysB_node_iff (i : Nat) (arr : Bool) (fs : List (String × LVal)) :
    wfKeysB (LVal.node i arr fs) = true ↔
    nodupStrB (fieldNames fs) = true ∧ wfKeysFields fs = true := by
  simp [wfKeysB, Bool.and_eq_true]

theorem wfKeysFields_cons {k : String} {v : LVal} {rest : List (String × LVal)} :
    wfKeysFields ((k, v) :: rest) = true ↔
    (wfKeysB v = true ∧ wfKeysFields rest = true) := by
  simp [wfKeysFields, Bool.and_eq_true]

theorem names_wfKeys_value {fs : List (String × LVal)} (h : wfKeysFields fs = true)
    {k : String} {v : LVal} (hm : (k, v) ∈ fs) : wfKeysB v = true := by
  induction fs with
  | nil => cases hm
  | cons kv rest ih =>
    obtain ⟨k0, v0⟩ := kv
    rw [wfKeysFields_cons] at h
    rcases List.mem_cons.mp hm with he | hm2
    · rw [Prod.mk.injEq] at he
      obtain ⟨_, h2⟩ := he
      subst h2
      exact h.1
    · exact ih h.2 hm2

mutual
theorem deepCopy_wfKeys : ∀ (c : Nat) (v : LVal), wfKeysB v = true →
    wfKeysB (deepCopy c v).1 = true
  | _, LVal.prim p, _ => rfl
  | c, LVal.node i arr fs, h => by
    rw [wfKeysB_node_iff] at h
    have hstep : (deepCopy c (LVal.node i arr fs)).1
        = LVal.node c arr ((deepCopyFields (c + 1) fs).1) := rfl
    rw [hstep, wfKeysB_node_iff]
    constructor
    · rw [deepCopyFields_names (c + 1) fs]
      exact h.1
    · exact deepCopyFields_wfKeys (c + 1) fs h.2

theorem deepCopyFields_wfKeys : ∀ (c : Nat) (fs : List (String × LVal)),
    wfKeysFields fs = true → wfKeysFields (deepCopyFields c fs).1 = true
  | _, [], _ => rfl
  | c, (k, v) :: rest, h => by
    rw [wfKeysFields_cons] at h
    match v with
    | LVal.node i arr fs2 =>
      have hstep : (deepCopyFields c ((k, LVal.node i arr fs2) :: rest)).1
          = (k, (deepCopy c (LVal.node i arr fs2)).1)
            :: ((deepCopyFields (deepCopy c (LVal.node i arr fs2)).2 rest).1) := rfl
      rw [hstep, wfKeysFields_cons]
      exact ⟨deepCopy_wfKeys c _ h.1, deepCopyFields_wfKeys _ rest h.2⟩
    | LVal.prim p =>
      have hstep : (deepCopyFields c ((k, LVal.prim p) :: rest)).1
          = (k, LVal.prim p) :: ((deepCopyFields c rest).1) := rfl
      rw [hstep, wfKeysFields_cons]
      exact ⟨rfl, deepCopyFields_wfKeys c rest h.2⟩
end

mutual
theorem resetNode_id : ∀ (x : Nat) (cm w : LVal),
    wfKeysB cm = true → wfKeysB w = true → deepEqVal w cm = true →
    DataStore.resetNode x cm w = some (w, x)
  | x, LVal.node ci carr cfs, LVal.node wi warr wfs, hcm, hw, hdeq => by
    rw [wfKeysB_node_iff] at hcm
    have hwparts := (wfKeysB_node_iff wi warr wfs).mp hw
    rw [deepEq_node_iff] at hdeq
    obtain ⟨_, hkeys, hflds⟩ := hdeq
    rw [sameKeySetB_iff] at hkeys
    have hfam : ∀ k cv, (k, cv) ∈ cfs → ∃ v, lookupField wfs k = some v ∧
        deepEqVal v cv = true ∧ wfKeysB v = true := by
      intro k cv hm
      have hkc : k ∈ fieldNames cfs := by
        simp only [fieldNames, List.mem_map]
        exact ⟨(k, cv), hm, rfl⟩
      have hkw : k ∈ fieldNames wfs := (hkeys k).mpr hkc
      have hks : (lookupField wfs k).isSome = true :=
        (lookup_isSome_iff_mem wfs k).mpr hkw
      rcases hlv : lookupField wfs k with _ | v
      · rw [hlv] at hks
        cases hks
      · obtain ⟨u, hlu, hdu⟩ := deepEqFields_lookup hflds (lookup_mem wfs k v hlv)
        have hcv2 : lookupField cfs k = some cv := mem_lookup_of_nodup hcm.1 hm
        rw [hcv2] at hlu
        cases hlu
        exact ⟨v, rfl, hdu, names_wfKeys_value hwparts.2 (lookup_mem wfs k v hlv)⟩
    have hrun := resetFields_id x cfs wi warr wfs hcm.2 hw hfam
    have hfil : wfs.filter (fun kv => jsIn (LVal.node ci carr cfs) kv.1) = wfs := by
      apply List.filter_eq_self.mpr
      intro kv hkv
      have hkw : kv.1 ∈ fieldNames wfs := by
        simp only [fieldNames, List.mem_map]
        exact ⟨kv, hkv, rfl⟩
      exact jsIn_true_of_own ((hkeys kv.1).mp hkw)
    simp only [DataStore.resetNode, hrun, hfil]
  | x, LVal.node _ _ _, LVal.prim q, _, _, hdeq => by
    simp [deepEqVal] at hdeq
  | x, LVal.prim p, LVal.prim q, _, _, _ => by
    simp [DataStore.resetNode, DataStore.hasOwnEnumerable]
  | x, LVal.prim p, LVal.node _ _ _, _, _, hdeq => by
    simp [deepEqVal] at hdeq
termination_by _ cm _ => sizeOf cm

theorem resetFields_id : ∀ (x : Nat) (cfs : List (String × LVal)) (wi : Nat)
    (warr : Bool) (wfs : List (String × LVal)),
    wfKeysFields cfs = true →
    wfKeysB (LVal.node wi warr wfs) = true →
    (∀ k cv, (k, cv) ∈ cfs → ∃ v, lookupField wfs k = some v ∧
      deepEqVal v cv = true ∧ wfKeysB v = true) →
    DataStore.resetFields x cfs (LVal.node wi warr wfs) = some (LVal.node wi warr wfs, x)
  | x, [], wi, warr, wfs, _, _, _ => rfl
  | x, (k, LVal.prim q) :: rest, wi, warr, wfs, hcf, hw, hfam => by
    obtain ⟨v, hlv, hdeq, _⟩ := hfam k (LVal.prim q) (List.mem_cons_self _ _)
    have hv : v = LVal.prim q := by
      rcases v with p | ⟨vi, va, vfs⟩
      · simp [deepEqVal] at hdeq
        rw [hdeq]
      · simp [deepEqVal] at hdeq
    subst hv
    have hwp : DataStore.writeProp (LVal.node wi warr wfs) k (LVal.prim q)
        = some (LVal.node wi warr (setField wfs k (LVal.prim q))) := rfl
    have hsf : setField wfs k (LVal.prim q) = wfs := setField_self wfs k (LVal.prim q) hlv
    have hrestTidy : wfKeysFields rest = true := (wfKeysFields_cons.mp hcf).2
    have hrest := resetFields_id x rest wi warr wfs hrestTidy hw
      (fun k2 cv2 hm => hfam k2 cv2 (List.mem_cons_of_mem _ hm))
    simp only [DataStore.resetFields, hwp, hsf]
    exact hrest
  | x, (k, LVal.node ci2 ca2 cf2) :: rest, wi, warr, wfs, hcf, hw, hfam => by
    obtain ⟨v, hlv, hdeq, hvt⟩ := hfam k (LVal.node ci2 ca2 cf2) (List.mem_cons_self _ _)
    rcases v with q2 | ⟨wj, wa2, wfsj⟩
    · simp [deepEqVal] at hdeq
    · have hjs : jsGetRaw (LVal.node wi warr wfs) k = LVal.node wj wa2 wfsj := by
        simp [jsGetRaw, hlv]
      have hcond : typeOf (jsGetRaw (LVal.node wi warr wfs) k) ≠ "undefined" := by
        rw [hjs]
        simp [typeOf]
      have hcvtidy : wfKeysB (LVal.node ci2 ca2 cf2) = true :=
        (wfKeysFields_cons.mp hcf).1
      have hrn := resetNode_id x (LVal.node ci2 ca2 cf2) (LVal.node wj wa2 wfsj)
        hcvtidy hvt hdeq
      have hwp : DataStore.writeProp (LVal.node wi warr wfs) k (LVal.node wj wa2 wfsj)
          = some (LVal.node wi warr (setField wfs k (LVal.node wj wa2 wfsj))) := rfl
      have hsf : setField wfs k (LVal.node wj wa2 wfsj) = wfs :=
        setField_self wfs k (LVal.node wj wa2 wfsj) hlv
      have hrestTidy : wfKeysFields rest = true := (wfKeysFields_cons.mp hcf).2
      have hrest := resetFields_id x rest wi warr wfs hrestTidy hw
        (fun k2 cv2 hm => hfam k2 cv2 (List.mem_cons_of_mem _ hm))
      simp only [DataStore.resetFields, if_pos hcond, hjs, hrn, hwp, hsf]
      exact hrest
termination_by _ cfs _ _ _ => sizeOf cfs
decreasing_by
  all_goals simp_wf
  all_goals omega
end


theorem noUndefB_prim {p : Prim} (h : noUndefB (LVal.prim p) = true) : p ≠ Prim.undef := by
  intro he
  subst he
  simp [noUndefB] at h

theorem typeOf_undef_iff {p : Prim} : typeOf (LVal.prim p) = "undefined" ↔ p = Prim.undef := by
  cases p <;> simp [typeOf]

theorem typeOf_object_iff {p : Prim} : typeOf (LVal.prim p) = "object" ↔ p = Prim.null := by
  cases p <;> simp [typeOf]

theorem anyStep {f : String × LVal → Bool} {P : String → Prop} {k : String} {cv : LVal}
    {rest : List (String × LVal)} {b : Bool}
    (hf : f (k, cv) = false) (hin : ¬ P k)
    (hiff : b = true ↔ (rest.any f = true ∨ ∃ k2 cv2, (k2, cv2) ∈ rest ∧ P k2)) :
    b = true ↔
      (((k, cv) :: rest).any f = true ∨ ∃ k2 cv2, (k2, cv2) ∈ (k, cv) :: rest ∧ P k2) := by
  rw [hiff]
  constructor
  · rintro (h | ⟨k2, cv2, hm, hn⟩)
    · refine Or.inl ?_
      simp only [List.any_cons, Bool.or_eq_true]
      exact Or.inr h
    · exact Or.inr ⟨k2, cv2, List.mem_cons_of_mem _ hm, hn⟩
  · rintro (h | ⟨k2, cv2, hm, hn⟩)
    · simp only [List.any_cons, Bool.or_eq_true] at h
      rcases h with h | h
      · rw [hf] at h
        cases h
      · exact Or.inl h
    · rcases List.mem_cons.mp hm with he | hm2
      · rw [Prod.mk.injEq] at he
        obtain ⟨h1, _⟩ := he
        subst h1
        exact absurd hn hin
      · exact Or.inr ⟨k2, cv2, hm2, hn⟩

/-- The per-key loop of changed() decides exactly the specification's
per-key difference disjunct, as long as the committed side stores no
undefined values: a run ending in some b has b true iff some committed key
carries a difference visible to the spec predicate or some committed key is
absent from the working node. -/
theorem changedFields_iff : ∀ (cfs : List (String × LVal)) (wi : Nat) (warr : Bool)
    (wfs : List (String × LVal)) (b : Bool),
    noUndefFields cfs = true →
    changedFields cfs (LVal.node wi warr wfs) = some b →
    (b = true ↔
      (cfs.any (fun kv =>
        match kv.2, lookupField wfs kv.1 with
        | LVal.node ci ca cf, some (LVal.node wi wa wf) =>
          changedAt (LVal.node ci ca cf) (LVal.node wi wa wf) == some true
        | LVal.node _ _ _, some (LVal.prim _) => true
        | LVal.node _ _ _, none => false
        | LVal.prim p, some (LVal.prim q) => decide (p ≠ q)
        | LVal.prim _, some (LVal.node _ _ _) => true
        | LVal.prim _, none => false) = true
       ∨ ∃ k2 cv2, (k2, cv2) ∈ cfs ∧ k2 ∉ fieldNames wfs)) := by
  intro cfs wi warr wfs
  induction cfs with
  | nil =>
    intro b _ hch
    have hb : (some false : Option Bool) = some b := hch
    cases hb
    simp
  | cons kv rest ih =>
    obtain ⟨k, cv⟩ := kv
    intro b hnu hch
    simp only [noUndefFields, Bool.and_eq_true] at hnu
    rcases hlk : lookupField wfs k with _ | v
    · -- committed key absent from the working node
      have hu : jsGetRaw (LVal.node wi warr wfs) k = LVal.prim Prim.undef := by
        simp [jsGetRaw, hlk]
      have hknot : k ∉ fieldNames wfs := (lookup_none_iff_not_mem wfs k).mp hlk
      have htp : typeOf cv ≠ typeOf (LVal.prim Prim.undef) := by
        rcases cv with p | ⟨ci2, ca2, cf2⟩
        · intro h
          exact noUndefB_prim hnu.1 (typeOf_undef_iff.mp h)
        · intro h
          simp [typeOf] at h
      simp only [changedFields, hu] at hch
      rw [if_pos htp] at hch
      cases hch
      exact iff_of_true rfl (Or.inr ⟨k, cv, List.mem_cons_self _ _, hknot⟩)
    · have hu : jsGetRaw (LVal.node wi warr wfs) k = v := by
        simp [jsGetRaw, hlk]
      have hkin : k ∈ fieldNames wfs := by
        have hks : (lookupField wfs k).isSome = true := by
          rw [hlk]
          rfl
        exact (lookup_isSome_iff_mem wfs k).mp hks
      simp only [changedFields, hu] at hch
      rcases cv with p | ⟨ci2, ca2, cf2⟩
      · -- committed primitive p
        rcases v with q | ⟨nj, na, nf⟩
        · -- working primitive q
          by_cases htp : typeOf (LVal.prim p) = typeOf (LVal.prim q)
          · rw [if_neg (not_not_intro htp)] at hch
            rw [if_neg (by simp [isNodeB] : ¬ (isNodeB (LVal.prim p) = true))] at hch
            by_cases hpq : p = q
            · subst hpq
              rw [if_neg (not_not_intro (by simp [strictEq] : strictEq (LVal.prim p) (LVal.prim p) = true))] at hch
              have hf : (fun kv => match kv.2, lookupField wfs kv.1 with
                  | LVal.node ci ca cf, some (LVal.node wi wa wf) =>
                    changedAt (LVal.node ci ca cf) (LVal.node wi wa wf) == some true
                  | LVal.node _ _ _, some (LVal.prim _) => true
                  | LVal.node _ _ _, none => false
                  | LVal.prim p, some (LVal.prim q) => decide (p ≠ q)
                  | LVal.prim _, some (LVal.node _ _ _) => true
                  | LVal.prim _, none => false) (k, LVal.prim p) = false := by
                simp [hlk]
              exact anyStep hf (not_not_intro hkin) (ih b hnu.2 hch)
            · rw [if_pos (by simp [strictEq, hpq] : ¬ (strictEq (LVal.prim p) (LVal.prim q) = true))] at hch
              cases hch
              apply iff_of_true rfl
              refine Or.inl ?_
              simp [List.any_cons, hlk, hpq]
          · rw [if_pos htp] at hch
            cases hch
            apply iff_of_true rfl
            refine Or.inl ?_
            have hpq : p ≠ q := by
              intro he
              subst he
              exact htp rfl
            simp [List.any_cons, hlk, hpq]
        · -- working composite under a committed primitive
          by_cases hpn : p = Prim.null
          · subst hpn
            rw [if_neg (not_not_intro (by simp [typeOf] : typeOf (LVal.prim Prim.null) = typeOf (LVal.node nj na nf)))] at hch
            rw [if_neg (by simp [isNodeB] : ¬ (isNodeB (LVal.prim Prim.null) = true))] at hch
            rw [if_pos (by simp [strictEq] : ¬ (strictEq (LVal.prim Prim.null) (LVal.node nj na nf) = true))] at hch
            cases hch
            apply iff_of_true rfl
            refine Or.inl ?_
            simp [List.any_cons, hlk]
          · rw [if_pos (by
              intro h
              exact hpn (typeOf_object_iff.mp h) : typeOf (LVal.prim p) ≠ typeOf (LVal.node nj na nf))] at hch
            cases hch
            apply iff_of_true rfl
            refine Or.inl ?_
            simp [List.any_cons, hlk]
      · -- committed composite
        rcases v with q | ⟨nj, na, nf⟩
        · -- working primitive under a committed composite
          by_cases hqn : q = Prim.null
          · subst hqn
            rw [if_neg (not_not_intro (by simp [typeOf] : typeOf (LVal.node ci2 ca2 cf2) = typeOf (LVal.prim Prim.null)))] at hch
            rw [if_pos (show isNodeB (LVal.node ci2 ca2 cf2) = true from rfl)] at hch
            have hca : changedAt (LVal.node ci2 ca2 cf2) (LVal.prim Prim.null) = none := by
              simp [changedAt, jsOwnKeys]
            rw [hca] at hch
            have hch2 : (none : Option Bool) = some b := hch
            cases hch2
          · rw [if_pos (by
              intro h
              exact hqn (typeOf_object_iff.mp h.symm) : typeOf (LVal.node ci2 ca2 cf2) ≠ typeOf (LVal.prim q))] at hch
            cases hch
            apply iff_of_true rfl
            refine Or.inl ?_
            simp [List.any_cons, hlk]
        · -- composite on both sides: the nested changed() decides
          rw [if_neg (not_not_intro (by simp [typeOf] : typeOf (LVal.node ci2 ca2 cf2) = typeOf (LVal.node nj na nf)))] at hch
          rw [if_pos (show isNodeB (LVal.node ci2 ca2 cf2) = true from rfl)] at hch
          rcases hca : changedAt (LVal.node ci2 ca2 cf2) (LVal.node nj na nf) with _ | bb
          · rw [hca] at hch
            have hch2 : (none : Option Bool) = some b := hch
            cases hch2
          · rcases bb with _ | _
            · rw [hca] at hch
              have hch2 : changedFields rest (LVal.node wi warr wfs) = some b := hch
              have hf : (fun kv => match kv.2, lookupField wfs kv.1 with
                  | LVal.node ci ca cf, some (LVal.node wi wa wf) =>
                    changedAt (LVal.node ci ca cf) (LVal.node wi wa wf) == some true
                  | LVal.node _ _ _, some (LVal.prim _) => true
                  | LVal.node _ _ _, none => false
                  | LVal.prim p, some (LVal.prim q) => decide (p ≠ q)
                  | LVal.prim _, some (LVal.node _ _ _) => true
                  | LVal.prim _, none => false) (k, LVal.node ci2 ca2 cf2) = false := by
                simp only [hlk, hca]
                rfl
              exact anyStep hf (not_not_intro hkin) (ih b hnu.2 hch2)
            · rw [hca] at hch
              have hch2 : (some true : Option Bool) = some b := hch
              cases hch2
              apply iff_of_true rfl
              refine Or.inl ?_
              simp [List.any_cons, hlk, hca]

theorem nodup_sameKeySet_length {l1 l2 : List String} (h1 : l1.Nodup) (h2 : l2.Nodup)
    (hs : ∀ x, x ∈ l1 ↔ x ∈ l2) : l1.length = l2.length := by
  have hfs : l1.toFinset = l2.toFinset := by
    ext x
    simp only [List.mem_toFinset]
    exact hs x
  calc l1.length = l1.toFinset.card := (List.toFinset_card_of_nodup h1).symm
    _ = l2.toFinset.card := by rw [hfs]
    _ = l2.length := List.toFinset_card_of_nodup h2

theorem nodup_subset_length_eq {l1 l2 : List String} (h1 : l1.Nodup) (h2 : l2.Nodup)
    (hsub : ∀ x, x ∈ l1 → x ∈ l2) (hlen : l1.length = l2.length) :
    ∀ x, x ∈ l1 ↔ x ∈ l2 := by
  have hfs : l1.toFinset ⊆ l2.toFinset := by
    intro x hx
    simp only [List.mem_toFinset] at hx ⊢
    exact hsub x hx
  have hcard : l2.toFinset.card ≤ l1.toFinset.card := by
    rw [List.toFinset_card_of_nodup h1, List.toFinset_card_of_nodup h2]
    omega
  have heq : l1.toFinset = l2.toFinset := Finset.eq_of_subset_of_card_le hfs hcard
  intro x
  constructor
  · exact hsub x
  · intro hx
    have hx2 : x ∈ l2.toFinset := by simpa using hx
    rw [← heq] at hx2
    simpa using hx2

/-- changed() at a resolved pair of composite pointers decides exactly the
specification's difference predicate, given duplicate-free key lists on
both sides and no undefined committed values: the count comparison stands
in exactly for the key-set comparison, and the per-key loop for the
remaining disjuncts. -/
theorem changedAt_iff (ci wi : Nat) (carr warr : Bool)
    (cfs wfs : List (String × LVal)) (b : Bool)
    (hcn : nodupStrB (fieldNames cfs) = true)
    (hwn : nodupStrB (fieldNames wfs) = true)
    (hnu : noUndefFields cfs = true)
    (hch : changedAt (LVal.node ci carr cfs) (LVal.node wi warr wfs) = some b) :
    (b = true ↔ specDiffB (LVal.node ci carr cfs) (LVal.node wi warr wfs) = true) := by
  rw [nodupStrB_iff] at hcn hwn
  simp only [changedAt, jsOwnKeys] at hch
  by_cases hlen : (fieldNames cfs).length = (fieldNames wfs).length
  · rw [if_neg (not_not_intro hlen)] at hch
    rw [changedFields_iff cfs wi warr wfs b hnu hch]
    simp only [specDiffB, Bool.or_eq_true]
    constructor
    · rintro (h | ⟨k2, cv2, hm, hn⟩)
      · exact Or.inr h
      · left
        have hk2 : k2 ∈ fieldNames cfs := by
          simp only [fieldNames, List.mem_map]
          exact ⟨(k2, cv2), hm, rfl⟩
        have hfalse : sameKeySetB (fieldNames cfs) (fieldNames wfs) = false := by
          rcases hsk : sameKeySetB (fieldNames cfs) (fieldNames wfs) with _ | _
          · rfl
          · exact absurd (((sameKeySetB_iff _ _).mp hsk k2).mp hk2) hn
        rw [hfalse]
        rfl
    · rintro (h | h)
      · right
        by_contra hno
        push_neg at hno
        have hsub : ∀ x, x ∈ fieldNames cfs → x ∈ fieldNames wfs := by
          intro x hx
          simp only [fieldNames, List.mem_map] at hx
          obtain ⟨kv, hkv, rfl⟩ := hx
          exact hno kv.1 kv.2 hkv
        have hiff2 := nodup_subset_length_eq hcn hwn hsub hlen
        have htrue : sameKeySetB (fieldNames cfs) (fieldNames wfs) = true :=
          (sameKeySetB_iff _ _).mpr hiff2
        rw [htrue] at h
        simp at h
      · exact Or.inl h
  · rw [if_pos hlen] at hch
    cases hch
    apply iff_of_true rfl
    simp only [specDiffB, Bool.or_eq_true]
    left
    have hfalse : sameKeySetB (fieldNames cfs) (fieldNames wfs) = false := by
      rcases hsk : sameKeySetB (fieldNames cfs) (fieldNames wfs) with _ | _
      · rfl
      · exact absurd (nodup_sameKeySet_length hcn hwn ((sameKeySetB_iff _ _).mp hsk)) hlen
    rw [hfalse]
    rfl

namespace DataStore

/-- C1 counterexample: committed tree {a: undefined}, working tree staged
to {b: undefined}. The key sets differ (a working-only key b exists), so
the specification's difference predicate holds, yet changed() returns
false: the key-count comparison sees 1 = 1 and the per-key loop compares
committed a (undefined) against the missing working a (also undefined) —
a working-only key is NOT detected by the count check when it replaces a
committed key. -/
theorem c1_counterexample :
    changed exC1 [] = some false ∧
    keys exC1 [] = some ["b"] ∧
    jsOwnKeys exC1.data = some ["a"] ∧
    exC1.activeData.map (fun a => specDiffB exC1.data a) = some true := by
  exact ⟨rfl, rfl, rfl, rfl⟩

/-- C1 amended: with a working tree present, a namespace path resolving to
composite nodes in both trees with duplicate-free, prototype-name-free key
lists, and no undefined value stored among the committed fields, a
completing changed() returns true exactly when the working node differs
from the committed node in key-set, or in some leaf value, or some key
composite on both sides has a nested changed() returning true. Keys
present only in the working node are detected through the key-count
comparison ONLY in combination with the per-key typeof probe of every
committed key; with undefined committed values the count check alone
misses key-set differences. -/
theorem c1_amended (s : Store) (p : List String) (a : LVal) (b : Bool)
    (ci wi : Nat) (carr warr : Bool) (cfs wfs : List (String × LVal))
    (ha : s.activeData = some a)
    (hc : resolveNs s.data p = some (LVal.node ci carr cfs))
    (hw : resolveNs a p = some (LVal.node wi warr wfs))
    (hct : tidyB (LVal.node ci carr cfs) = true)
    (hwt : tidyB (LVal.node wi warr wfs) = true)
    (hnu : noUndefB (LVal.node ci carr cfs) = true)
    (hch : changed s p = some b) :
    b = true ↔ specDiffB (LVal.node ci carr cfs) (LVal.node wi warr wfs) = true := by
  simp only [changed, ha, hc, hw] at hch
  exact changedAt_iff ci wi carr warr cfs wfs b
    ((tidyB_node_iff ci carr cfs).mp hct).1
    ((tidyB_node_iff wi warr wfs).mp hwt).1 hnu hch

/-- C1 witness, instantiating the amended equivalence on the concrete store
with composite pointers under key x and a changed() run returning false. -/
theorem c1_witness :
    (false = true ↔ specDiffB (LVal.node 3 false []) (LVal.node 1 false []) = true) :=
  c1_amended wExample ["x"] (LVal.node 0 false [("x", LVal.node 1 false [])]) false
    3 1 false false [] [] rfl rfl rfl (by decide) (by decide) (by decide) (by rfl)

end DataStore

theorem lookupField_filter_keyed : ∀ (fs : List (String × LVal)) (q : String → Bool)
    (k : String),
    lookupField (fs.filter (fun kv => q kv.1)) k =
      (if q k = true then lookupField fs k else none) := by
  intro fs q k
  induction fs with
  | nil =>
    by_cases hq : q k = true <;> simp [lookupField, hq]
  | cons kv rest ih =>
    obtain ⟨k0, v0⟩ := kv
    by_cases hk0 : q k0 = true
    · by_cases hk : k0 = k
      · subst hk
        simp [List.filter_cons, hk0, lookupField]
      · simp [List.filter_cons, hk0, lookupField, hk, ih]
    · by_cases hk : k0 = k
      · subst hk
        simp [List.filter_cons, hk0, lookupField, ih]
      · simp [List.filter_cons, hk0, lookupField, hk, ih]

theorem resetFields_prim_base {c : Nat} {cfs : List (String × LVal)} {q : Prim}
    {r : LVal × Nat}
    (h : DataStore.resetFields c cfs (LVal.prim q) = some r) :
    cfs = [] ∧ r = (LVal.prim q, c) := by
  cases cfs with
  | nil =>
    have h2 : (some (LVal.prim q, c) : Option (LVal × Nat)) = some r := h
    cases h2
    exact ⟨rfl, rfl⟩
  | cons kv rest =>
    obtain ⟨k, cv⟩ := kv
    exfalso
    rcases cv with q2 | ⟨ci2, ca2, cf2⟩
    · simp only [DataStore.resetFields] at h
      rw [(show DataStore.writeProp (LVal.prim q) k (LVal.prim q2) = none from rfl)] at h
      have h2 : (none : Option (LVal × Nat)) = some r := h
      cases h2
    · simp only [DataStore.resetFields] at h
      have hcond : ¬ (typeOf (jsGetRaw (LVal.prim q) k) ≠ "undefined") := by
        simp [jsGetRaw, typeOf]
      rw [if_neg hcond] at h
      rw [(show DataStore.writeProp (LVal.prim q) k
        (deepCopy c (LVal.node ci2 ca2 cf2)).1 = none from rfl)] at h
      have h2 : (none : Option (LVal × Nat)) = some r := h
      cases h2

theorem resetNode_prim_base {c ci : Nat} {arr : Bool} {cfs : List (String × LVal)}
    {q : Prim} {r : LVal × Nat}
    (h : DataStore.resetNode c (LVal.node ci arr cfs) (LVal.prim q) = some r) :
    cfs = [] ∧ r = (LVal.prim q, c) := by
  simp only [DataStore.resetNode] at h
  rcases hrf : DataStore.resetFields c cfs (LVal.prim q) with _ | r0
  · rw [hrf] at h
    have h2 : (none : Option (LVal × Nat)) = some r := h
    cases h2
  · obtain ⟨hnil, hr0⟩ := resetFields_prim_base hrf
    subst hnil
    subst hr0
    rw [hrf] at h
    have h2 : (some (LVal.prim q, c) : Option (LVal × Nat)) = some r := h
    cases h2
    exact ⟨rfl, rfl⟩

theorem resetFields_node_shape : ∀ (cfs : List (String × LVal)) (c wi : Nat)
    (warr : Bool) (wfs : List (String × LVal)) (w' : LVal) (c' : Nat),
    DataStore.resetFields c cfs (LVal.node wi warr wfs) = some (w', c') →
    ∃ z, w' = LVal.node wi warr z := by
  intro cfs
  induction cfs with
  | nil =>
    intro c wi warr wfs w' c' h
    have h2 : (some (LVal.node wi warr wfs, c) : Option (LVal × Nat)) = some (w', c') := h
    cases h2
    exact ⟨wfs, rfl⟩
  | cons kv rest ih =>
    obtain ⟨k, cv⟩ := kv
    intro c wi warr wfs w' c' h
    rcases cv with q | ⟨ci2, ca2, cf2⟩
    · simp only [DataStore.resetFields, DataStore.writeProp] at h
      exact ih c wi warr _ w' c' h
    · simp only [DataStore.resetFields] at h
      by_cases hcond : typeOf (jsGetRaw (LVal.node wi warr wfs) k) ≠ "undefined"
      · rw [if_pos hcond] at h
        rcases hrn : DataStore.resetNode c (LVal.node ci2 ca2 cf2)
            (jsGetRaw (LVal.node wi warr wfs) k) with _ | r
        · rw [hrn] at h
          have h2 : (none : Option (LVal × Nat)) = some (w', c') := h
          cases h2
        · rw [hrn] at h
          have h2 : DataStore.resetFields r.2 rest
              (LVal.node wi warr (setField wfs k r.1)) = some (w', c') := h
          exact ih r.2 wi warr _ w' c' h2
      · rw [if_neg hcond] at h
        have h2 : DataStore.resetFields (deepCopy c (LVal.node ci2 ca2 cf2)).2 rest
            (LVal.node wi warr (setField wfs k (deepCopy c (LVal.node ci2 ca2 cf2)).1))
            = some (w', c') := h
        exact ih _ wi warr _ w' c' h2

theorem resetNode_node_shape {c ci : Nat} {carr : Bool} {cfs : List (String × LVal)}
    {wi : Nat} {warr : Bool} {wfs : List (String × LVal)} {w1 : LVal} {c1 : Nat}
    (h : DataStore.resetNode c (LVal.node ci carr cfs) (LVal.node wi warr wfs)
      = some (w1, c1)) :
    ∃ z, w1 = LVal.node wi warr z := by
  simp only [DataStore.resetNode] at h
  rcases hrf : DataStore.resetFields c cfs (LVal.node wi warr wfs) with _ | r0
  · rw [hrf] at h
    have h2 : (none : Option (LVal × Nat)) = some (w1, c1) := h
    cases h2
  · obtain ⟨w0, c0⟩ := r0
    obtain ⟨z0, hz0⟩ := resetFields_node_shape cfs c wi warr wfs w0 c0 hrf
    subst hz0
    rw [hrf] at h
    have h2 : (some (LVal.node wi warr
        (z0.filter (fun kv => jsIn (LVal.node ci carr cfs) kv.1)), c0)
        : Option (LVal × Nat)) = some (w1, c1) := h
    cases h2
    exact ⟨_, rfl⟩

/-- Re-running the committed-key loop on a working node where every
committed key already holds its post-reset value rewrites every key in
place and changes nothing, allocating nothing. -/
theorem resetFields_refix : ∀ (x : Nat) (cfs : List (String × LVal)) (wi : Nat)
    (warr : Bool) (gws : List (String × LVal)),
    (∀ k cv, (k, cv) ∈ cfs →
      (∀ q, cv = LVal.prim q → lookupField gws k = some (LVal.prim q)) ∧
      (∀ ci2 ca2 cf2, cv = LVal.node ci2 ca2 cf2 → ∃ v2,
        lookupField gws k = some v2 ∧ typeOf v2 ≠ "undefined" ∧
        ∀ y, DataStore.resetNode y (LVal.node ci2 ca2 cf2) v2 = some (v2, y))) →
    DataStore.resetFields x cfs (LVal.node wi warr gws)
      = some (LVal.node wi warr gws, x) := by
  intro x cfs
  induction cfs with
  | nil =>
    intro wi warr gws _
    rfl
  | cons kv rest ih =>
    obtain ⟨k, cv⟩ := kv
    intro wi warr gws hfacts
    rcases cv with q | ⟨ci2, ca2, cf2⟩
    · have hlq := (hfacts k (LVal.prim q) (List.mem_cons_self _ _)).1 q rfl
      have hsf : setField gws k (LVal.prim q) = gws := setField_self gws k _ hlq
      simp only [DataStore.resetFields, DataStore.writeProp, hsf]
      exact ih wi warr gws (fun k2 cv2 hm => hfacts k2 cv2 (List.mem_cons_of_mem _ hm))
    · obtain ⟨v2, hlv, htv, hfix⟩ :=
        (hfacts k (LVal.node ci2 ca2 cf2) (List.mem_cons_self _ _)).2 ci2 ca2 cf2 rfl
      have hu : jsGetRaw (LVal.node wi warr gws) k = v2 := by
        simp [jsGetRaw, hlv]
      have hsf : setField gws k v2 = gws := setField_self gws k v2 hlv
      simp only [DataStore.resetFields, hu, if_pos htv, hfix x,
        DataStore.writeProp, hsf]
      exact ih wi warr gws (fun k2 cv2 hm => hfacts k2 cv2 (List.mem_cons_of_mem _ hm))

set_option maxHeartbeats 1600000 in
mutual
/-- The reset() fold is a fixpoint on its own output, with no alignment or
tidiness assumption on the working side: whenever a run at a committed
composite with duplicate-free keys succeeds, re-running it on the produced
working value reproduces that value exactly and allocates nothing. -/
theorem resetNode_fix : ∀ (c ci : Nat) (carr : Bool) (cfs : List (String × LVal))
    (w w1 : LVal) (c1 : Nat),
    wfKeysB (LVal.node ci carr cfs) = true →
    DataStore.resetNode c (LVal.node ci carr cfs) w = some (w1, c1) →
    ∀ x, DataStore.resetNode x (LVal.node ci carr cfs) w1 = some (w1, x)
  | c, ci, carr, cfs, w, w1, c1, hwf, hrn => by
    intro x
    rcases w with q | ⟨wi, warr, wfs⟩
    · obtain ⟨hnil, hpair⟩ := resetNode_prim_base hrn
      subst hnil
      rw [Prod.mk.injEq] at hpair
      rw [hpair.1]
      rfl
    · rw [wfKeysB_node_iff] at hwf
      simp only [DataStore.resetNode] at hrn
      rcases hrf : DataStore.resetFields c cfs (LVal.node wi warr wfs) with _ | r0
      · rw [hrf] at hrn
        have h2 : (none : Option (LVal × Nat)) = some (w1, c1) := hrn
        cases h2
      · obtain ⟨w0, c0⟩ := r0
        obtain ⟨wfs2, hz, hout, hfacts⟩ :=
          resetFields_fix c cfs wi warr wfs w0 c0 hwf.1 hwf.2 hrf
        subst hz
        rw [hrf] at hrn
        have h2 : (some (LVal.node wi warr
            (wfs2.filter (fun kv => jsIn (LVal.node ci carr cfs) kv.1)), c0)
            : Option (LVal × Nat)) = some (w1, c1) := hrn
        cases h2
        have htr : ∀ k, k ∈ fieldNames cfs →
            lookupField (wfs2.filter (fun kv => jsIn (LVal.node ci carr cfs) kv.1)) k
              = lookupField wfs2 k := by
          intro k hk
          have hkf := lookupField_filter_keyed wfs2
            (fun k2 => jsIn (LVal.node ci carr cfs) k2) k
          rw [if_pos (jsIn_true_of_own hk)] at hkf
          exact hkf
        have hrefix : ∀ k cv, (k, cv) ∈ cfs →
            (∀ q, cv = LVal.prim q →
              lookupField (wfs2.filter (fun kv => jsIn (LVal.node ci carr cfs) kv.1)) k
                = some (LVal.prim q)) ∧
            (∀ ci2 ca2 cf2, cv = LVal.node ci2 ca2 cf2 → ∃ v2,
              lookupField (wfs2.filter (fun kv => jsIn (LVal.node ci carr cfs) kv.1)) k
                = some v2 ∧ typeOf v2 ≠ "undefined" ∧
              ∀ y, DataStore.resetNode y (LVal.node ci2 ca2 cf2) v2 = some (v2, y)) := by
          intro k cv hm
          have hk : k ∈ fieldNames cfs := by
            simp only [fieldNames, List.mem_map]
            exact ⟨(k, cv), hm, rfl⟩
          have ht := htr k hk
          obtain ⟨h1, h2⟩ := hfacts k cv hm
          constructor
          · intro q hq
            rw [ht]
            exact h1 q hq
          · intro ci2 ca2 cf2 he
            obtain ⟨v2, hlv, htv, hfix⟩ := h2 ci2 ca2 cf2 he
            exact ⟨v2, by rw [ht]; exact hlv, htv, hfix⟩
        have hsecond := resetFields_refix x cfs wi warr
          (wfs2.filter (fun kv => jsIn (LVal.node ci carr cfs) kv.1)) hrefix
        have hff : (wfs2.filter (fun kv => jsIn (LVal.node ci carr cfs) kv.1)).filter
            (fun kv => jsIn (LVal.node ci carr cfs) kv.1)
            = wfs2.filter (fun kv => jsIn (LVal.node ci carr cfs) kv.1) :=
          List.filter_eq_self.mpr (fun kv hkv => (List.mem_filter.mp hkv).2)
        simp only [DataStore.resetNode, hsecond, hff]
termination_by _ _ _ cfs _ _ _ => sizeOf cfs + 1
decreasing_by
  all_goals simp_wf

/-- One run of the committed-key loop characterized key by key: every
committed key ends up present, bearing the committed primitive or a
composite value on which the nested fold is a fixpoint; other keys are
untouched. -/
theorem resetFields_fix : ∀ (c : Nat) (cfs : List (String × LVal)) (wi : Nat)
    (warr : Bool) (wfs : List (String × LVal)) (w' : LVal) (c' : Nat),
    nodupStrB (fieldNames cfs) = true →
    wfKeysFields cfs = true →
    DataStore.resetFields c cfs (LVal.node wi warr wfs) = some (w', c') →
    ∃ wfs2, w' = LVal.node wi warr wfs2 ∧
      (∀ k, k ∉ fieldNames cfs → lookupField wfs2 k = lookupField wfs k) ∧
      (∀ k cv, (k, cv) ∈ cfs →
        (∀ q, cv = LVal.prim q → lookupField wfs2 k = some (LVal.prim q)) ∧
        (∀ ci2 ca2 cf2, cv = LVal.node ci2 ca2 cf2 → ∃ v2,
          lookupField wfs2 k = some v2 ∧ typeOf v2 ≠ "undefined" ∧
          ∀ y, DataStore.resetNode y (LVal.node ci2 ca2 cf2) v2 = some (v2, y)))
  | c, [], wi, warr, wfs, w', c', _, _, h => by
    have h2 : (some (LVal.node wi warr wfs, c) : Option (LVal × Nat)) = some (w', c') := h
    cases h2
    exact ⟨wfs, rfl, fun k _ => rfl, fun k cv hm => absurd hm (List.not_mem_nil _)⟩
  | c, (k, LVal.prim q) :: rest, wi, warr, wfs, w', c', hcn, hcf, h => by
    have hkrest : k ∉ fieldNames rest ∧ nodupStrB (fieldNames rest) = true := by
      have hcn2 : nodupStrB (k :: fieldNames rest) = true := hcn
      exact nodupStrB_cons.mp hcn2
    have hrestwf : wfKeysFields rest = true := (wfKeysFields_cons.mp hcf).2
    simp only [DataStore.resetFields, DataStore.writeProp] at h
    obtain ⟨wfs2, hshape, hout, hfacts⟩ :=
      resetFields_fix c rest wi warr (setField wfs k (LVal.prim q)) w' c'
        hkrest.2 hrestwf h
    refine ⟨wfs2, hshape, ?_, ?_⟩
    · intro k2 hk2
      simp only [fieldNames, List.map_cons, List.mem_cons] at hk2
      push_neg at hk2
      rw [hout k2 hk2.2]
      exact lookup_setField_other wfs k k2 (LVal.prim q) hk2.1
    · intro k2 cv2 hm
      rcases List.mem_cons.mp hm with he | hm2
      · rw [Prod.mk.injEq] at he
        obtain ⟨hek, hev⟩ := he
        subst hek
        subst hev
        constructor
        · intro q2 hq2
          cases hq2
          rw [hout k2 hkrest.1]
          exact lookup_setField_self wfs k2 (LVal.prim q)
        · intro ci2 ca2 cf2 he2
          cases he2
      · exact hfacts k2 cv2 hm2
  | c, (k, LVal.node kci kca kcf) :: rest, wi, warr, wfs, w', c', hcn, hcf, h => by
    have hkrest : k ∉ fieldNames rest ∧ nodupStrB (fieldNames rest) = true := by
      have hcn2 : nodupStrB (k :: fieldNames rest) = true := hcn
      exact nodupStrB_cons.mp hcn2
    have hcvwf : wfKeysB (LVal.node kci kca kcf) = true := (wfKeysFields_cons.mp hcf).1
    have hrestwf : wfKeysFields rest = true := (wfKeysFields_cons.mp hcf).2
    rcases hlk : lookupField wfs k with _ | u0
    · -- absent in the working node: the fold deep-copies the committed value
      have hu : jsGetRaw (LVal.node wi warr wfs) k = LVal.prim Prim.undef := by
        simp [jsGetRaw, hlk]
      have hcond : ¬ (typeOf (jsGetRaw (LVal.node wi warr wfs) k) ≠ "undefined") := by
        rw [hu]
        simp [typeOf]
      simp only [DataStore.resetFields, if_neg hcond, DataStore.writeProp] at h
      obtain ⟨wfs2, hshape, hout, hfacts⟩ :=
        resetFields_fix (deepCopy c (LVal.node kci kca kcf)).2 rest wi warr
          (setField wfs k (deepCopy c (LVal.node kci kca kcf)).1) w' c'
          hkrest.2 hrestwf h
      refine ⟨wfs2, hshape, ?_, ?_⟩
      · intro k2 hk2
        simp only [fieldNames, List.map_cons, List.mem_cons] at hk2
        push_neg at hk2
        rw [hout k2 hk2.2]
        exact lookup_setField_other wfs k k2 _ hk2.1
      · intro k2 cv2 hm
        rcases List.mem_cons.mp hm with he | hm2
        · rw [Prod.mk.injEq] at he
          obtain ⟨hek, hev⟩ := he
          subst hek
          subst hev
          constructor
          · intro q2 hq2
            cases hq2
          · intro ci2 ca2 cf2 he2
            cases he2
            refine ⟨(deepCopy c (LVal.node kci kca kcf)).1, ?_, ?_, ?_⟩
            · rw [hout k2 hkrest.1]
              exact lookup_setField_self wfs k2 _
            · have hstep : (deepCopy c (LVal.node kci kca kcf)).1
                  = LVal.node c kca ((deepCopyFields (c + 1) kcf).1) := rfl
              rw [hstep]
              simp [typeOf]
            · intro y
              exact resetNode_id y (LVal.node kci kca kcf) _
                hcvwf (deepCopy_wfKeys c _ hcvwf) (deepCopy_deepEq c _ hcvwf)
        · exact hfacts k2 cv2 hm2
    · have hu : jsGetRaw (LVal.node wi warr wfs) k = u0 := by
        simp [jsGetRaw, hlk]
      rcases u0 with q0 | ⟨ui, ua, ufs⟩
      · by_cases hq0 : typeOf (LVal.prim q0) = "undefined"
        · -- a stored undefined: the typeof probe sends the fold to deepCopy
          have hcond : ¬ (typeOf (jsGetRaw (LVal.node wi warr wfs) k) ≠ "undefined") := by
            rw [hu]
            exact not_not_intro hq0
          simp only [DataStore.resetFields, if_neg hcond, DataStore.writeProp] at h
          obtain ⟨wfs2, hshape, hout, hfacts⟩ :=
            resetFields_fix (deepCopy c (LVal.node kci kca kcf)).2 rest wi warr
              (setField wfs k (deepCopy c (LVal.node kci kca kcf)).1) w' c'
              hkrest.2 hrestwf h
          refine ⟨wfs2, hshape, ?_, ?_⟩
          · intro k2 hk2
            simp only [fieldNames, List.map_cons, List.mem_cons] at hk2
            push_neg at hk2
            rw [hout k2 hk2.2]
            exact lookup_setField_other wfs k k2 _ hk2.1
          · intro k2 cv2 hm
            rcases List.mem_cons.mp hm with he | hm2
            · rw [Prod.mk.injEq] at he
              obtain ⟨hek, hev⟩ := he
              subst hek
              subst hev
              constructor
              · intro q2 hq2
                cases hq2
              · intro ci2 ca2 cf2 he2
                cases he2
                refine ⟨(deepCopy c (LVal.node kci kca kcf)).1, ?_, ?_, ?_⟩
                · rw [hout k2 hkrest.1]
                  exact lookup_setField_self wfs k2 _
                · have hstep : (deepCopy c (LVal.node kci kca kcf)).1
                      = LVal.node c kca ((deepCopyFields (c + 1) kcf).1) := rfl
                  rw [hstep]
                  simp [typeOf]
                · intro y
                  exact resetNode_id y (LVal.node kci kca kcf) _
                    hcvwf (deepCopy_wfKeys c _ hcvwf) (deepCopy_deepEq c _ hcvwf)
            · exact hfacts k2 cv2 hm2
        · -- a primitive working value: the nested fold only succeeds with an
          -- empty committed composite and returns the primitive untouched
          simp only [DataStore.resetFields, hu, if_pos hq0] at h
          rcases hrn : DataStore.resetNode c (LVal.node kci kca kcf) (LVal.prim q0)
              with _ | r
          · rw [hrn] at h
            have h2 : (none : Option (LVal × Nat)) = some (w', c') := h
            cases h2
          · obtain ⟨hknil, hreq⟩ := resetNode_prim_base hrn
            subst hknil
            subst hreq
            rw [hrn] at h
            have h2 : DataStore.resetFields c rest
                (LVal.node wi warr (setField wfs k (LVal.prim q0))) = some (w', c') := h
            obtain ⟨wfs2, hshape, hout, hfacts⟩ :=
              resetFields_fix c rest wi warr (setField wfs k (LVal.prim q0)) w' c'
                hkrest.2 hrestwf h2
            refine ⟨wfs2, hshape, ?_, ?_⟩
            · intro k2 hk2
              simp only [fieldNames, List.map_cons, List.mem_cons] at hk2
              push_neg at hk2
              rw [hout k2 hk2.2]
              exact lookup_setField_other wfs k k2 _ hk2.1
            · intro k2 cv2 hm
              rcases List.mem_cons.mp hm with he | hm2
              · rw [Prod.mk.injEq] at he
                obtain ⟨hek, hev⟩ := he
                subst hek
                subst hev
                constructor
                · intro q2 hq2
                  cases hq2
                · intro ci2 ca2 cf2 he2
                  cases he2
                  refine ⟨LVal.prim q0, ?_, hq0, ?_⟩
                  · rw [hout k2 hkrest.1]
                    exact lookup_setField_self wfs k2 _
                  · intro y
                    rfl
              · exact hfacts k2 cv2 hm2
      · -- a composite working value: the nested fold recurses
        have hcond2 : typeOf (LVal.node ui ua ufs) ≠ "undefined" := by
          simp [typeOf]
        simp only [DataStore.resetFields, hu, if_pos hcond2] at h
        rcases hrn : DataStore.resetNode c (LVal.node kci kca kcf)
            (LVal.node ui ua ufs) with _ | r
        · rw [hrn] at h
          have h2 : (none : Option (LVal × Nat)) = some (w', c') := h
          cases h2
        · obtain ⟨v1, c2⟩ := r
          rw [hrn] at h
          have h2 : DataStore.resetFields c2 rest
              (LVal.node wi warr (setField wfs k v1)) = some (w', c') := h
          obtain ⟨wfs2, hshape, hout, hfacts⟩ :=
            resetFields_fix c2 rest wi warr (setField wfs k v1) w' c'
              hkrest.2 hrestwf h2
          refine ⟨wfs2, hshape, ?_, ?_⟩
          · intro k2 hk2
            simp only [fieldNames, List.map_cons, List.mem_cons] at hk2
            push_neg at hk2
            rw [hout k2 hk2.2]
            exact lookup_setField_other wfs k k2 _ hk2.1
          · intro k2 cv2 hm
            rcases List.mem_cons.mp hm with he | hm2
            · rw [Prod.mk.injEq] at he
              obtain ⟨hek, hev⟩ := he
              subst hek
              subst hev
              constructor
              · intro q2 hq2
                cases hq2
              · intro ci2 ca2 cf2 he2
                cases he2
                obtain ⟨z1, hz1⟩ := resetNode_node_shape hrn
                refine ⟨v1, ?_, ?_, ?_⟩
                · rw [hout k2 hkrest.1]
                  exact lookup_setField_self wfs k2 _
                · rw [hz1]
                  simp [typeOf]
                · exact resetNode_fix c kci kca kcf (LVal.node ui ua ufs) v1 c2
                    hcvwf hrn
            · exact hfacts k2 cv2 hm2
termination_by _ cfs _ _ _ _ _ => sizeOf cfs
decreasing_by
  all_goals simp_wf
  all_goals omega
end

namespace DataStore

/-- C9: on any store with a working tree and a namespace path resolving to
composite nodes in both trees, a completing reset() is idempotent: the
second reset() returns the very same store, so every get and keys
observation, at this namespace and every other path, is identical after
one reset and after two. No alignment or prototype-name condition is
assumed — in particular misaligned working values (a primitive stored
where the committed tree holds a composite) are covered. The only side
condition is that the committed node carries no duplicate own keys, which
no JavaScript object can have (a representation invariant of the
association-list embedding, not a restriction on reachable stores). -/
theorem c9_idempotent (s s1 : Store) (p : List String)
    (a : LVal) (ci wi : Nat) (carr warr : Bool) (cfs wfs : List (String × LVal))
    (ha : s.activeData = some a)
    (hc : resolveNs s.data p = some (LVal.node ci carr cfs))
    (hw : resolveNs a p = some (LVal.node wi warr wfs))
    (hwf : wfKeysB (LVal.node ci carr cfs) = true)
    (hr : reset s p = some s1) :
    ∃ s2, reset s1 p = some s2 ∧ s2 = s1 ∧
      (∀ q key, get s2 q key = get s1 q key) ∧ (∀ q, keys s2 q = keys s1 q) := by
  simp only [reset, ha, hc, hw] at hr
  rcases hrn : resetNode s.nextId (LVal.node ci carr cfs) (LVal.node wi warr wfs)
      with _ | r
  · rw [hrn] at hr
    have h2 : (none : Option Store) = some s1 := hr
    cases h2
  · obtain ⟨w1, c1⟩ := r
    rw [hrn] at hr
    have hr2 : (match updAt a p (fun _ => some w1) with
        | some a2 => some (Store.mk s.data (some a2) c1)
        | none => none) = some s1 := hr
    rcases hupd : updAt a p (fun _ => some w1) with _ | a2
    · rw [hupd] at hr2
      have h2 : (none : Option Store) = some s1 := hr2
      cases h2
    · rw [hupd] at hr2
      have h2 : (some (Store.mk s.data (some a2) c1) : Option Store) = some s1 := hr2
      cases h2
      have hres : resolveNs a2 p = some w1 := by
        obtain ⟨a3, hupd2, hres2⟩ := resolve_updAt (fun _ => some w1) hw rfl
        rw [hupd] at hupd2
        cases hupd2
        exact hres2
      have hfix := resetNode_fix s.nextId ci carr cfs (LVal.node wi warr wfs) w1 c1
        hwf hrn
      have hupdself := updAt_self (fun _ => some w1) hres rfl
      refine ⟨Store.mk s.data (some a2) c1, ?_, rfl, fun q key => rfl, fun q => rfl⟩
      simp only [reset, hc, hres, hfix c1, hupdself]

/-- C9 witness, instantiating the idempotence theorem on the concrete
misaligned store whose committed tree holds a composite at a while the
working tree staged the primitive 5 there: one reset leaves it unchanged
and the second reset returns the identical store. -/
theorem c9_witness :
    ∃ s2, reset exC4 [] = some s2 ∧ s2 = exC4 ∧
      (∀ q key, get s2 q key = get exC4 q key) ∧ (∀ q, keys s2 q = keys exC4 q) :=
  c9_idempotent exC4 exC4 []
    (LVal.node 2 false [("a", LVal.prim (Prim.num 5))])
    0 2 false false [("a", LVal.node 1 false [])] [("a", LVal.prim (Prim.num 5))]
    rfl rfl rfl (by decide) (by rfl)

end DataStore
